import Mathlib

/-!
Verification of the BMSSP repository: a shallow embedding of the
BMSSP recursive shortest-path engine, the Block-Based Linked List (BBLL)
priority structure, and the intrusive circular doubly-linked Block,
together with theorems settling the specification claims.

Python floats are modelled as exact extended rationals (`EV`), Python
lists as Lean lists, Python dicts as association lists, the red-black
tree of bounds as its observable contract (a sorted list of keys), and
Python exceptions as an explicit error monad.  Loops without an evident
termination measure take an explicit fuel parameter; concrete
evaluations supply ample fuel.
-/

namespace BV

/-- Decidable equality of `Except` results. -/
instance {ε α : Type} [DecidableEq ε] [DecidableEq α] : DecidableEq (Except ε α) := fun x y =>
  match x, y with
  | .error a, .error b =>
    if h : a = b then isTrue (by rw [h]) else isFalse (fun hc => h (Except.error.inj hc))
  | .ok a, .ok b =>
    if h : a = b then isTrue (by rw [h]) else isFalse (fun hc => h (Except.ok.inj hc))
  | .error _, .ok _ => isFalse (fun hc => Except.noConfusion hc)
  | .ok _, .error _ => isFalse (fun hc => Except.noConfusion hc)

/-- An exact rational, as a raw pair `n / d` of integers with positive
denominator (every value the embedding builds keeps `0 < d`).  All
comparisons cross-multiply, so two representations of the same value
compare equal — exactly Python's value semantics for its floats.  A raw
pair is used instead of Mathlib's `ℚ` so that the kernel can evaluate
the embedding (the library's rational primitives are irreducible). -/
structure Q where
  n : Int
  d : Int
deriving DecidableEq, Repr

/-- The rational `k / 1`. -/
def Q.ofInt (k : Int) : Q := ⟨k, 1⟩

/-- Addition. -/
def Q.add (a b : Q) : Q := ⟨a.n * b.d + b.n * a.d, a.d * b.d⟩

/-- Subtraction. -/
def Q.sub (a b : Q) : Q := ⟨a.n * b.d - b.n * a.d, a.d * b.d⟩

/-- Multiplication. -/
def Q.mul (a b : Q) : Q := ⟨a.n * b.n, a.d * b.d⟩

/-- Division (keeps the denominator positive; a zero divisor would be a
Python `ZeroDivisionError` and is never reached). -/
def Q.div (a b : Q) : Q :=
  if b.n < 0 then ⟨-(a.n * b.d), a.d * (-b.n)⟩ else ⟨a.n * b.d, a.d * b.n⟩

/-- Value order `<` by cross-multiplication. -/
def Q.blt (a b : Q) : Bool := decide (a.n * b.d < b.n * a.d)

/-- Value order `<=`. -/
def Q.ble (a b : Q) : Bool := decide (a.n * b.d ≤ b.n * a.d)

/-- Value equality. -/
def Q.beq (a b : Q) : Bool := decide (a.n * b.d = b.n * a.d)

/-- The rational value of a raw pair, in Mathlib's `ℚ` (for the
arithmetic theorems about the packed keys). -/
def Q.toRat (a : Q) : ℚ := (a.n : ℚ) / (a.d : ℚ)

/-- Extended value: a Python float that is either `-inf`, finite, or `+inf`
(`float('-inf')`, an ordinary value, `float('inf')`).  Finite arithmetic is
exact rational arithmetic. -/
inductive EV where
  | ninf : EV
  | fin : Q → EV
  | inf : EV
deriving DecidableEq, Repr

/-- Python `<` on extended floats. -/
def EV.lt : EV → EV → Bool
  | .ninf, .ninf => false
  | .ninf, _ => true
  | .fin _, .ninf => false
  | .fin a, .fin b => Q.blt a b
  | .fin _, .inf => true
  | .inf, _ => false

/-- Python `<=` on extended floats (total order, no NaN in this code). -/
def EV.le (a b : EV) : Bool := !(EV.lt b a)

/-- Python `==` on extended floats (value equality). -/
def EV.beq : EV → EV → Bool
  | .ninf, .ninf => true
  | .fin a, .fin b => Q.beq a b
  | .inf, .inf => true
  | _, _ => false

/-- Python `x + w` where `x` may be infinite and `w` is finite. -/
def EV.add (a : EV) (w : Q) : EV :=
  match a with
  | .ninf => .ninf
  | .fin q => .fin (Q.add q w)
  | .inf => .inf

/-- Python `min` of two extended floats. -/
def EV.minE (a b : EV) : EV := if EV.lt b a then b else a

/-- Python `max` of two extended floats. -/
def EV.maxE (a b : EV) : EV := if EV.lt a b then b else a

/-- Membership of a value in a list, by value equality. -/
def evMem (x : EV) (l : List EV) : Bool := l.any (fun y => EV.beq y x)

/-- Remove the first occurrence of a value from a list (value equality,
like Python removing a float key). -/
def evErase : List EV → EV → List EV
  | [], _ => []
  | a :: rest, x => if EV.beq a x then rest else a :: evErase rest x

/-- Mean of two extended floats, as Python computes `(left + right) / 2`
in the even case of the median finder. -/
def EV.avg : EV → EV → EV
  | .fin a, .fin b => .fin (Q.div (Q.add a b) (Q.ofInt 2))
  | .inf, _ => .inf
  | _, .inf => .inf
  | .ninf, _ => .ninf
  | _, .ninf => .ninf

/-! ## Pointer-level model of `Block.py`
(`src/BMSSP_algorithm/data_structures/Block.py`)

`BNode` objects are intrusive: one per vertex id, living in a shared
store.  `prev`/`next` are vertex ids (`Option Nat`, `none` = Python
`None`).  A `Block` holds a head pointer and cached `size`,
`max_val`, `min_val`. -/

/-- One intrusive entry (`BNode`): key (vertex id), value, and the two
circular-list pointers. -/
structure PNode where
  key : Nat
  val : EV
  prev : Option Nat
  next : Option Nat
deriving DecidableEq, Repr

/-- The shared node store, indexed by vertex id (Python object identity). -/
def Store := List PNode

instance : DecidableEq Store := by unfold Store; infer_instance

/-- Read a node from the store (fresh unlinked node as the default for
an out-of-range id; in the source the store always covers all ids). -/
def Store.get (s : Store) (i : Nat) : PNode :=
  List.getD s i { key := 0, val := .inf, prev := none, next := none }

/-- Write a node back to the store. -/
def Store.set (s : Store) (i : Nat) (n : PNode) : Store :=
  List.set s i n

/-- `Block`: circular doubly-linked list with cached extrema
(`head`, `size`, `max_val`, `min_val`). -/
structure PBlock where
  head : Option Nat
  size : Nat
  max_val : EV
  min_val : EV
deriving DecidableEq, Repr

/-- A fresh empty block (`Block.__init__`). -/
def PBlock.empty : PBlock :=
  { head := none, size := 0, max_val := .ninf, min_val := .inf }

/-- Walk the circular list from `cur`, stopping when the walk returns to
the head `h` (fuel bounds the walk; a store of `n` nodes can hold no
cycle longer than `n`). -/
def walkFrom (s : Store) (h : Nat) : Nat → Nat → List Nat
  | _, 0 => []
  | cur, fuel + 1 =>
    cur :: (match (Store.get s cur).next with
      | none => []
      | some nx => if nx = h then [] else walkFrom s h nx fuel)

/-- All node ids of a block, in traversal order from the head
(`Block.iterate`). -/
def PBlock.nodeIds (b : PBlock) (s : Store) : List Nat :=
  match b.head with
  | none => []
  | some h => walkFrom s h h (s.length + 1)

/-- `Block.recompute_max`: traverse all nodes and take the largest value. -/
def PBlock.recomputeMax (b : PBlock) (s : Store) : EV :=
  match b.head with
  | none => .ninf
  | some h =>
    (walkFrom s h h (s.length + 1)).foldl (fun acc i => EV.maxE acc (Store.get s i).val) .ninf

/-- `Block.recompute_min`: traverse all nodes and take the smallest value. -/
def PBlock.recomputeMin (b : PBlock) (s : Store) : EV :=
  match b.head with
  | none => .inf
  | some h =>
    (walkFrom s h h (s.length + 1)).foldl (fun acc i => EV.minE acc (Store.get s i).val) .inf

/-- `Block.insert(node)`: append the node before the head (at the tail of
the circular list), updating size and cached extrema.  The sequential
pointer assignments of the source are mirrored one write at a time so
that aliasing behaves identically. -/
def PBlock.insertNode (b : PBlock) (s : Store) (n : Nat) : PBlock × Store :=
  let nd := Store.get s n
  let b1 : PBlock :=
    { b with
      size := b.size + 1
      max_val := if EV.lt b.max_val nd.val then nd.val else b.max_val
      min_val := if EV.lt nd.val b.min_val then nd.val else b.min_val }
  match b.head with
  | none =>
    let s1 := Store.set s n { nd with next := some n, prev := some n }
    ({ b1 with head := some n }, s1)
  | some h =>
    -- tail = self.head.prev (non-null in every well-formed block)
    let tail := (Store.get s h).prev.getD h
    let s1 := Store.set s tail { Store.get s tail with next := some n }
    let s2 := Store.set s1 n { Store.get s1 n with prev := some tail }
    let s3 := Store.set s2 n { Store.get s2 n with next := some h }
    let s4 := Store.set s3 h { Store.get s3 h with prev := some n }
    (b1, s4)

/-- `Block.delete(node)`: unlink the node by reference.  Ignores a node
whose `prev` or `next` is null; resets the block when the node is the
sole element; otherwise splices the neighbours together, decrements the
size, and recomputes a cached extremum only when the removed value
matched it.  The node's own `prev`/`next` fields are never written. -/
def PBlock.deleteNode (b : PBlock) (s : Store) (n : Nat) : PBlock × Store :=
  match b.head with
  | none => (b, s)
  | some h =>
    let nd := Store.get s n
    match nd.prev, nd.next with
    | some p, some q =>
      if n = h ∧ q = h then
        (PBlock.empty, s)
      else
        let newHead := if n = h then some q else b.head
        let s1 := Store.set s p { Store.get s p with next := some q }
        let s2 := Store.set s1 q { Store.get s1 q with prev := some p }
        let b2 : PBlock :=
          { head := newHead, size := b.size - 1, max_val := b.max_val, min_val := b.min_val }
        let newMax := if EV.beq nd.val b2.max_val then b2.recomputeMax s2 else b2.max_val
        let b3 : PBlock := { b2 with max_val := newMax }
        let newMin := if EV.beq nd.val b3.min_val then b3.recomputeMin s2 else b3.min_val
        ({ b3 with min_val := newMin }, s2)
    | _, _ => (b, s)

lemma store_get_set_ne (s : Store) (i j : Nat) (x : PNode) (hij : i ≠ j) :
    Store.get (Store.set s i x) j = Store.get s j := by
  unfold Store.get Store.set
  induction s generalizing i j with
  | nil => simp
  | cons a as ih =>
    cases i with
    | zero =>
      cases j with
      | zero => exact absurd rfl hij
      | succ j => simp [List.set, List.getD]
    | succ i =>
      cases j with
      | zero => simp [List.set, List.getD]
      | succ j =>
        simp only [List.set, List.getD_cons_succ]
        exact ih i j (fun hc => hij (by rw [hc]))

/-- C10: for an entry `n` linked in a block (prev `p`, next `q`, head `h`;
either the singleton case `n = h ∧ q = n`, or a proper neighbour
configuration `p ≠ n ∧ q ≠ n`), `Block.delete` unlinks the entry and
updates the block's size, but never writes the entry's own `prev`/`next`
pointers: afterwards they still hold `some p` / `some q`, so the entry
still passes the `node.next is not None` linked test that `BBLL.insert`
uses to decide whether to delete first. -/
theorem block_delete_frame (s : Store) (b : PBlock) (n p q h : Nat)
    (hh : b.head = some h)
    (hp : (Store.get s n).prev = some p)
    (hq : (Store.get s n).next = some q)
    (hcase : (n = h ∧ q = n) ∨ (p ≠ n ∧ q ≠ n)) :
    (Store.get (PBlock.deleteNode b s n).2 n).prev = some p ∧
    (Store.get (PBlock.deleteNode b s n).2 n).next = some q ∧
    (Store.get (PBlock.deleteNode b s n).2 n).next ≠ none ∧
    (PBlock.deleteNode b s n).1.size = (if n = h ∧ q = h then 0 else b.size - 1) := by
  unfold PBlock.deleteNode
  rw [hh]
  simp only [hp, hq]
  rcases hcase with ⟨hn, hqn⟩ | ⟨hpn, hqn⟩
  · have hqh : q = h := by rw [hqn, hn]
    rw [if_pos ⟨hn, hqh⟩]
    exact ⟨hp, hq, by rw [hq]; exact fun hc => Option.noConfusion hc, by rw [if_pos ⟨hn, hqh⟩]; rfl⟩
  · have hcond : ¬ (n = h ∧ q = h) := by
      rintro ⟨h1, h2⟩
      exact hqn (h2.trans h1.symm)
    rw [if_neg hcond, if_neg hcond]
    have hget :
        Store.get (Store.set (Store.set s p { Store.get s p with next := some q }) q
          { Store.get (Store.set s p { Store.get s p with next := some q }) q with prev := some p }) n
        = Store.get s n := by
      rw [store_get_set_ne _ _ _ _ hqn, store_get_set_ne _ _ _ _ hpn]
    exact ⟨by simp only [hget, hp], by simp only [hget, hq],
      by simp only [hget, hq]; exact fun hc => Option.noConfusion hc, rfl⟩

/-- Concrete three-node circular block used to witness `block_delete_frame`. -/
def wStore : Store :=
  [{ key := 0, val := .fin (Q.ofInt 1), prev := some 2, next := some 1 },
   { key := 1, val := .fin (Q.ofInt 2), prev := some 0, next := some 2 },
   { key := 2, val := .fin (Q.ofInt 3), prev := some 1, next := some 0 }]

/-- The block over `wStore`: head 0, three entries. -/
def wBlock : PBlock :=
  { head := some 0, size := 3, max_val := .fin (Q.ofInt 3), min_val := .fin (Q.ofInt 1) }

/-- Witness for `block_delete_frame` at the concrete three-node block:
deleting node 1 leaves its pointers at its former neighbours 0 and 2. -/
theorem block_delete_frame_witness :
    (Store.get (PBlock.deleteNode wBlock wStore 1).2 1).prev = some 0 ∧
    (Store.get (PBlock.deleteNode wBlock wStore 1).2 1).next = some 2 ∧
    (Store.get (PBlock.deleteNode wBlock wStore 1).2 1).next ≠ none ∧
    (PBlock.deleteNode wBlock wStore 1).1.size = (if 1 = 0 ∧ 2 = 0 then 0 else wBlock.size - 1) :=
  block_delete_frame wStore wBlock 1 0 2 0 rfl rfl rfl
    (Or.inr ⟨by decide, by decide⟩)

/-! ## Functional model of the BBLL
(`src/benchmark/methods/BMSSP_utils/data_structures/BBLL.py`)

The Block and red-black-tree modules this file imports are not in the
repository snapshot; they are modelled from the spec (§4.1, §4.3, §3)
and the sibling sources: a Block is its entry list in traversal order
plus the cached `size`/`max_val`/`min_val`, and the bound tree is its
observable contract, a sorted list of keys.  A node records its value
and whether its `prev`/`next` pointers are non-null (`linked`); per
`block_delete_frame` those pointers are never reset, so non-nullness is
"has ever been linked". -/

/-- Error kinds of the Python runtime that the embedding makes explicit. -/
inductive Err where
  | keyError
  | recursionLimit
  | assertionError
  | zeroDivision
  | valueError
  | typeError
  | outOfFuel
deriving DecidableEq, Repr

/-- An intrusive entry as the BBLL sees it: recorded key and the
non-nullness of its list pointers. -/
structure FNode where
  val : EV
  linked : Bool
deriving DecidableEq, Repr

/-- Read a node (default: fresh unlinked node, matching
`BNode(v, float('inf'))`). -/
def getN (ns : List FNode) (i : Nat) : FNode :=
  List.getD ns i { val := .inf, linked := false }

/-- Write a node. -/
def setN (ns : List FNode) (i : Nat) (x : FNode) : List FNode :=
  List.set ns i x

/-- A node's current value. -/
def valN (ns : List FNode) (i : Nat) : EV := (getN ns i).val

/-- Spec-level Block: entries in traversal order plus cached
size and extrema. -/
structure FBlock where
  elems : List Nat
  size : Nat
  max_val : EV
  min_val : EV
deriving DecidableEq, Repr

/-- Fresh empty block. -/
def FBlock.empty : FBlock :=
  { elems := [], size := 0, max_val := .ninf, min_val := .inf }

/-- Fold the maximum value over a list of node ids. -/
def foldMaxV (ns : List FNode) (l : List Nat) : EV :=
  l.foldl (fun acc i => EV.maxE acc (valN ns i)) .ninf

/-- Fold the minimum value over a list of node ids. -/
def foldMinV (ns : List FNode) (l : List Nat) : EV :=
  l.foldl (fun acc i => EV.minE acc (valN ns i)) .inf

/-- `Block.insert(node)`: append at the tail, mark the node linked,
update size and cached extrema. -/
def FBlock.ins (b : FBlock) (ns : List FNode) (n : Nat) : FBlock × List FNode :=
  let v := valN ns n
  ({ elems := b.elems ++ [n]
     size := b.size + 1
     max_val := if EV.lt b.max_val v then v else b.max_val
     min_val := if EV.lt v b.min_val then v else b.min_val },
   setN ns n { getN ns n with linked := true })

/-- Insert a list of nodes into a block in order. -/
def insAll (b : FBlock) (ns : List FNode) (ids : List Nat) : FBlock × List FNode :=
  ids.foldl (fun p n => FBlock.ins p.1 p.2 n) (b, ns)

/-- `Block.delete(node)`: no-op on an empty block or a never-linked
node; full reset when the node is the sole element; otherwise remove it,
decrement the size, and recompute a cached extremum only when the
removed value matched it. -/
def FBlock.del (b : FBlock) (ns : List FNode) (n : Nat) : FBlock :=
  if b.elems.isEmpty then b
  else if !(getN ns n).linked then b
  else if b.elems = [n] then FBlock.empty
  else
    let v := valN ns n
    let elems2 := b.elems.erase n
    let newMax := if EV.beq v b.max_val then foldMaxV ns elems2 else b.max_val
    let newMin := if EV.beq v b.min_val then foldMinV ns elems2 else b.min_val
    { elems := elems2, size := b.size - 1, max_val := newMax, min_val := newMin }

/-- Deterministic embedding of `MedianFinder`'s randomised quickselect
(pivot := first element; the returned value is the k-th order statistic
regardless of pivot choice, and §7 requires a seedable deterministic
source). -/
def qselE : Nat → List EV → Nat → EV
  | 0, _, _ => .inf
  | _, [], _ => .inf
  | fuel + 1, arr, k =>
    match arr with
    | [] => .inf
    | [a] => a
    | a :: _ :: _ =>
      let pv := a
      let lows := arr.filter (fun x => EV.lt x pv)
      let highs := arr.filter (fun x => EV.lt pv x)
      let pivots := arr.filter (fun x => EV.beq x pv)
      if k < lows.length then qselE fuel lows k
      else if k < lows.length + pivots.length then pv
      else qselE fuel highs (k - lows.length - pivots.length)

/-- `MedianFinder.find_median`: middle order statistic for odd length,
mean of the two middle ones for even length. -/
def medianEV (values : List EV) : EV :=
  let n := values.length
  if n % 2 = 1 then qselE n values (n / 2)
  else EV.avg (qselE n values (n / 2 - 1)) (qselE n values (n / 2))

/-- `Block.find_median` over a block's values. -/
def FBlock.findMedian (b : FBlock) (ns : List FNode) : EV :=
  medianEV (b.elems.map (valN ns))

/-! Ordered set of bounds: modelled from the spec (§4.1) as a sorted
list of keys (the red-black tree's in-order view).  An equal key is
inserted to the right, matching BST insertion. -/

/-- Sorted insertion of a bound. -/
def boundsIns : List EV → EV → List EV
  | [], x => [x]
  | a :: rest, x => if EV.lt x a then x :: a :: rest else a :: boundsIns rest x

/-- Deletion of one occurrence of a bound (silent when absent). -/
def boundsDel (l : List EV) (x : EV) : List EV := evErase l x

/-- `search_bound(v)`: least bound strictly greater than `v`, `none`
when there is none. -/
def boundsSearch (l : List EV) (v : EV) : Option EV :=
  l.find? (fun b => EV.lt v b)

/-- Largest bound (`_find_max`). -/
def boundsMax (l : List EV) : Option EV := l.getLast?

/-- Smallest bound (`_find_min`). -/
def boundsMin (l : List EV) : Option EV := l.head?

/-! Python dict of blocks, as an association list (lookup, overwrite,
delete). -/

/-- Dict lookup. -/
def dGet (d : List (EV × FBlock)) (k : EV) : Option FBlock :=
  (d.find? (fun p => EV.beq p.1 k)).map (·.2)

/-- Dict write (replace in place or append). -/
def dSet : List (EV × FBlock) → EV → FBlock → List (EV × FBlock)
  | [], k, v => [(k, v)]
  | p :: rest, k, v => if EV.beq p.1 k then (k, v) :: rest else p :: dSet rest k v

/-- Dict deletion of a key. -/
def dDel : List (EV × FBlock) → EV → List (EV × FBlock)
  | [], _ => []
  | p :: rest, k => if EV.beq p.1 k then rest else p :: dDel rest k

/-- BBLL state: sentinel `B`, cap `M`, the two block dicts with their
bound sets, and the shared node store. -/
structure BB where
  B : EV
  M : Nat
  D0 : List (EV × FBlock)
  D0_bounds : List EV
  D1 : List (EV × FBlock)
  D1_bounds : List EV
  nodes : List FNode
deriving DecidableEq, Repr

/-- `BBLL.__init__(M, B, N)`. -/
def mkBB (M : Nat) (B : EV) (N : Nat) : BB :=
  { B := B, M := M
    D0 := [], D0_bounds := []
    D1 := [(B, FBlock.empty)], D1_bounds := [B]
    nodes := List.replicate N { val := .inf, linked := false } }

/-- The D1 part of `BBLL.delete` (the source's fall-through after the D0
branch): locate the bound, unlink, and drop the bound if the block
emptied and it is not the sentinel. -/
def deleteD1 (st : BB) (key : Nat) (val : EV) : BB :=
  let bound? := match boundsSearch st.D1_bounds val with
    | some b => some b
    | none => boundsMax st.D1_bounds
  match bound? with
  | none => st
  | some bound =>
    match dGet st.D1 bound with
    | none => st
    | some blk =>
      let blk2 := FBlock.del blk st.nodes key
      if blk2.elems.isEmpty ∧ !(EV.beq bound st.B) then
        { st with D1 := dDel st.D1 bound, D1_bounds := boundsDel st.D1_bounds bound }
      else { st with D1 := dSet st.D1 bound blk2 }

/-- `BBLL.delete(key, val)`: search D0 when `val` lies strictly below
the greatest D0 bound (falling back to that greatest bound when no D0
bound exceeds `val`), otherwise D1.  Missing bounds are a logged no-op. -/
def deleteBB (st : BB) (key : Nat) (val : EV) : BB :=
  match boundsMax st.D0_bounds with
  | some mx =>
    if EV.lt val mx then
      let bound := match boundsSearch st.D0_bounds val with
        | some b => b
        | none => mx
      match dGet st.D0 bound with
      | none => st
      | some blk =>
        let blk2 := FBlock.del blk st.nodes key
        if blk2.elems.isEmpty then
          { st with D0 := dDel st.D0 bound, D0_bounds := boundsDel st.D0_bounds bound }
        else { st with D0 := dSet st.D0 bound blk2 }
    else deleteD1 st key val
  | none => deleteD1 st key val

/-- `BBLL.split(block, old_bound)`: partition the block around its value
median into `L` (strictly below) and `R` (at least the median); the
median becomes the left bound, the old bound keys `R`; the sentinel is
never removed from the bound set. -/
def splitBB (st : BB) (blk : FBlock) (old_bound : EV) : BB :=
  if blk.elems.isEmpty then st
  else
    let median := FBlock.findMedian blk st.nodes
    let leftIds := blk.elems.filter (fun n => EV.lt (valN st.nodes n) median)
    let rightIds := blk.elems.filter (fun n => !(EV.lt (valN st.nodes n) median))
    let lp := insAll FBlock.empty st.nodes leftIds
    let rp := insAll FBlock.empty lp.2 rightIds
    let d1 := dDel st.D1 old_bound
    let d1b := if !(EV.beq old_bound st.B) then boundsDel st.D1_bounds old_bound else st.D1_bounds
    let d1b := boundsIns d1b median
    let d1b := if !(EV.beq old_bound st.B) then boundsIns d1b old_bound else d1b
    let d1 := dSet d1 median lp.1
    let d1 := dSet d1 old_bound rp.1
    { st with D1 := d1, D1_bounds := d1b, nodes := rp.2 }

/-- `BBLL.insert(key, new_val)`: no-op unless strictly improving;
delete first when the node's pointers are non-null; record the new
value; insert into the least D1 bound above it (falling back to the
largest bound, then the sentinel); split on overflow. -/
def insertBB (st : BB) (key : Nat) (new_val : EV) : Except Err BB :=
  let node := getN st.nodes key
  let old_val := node.val
  if !(EV.lt new_val old_val) then .ok st
  else
    let st1 := if node.linked then deleteBB st key old_val else st
    let st2 := { st1 with nodes := setN st1.nodes key { getN st1.nodes key with val := new_val } }
    let bound := match boundsSearch st2.D1_bounds new_val with
      | some b => b
      | none => match boundsMax st2.D1_bounds with
        | some mb => mb
        | none => st2.B
    match dGet st2.D1 bound with
    | none => .error .keyError
    | some blk =>
      let p := FBlock.ins blk st2.nodes key
      let st3 := { st2 with D1 := dSet st2.D1 bound p.1, nodes := p.2 }
      if p.1.size > st3.M then .ok (splitBB st3 p.1 bound) else .ok st3

/-- Stable insertion of an id into a list sorted by node value
(Python `sorted(nodes, key=val)`). -/
def sortedInsByVal (ns : List FNode) : List Nat → Nat → List Nat
  | [], x => [x]
  | a :: rest, x =>
    if EV.lt (valN ns x) (valN ns a) then x :: a :: rest
    else a :: sortedInsByVal ns rest x

/-- Stable sort of ids by node value. -/
def sortByVal (ns : List FNode) (ids : List Nat) : List Nat :=
  ids.foldl (sortedInsByVal ns) []

/-- `recursive_partition` of `batch_prepend`: blocks of at most `M`
sorted entries, splitting around the value median.  All-equal values
make the left part empty and recurse forever in the source; the fuel
surfaces that as `RecursionError`. -/
def recPartition (M : Nat) : Nat → List FNode → List Nat → Option (List FBlock × List FNode)
  | 0, _, _ => none
  | fuel + 1, ns, ids =>
    if ids.length ≤ M then
      let p := insAll FBlock.empty ns (sortByVal ns ids)
      some ([p.1], p.2)
    else
      let m := medianEV (ids.map (valN ns))
      let left := ids.filter (fun x => EV.lt (valN ns x) m)
      let right := ids.filter (fun x => !(EV.lt (valN ns x) m))
      match recPartition M fuel ns left with
      | none => none
      | some pl =>
        match recPartition M fuel pl.2 right with
        | none => none
        | some pr => some (pl.1 ++ pr.1, pr.2)

/-- `BBLL.find_global_min()`: smallest value held in the first D0 block
and the first D1 block, or `B` when both are missing or empty. -/
def findGlobalMin (st : BB) : Except Err EV :=
  let c := st.B
  match boundsMin st.D0_bounds with
  | some mb =>
    match dGet st.D0 mb with
    | none => .error .keyError
    | some blk =>
      let c := if !blk.elems.isEmpty && EV.lt blk.min_val c then blk.min_val else c
      match boundsMin st.D1_bounds with
      | some mb1 =>
        match dGet st.D1 mb1 with
        | none => .error .keyError
        | some blk1 =>
          .ok (if !blk1.elems.isEmpty && EV.lt blk1.min_val c then blk1.min_val else c)
      | none => .ok c
  | none =>
    match boundsMin st.D1_bounds with
    | some mb1 =>
      match dGet st.D1 mb1 with
      | none => .error .keyError
      | some blk1 =>
        .ok (if !blk1.elems.isEmpty && EV.lt blk1.min_val c then blk1.min_val else c)
    | none => .ok c

/-- Prepend the partition blocks to D0 in reverse order; the bound of
block `i` is the minimum of block `i+1`, and the last block's bound is
the global minimum `g` computed before the batch touches D0. -/
def prependBlocks (st : BB) (blocks : List FBlock) (g : EV) : BB :=
  let bnds := (blocks.drop 1).map (·.min_val) ++ [g]
  ((blocks.zip bnds).reverse).foldl
    (fun s p =>
      { s with D0 := dSet s.D0 p.2 p.1, D0_bounds := boundsIns s.D0_bounds p.2 })
    st

/-- `BBLL.batch_prepend(L)`: record the supplied values, partition into
blocks of at most `M`, and prepend them to D0. -/
def batchPrepend (st : BB) (L : List (Nat × EV)) (fuel : Nat) : Except Err BB :=
  if L.length = 0 then .ok st
  else
    let ns1 := L.foldl (fun ns p => setN ns p.1 { getN ns p.1 with val := p.2 }) st.nodes
    let st1 := { st with nodes := ns1 }
    match recPartition st.M fuel ns1 (L.map (·.1)) with
    | none => .error .recursionLimit
    | some pr =>
      let st2 := { st1 with nodes := pr.2 }
      match findGlobalMin st2 with
      | .error e => .error e
      | .ok g => .ok (prependBlocks st2 pr.1 g)

/-- One step of block collection: append `(id, val)` pairs until the
accumulator reaches `M` (checked after each append, as in the source). -/
def addUpTo (ns : List FNode) (M : Nat) : List Nat → List (Nat × EV) → List (Nat × EV) × Bool
  | [], acc => (acc, false)
  | i :: rest, acc =>
    let acc2 := acc ++ [(i, valN ns i)]
    if M ≤ acc2.length then (acc2, true) else addUpTo ns M rest acc2

/-- Walk blocks in ascending bound order, collecting up to `M` entries
(`collect_from_D0` / `collect_from_D1`). -/
def collectLoop (d : List (EV × FBlock)) (ns : List FNode) (M : Nat)
    : List EV → List (Nat × EV) → Except Err (List (Nat × EV))
  | [], acc => .ok acc
  | b :: rest, acc =>
    match dGet d b with
    | none => .error .keyError
    | some blk =>
      let p := addUpTo ns M blk.elems acc
      if p.2 then .ok p.1 else collectLoop d ns M rest p.1

/-- `collect_from_D0`. -/
def collectFromD0 (st : BB) (M : Nat) : Except Err (List (Nat × EV)) :=
  collectLoop st.D0 st.nodes M st.D0_bounds []

/-- `collect_from_D1`. -/
def collectFromD1 (st : BB) (M : Nat) : Except Err (List (Nat × EV)) :=
  collectLoop st.D1 st.nodes M st.D1_bounds []

/-- Sorted no-duplicate insertion (model of adding to a Python set of
small ints). -/
def ssAdd : List Nat → Nat → List Nat
  | [], x => [x]
  | a :: rest, x =>
    if x < a then x :: a :: rest
    else if x = a then a :: rest
    else a :: ssAdd rest x

/-- The set of keys of a pair list (`{key for (key, val) in S}`). -/
def dedupKeys (l : List (Nat × EV)) : List Nat :=
  l.foldl (fun s p => ssAdd s p.1) []

/-- Deterministic embedding of `pull`'s local randomised quickselect on
pairs (pivot := first element; `pivots[0]` is returned in the middle
branch as in the source). -/
def qselP : Nat → List (Nat × EV) → Nat → Nat × EV
  | 0, _, _ => (0, .inf)
  | _, [], _ => (0, .inf)
  | fuel + 1, arr, k =>
    match arr with
    | [] => (0, .inf)
    | [a] => a
    | a :: _ :: _ =>
      let pv := a.2
      let lows := arr.filter (fun x => EV.lt x.2 pv)
      let highs := arr.filter (fun x => EV.lt pv x.2)
      let pivots := arr.filter (fun x => EV.beq x.2 pv)
      if k < lows.length then qselP fuel lows k
      else if k < lows.length + pivots.length then pivots.headD (0, .inf)
      else qselP fuel highs (k - lows.length - pivots.length)

/-- `BBLL.pull()`: collect up to `M` entries from D0 and from D1; if
fewer than `M` were found delete them all and return them with the
sentinel `B`; otherwise keep the `M` smallest by value (threshold via
quickselect, ties filled up to the cap), delete those, and return them
with the remaining global minimum. -/
def pullBB (st : BB) : Except Err (BB × (List Nat × EV)) :=
  let M := st.M
  match collectFromD0 st M with
  | .error e => .error e
  | .ok S0 =>
    match collectFromD1 st M with
    | .error e => .error e
    | .ok S1 =>
      let sAll := S0 ++ S1
      if sAll.length < M then
        let st2 := sAll.foldl (fun s p => deleteBB s p.1 p.2) st
        .ok (st2, (dedupKeys sAll, st.B))
      else
        let thr := (qselP sAll.length sAll (M - 1)).2
        let sp0 := sAll.filter (fun x => EV.lt x.2 thr)
        let sp :=
          if sp0.length < M then
            sp0 ++ (sAll.filter (fun x => EV.beq x.2 thr)).take (M - sp0.length)
          else sp0
        let st2 := sp.foldl (fun s p => deleteBB s p.1 p.2) st
        match findGlobalMin st2 with
        | .error e => .error e
        | .ok g => .ok (st2, (dedupKeys sp, g))

/-- `BBLL.is_empty()`. -/
def isEmptyBB (st : BB) : Except Err Bool :=
  if !st.D0_bounds.isEmpty then .ok false
  else if 1 < st.D1_bounds.length then .ok false
  else
    match dGet st.D1 st.B with
    | none => .error .keyError
    | some blk => .ok blk.elems.isEmpty

/-- Equality of two bound lists as sets (`set(...) == set(...)`). -/
def eqAsSets (a b : List EV) : Bool :=
  a.all (fun x => evMem x b) && b.all (fun x => evMem x a)

/-- `BBLL._check_invariants()`: tree/dict key agreement for D0 and D1
and presence of the sentinel. -/
def checkInvariantsBB (st : BB) : Bool :=
  eqAsSets st.D0_bounds (st.D0.map (·.1)) &&
  evMem st.B st.D1_bounds && evMem st.B (st.D1.map (·.1)) &&
  eqAsSets st.D1_bounds (st.D1.map (·.1))

/-! ## Python `heapq` (binary min-heap on a list), used by `base_case`
and the baseline Dijkstra.  Faithful translation of `heappush` /
`heappop` with their sift routines, so pop order (including ties) is
exactly CPython's. -/

/-- `_siftdown(heap, startpos, pos)` after `newitem` has been read. -/
def sdGo {α : Type} (lt : α → α → Bool) (newitem : α) :
    Nat → List α → Nat → Nat → List α
  | 0, heap, _, pos => heap.set pos newitem
  | fuel + 1, heap, startpos, pos =>
    if startpos < pos then
      let parentpos := (pos - 1) / 2
      let parent := heap.getD parentpos newitem
      if lt newitem parent then
        sdGo lt newitem fuel (heap.set pos parent) startpos parentpos
      else heap.set pos newitem
    else heap.set pos newitem

/-- The descend phase of `_siftup(heap, pos)`: bubble the smaller child
up until a leaf position is reached; returns the final position. -/
def suGo {α : Type} (lt : α → α → Bool) (newitem : α) :
    Nat → List α → Nat → Nat × List α
  | 0, heap, pos => (pos, heap)
  | fuel + 1, heap, pos =>
    let endpos := heap.length
    let childpos := 2 * pos + 1
    if childpos < endpos then
      let rightpos := childpos + 1
      let cp :=
        if rightpos < endpos &&
            !(lt (heap.getD childpos newitem) (heap.getD rightpos newitem)) then
          rightpos
        else childpos
      suGo lt newitem fuel (heap.set pos (heap.getD cp newitem)) cp
    else (pos, heap)

/-- `heapq.heappush`. -/
def hpush {α : Type} (lt : α → α → Bool) (heap : List α) (item : α) : List α :=
  let h2 := heap ++ [item]
  sdGo lt item h2.length h2 0 (h2.length - 1)

/-- `heapq.heappop`: `none` on an empty heap (Python raises). -/
def hpop {α : Type} (lt : α → α → Bool) (heap : List α) : Option (α × List α) :=
  match heap.getLast? with
  | none => none
  | some lastelt =>
    let heap1 := heap.dropLast
    match heap1.head? with
    | none => some (lastelt, [])
    | some returnitem =>
      let heap2 := heap1.set 0 lastelt
      match heap2.get? 0 with
      | none => some (returnitem, heap2)
      | some newitem =>
        let pr := suGo lt newitem heap2.length heap2 0
        let heap3 := pr.2.set pr.1 newitem
        some (returnitem, sdGo lt newitem (pr.1 + 1) heap3 0 pr.1)

/-- Python tuple order on `(float, int)` pairs. -/
def ltEN (a b : EV × Nat) : Bool :=
  EV.lt a.1 b.1 || (EV.beq a.1 b.1 && a.2 < b.2)

/-- Python tuple order on finite `(float, int)` pairs. -/
def ltQN (a b : Q × Nat) : Bool :=
  Q.blt a.1 b.1 || (Q.beq a.1 b.1 && a.2 < b.2)

/-! ## The graph adapter and derived parameters -/

/-- The adjacency-list graph the core consumes (`node_count`,
`get_neighbors`). -/
structure PyGraph where
  node_count : Nat
  adj : List (List (Nat × Q))
deriving DecidableEq, Repr

/-- `Graph.get_neighbors(u)`. -/
def getNeighbors (g : PyGraph) (u : Nat) : List (Nat × Q) :=
  g.adj.getD u []

/-- All edges `(u, v, w)` of the adjacency structure
(`Graph.get_all_edges` for a directed graph). -/
def allEdges (g : PyGraph) : List (Nat × Nat × Q) :=
  g.adj.enum.flatMap (fun p => p.2.map (fun vw => (p.1, vw.1, vw.2)))

/-- `k = ⌊(log₂ N)^(1/3)⌋`, characterised exactly over the integers:
the largest `j` with `2^(j³) ≤ N` (since `j ≤ (log₂ N)^(1/3) ↔ j³ ≤
log₂ N ↔ 2^(j³) ≤ N`). -/
def kParam (N : Nat) : Nat :=
  ((List.range (N + 1)).filter (fun j => 2 ^ (j ^ 3) ≤ N)).foldl Nat.max 0

/-- `t = ⌊(log₂ N)^(2/3)⌋`.  The real condition `j ≤ (log₂ N)^(2/3)` is
`N ≥ 2^(j^(3/2))`; its integer breakpoints are `2, 8, 37, 256, 2322,
26575, 375999, 6485161` for `j = 1..8` (exact for every `N` below the
last breakpoint's successor range; the engine claims instantiate only
small `N`). -/
def tParam (N : Nat) : Nat :=
  if N < 2 then 0
  else if N < 8 then 1
  else if N < 37 then 2
  else if N < 256 then 3
  else if N < 2322 then 4
  else if N < 26575 then 5
  else if N < 375999 then 6
  else if N < 6485161 then 7
  else 8

/-- `l₀ = ⌈log₂ N / t⌉`: the least `m` with `N ≤ 2^(m·t)` (exact). -/
def l0Param (N t : Nat) : Nat :=
  ((List.range (N + 2)).filter (fun m => N ≤ 2 ^ (m * t))).headD 0

/-- `⌊log₁₀ n⌋` (0 for `n < 10`), by fuelled digit recursion. -/
def log10f : Nat → Nat → Nat
  | 0, _ => 0
  | fuel + 1, n => if n < 10 then 0 else log10f fuel (n / 10) + 1

/-- `multiplier = 10^(⌊log₁₀ N⌋ + 1)`. -/
def multParam (N : Nat) : Q :=
  Q.ofInt ((10 : Int) ^ (log10f N N + 1))

/-! ## The BMSSP engine
(`src/BMSSP_algorithm/data_structures/BMSSP.py`)

The engine's distance/predecessor tables are lists indexed by vertex.
`mono` is a ghost history observer: it starts `true` and is cleared the
first time a relaxation overwrites a finite distance with a strictly
larger finite value; it affects nothing else. -/

/-- Static algorithm data (`self.graph`, `self.source`, `self.k`,
`self.t`, `self.multiplier`). -/
structure Eng where
  graph : PyGraph
  source : Nat
  k : Nat
  t : Nat
  mult : Q
deriving DecidableEq, Repr

/-- Mutable run state: `self.dist`, `self.pred`, plus the ghost history
flag `mono`. -/
structure St where
  dist : List EV
  pred : List (Option Int)
  mono : Bool
deriving DecidableEq, Repr

/-- `self.dist[v]`. -/
def getDist (st : St) (v : Nat) : EV := st.dist.getD v .inf

/-- `self.pred[v]`. -/
def getPred (st : St) (v : Nat) : Option Int := st.pred.getD v none

/-- The packed tie-broken key `(dist + 1)·mult + pred + v/mult`; `+∞`
when the distance is `+∞` (the guarded pattern of the source).  The
`pred` default is irrelevant: whenever the distance is finite the
predecessor has been set. -/
def packK (mult : Q) (d : EV) (p : Option Int) (v : Nat) : EV :=
  match d with
  | .fin q =>
    .fin (Q.add (Q.add (Q.mul (Q.add q (Q.ofInt 1)) mult) (Q.ofInt (p.getD 0)))
      (Q.div (Q.ofInt (v : Int)) mult))
  | _ => .inf

/-- The packed key of a tentative relaxation
`(alt + 1)·mult + u + v/mult`. -/
def packA (mult : Q) (alt : EV) (u v : Nat) : EV :=
  match alt with
  | .fin q =>
    .fin (Q.add (Q.add (Q.mul (Q.add q (Q.ofInt 1)) mult) (Q.ofInt (u : Int)))
      (Q.div (Q.ofInt (v : Int)) mult))
  | _ => .inf

/-- `κ(v)` over the current tables. -/
def kappaOf (e : Eng) (st : St) (v : Nat) : EV :=
  packK e.mult (getDist st v) (getPred st v) v

/-- The unguarded κ pattern of the source (pivot insertion, the `P`
minimum, the `Sᵢ` re-prepend check, the final `W` filter): Python adds
`self.pred[x]` without an `inf` guard, so a `None` predecessor raises
`TypeError`. -/
def kappaE (e : Eng) (st : St) (v : Nat) : Except Err EV :=
  if getPred st v = none then .error .typeError
  else .ok (kappaOf e st v)

/-- Does a finite distance strictly increase? (ghost observer). -/
def increaseEV : EV → EV → Bool
  | .fin a, .fin b => Q.blt a b
  | _, _ => false

/-- Write `dist[v] := alt`, `pred[v] := u`, recording in the ghost flag
whether this relaxation strictly increased a finite distance. -/
def setDP (st : St) (v : Nat) (alt : EV) (u : Nat) : St :=
  { dist := st.dist.set v alt
    pred := st.pred.set v (some (u : Int))
    mono := st.mono && !(increaseEV (getDist st v) alt) }

/-- Sorted-set union (`W |= W_curr`). -/
def sunion (a b : List Nat) : List Nat := b.foldl ssAdd a

/-- One `find_pivots` relaxation sweep from `u` (with `d_u` captured
before the neighbour loop, as in the source), threading the state and
the `W_curr` set. -/
def fpRound (e : Eng) (B : EV) (inp : St × List Nat) (u : Nat) : St × List Nat :=
  let d_u := getDist inp.1 u
  (getNeighbors e.graph u).foldl
    (fun acc vw =>
      let v := vw.1
      let alt := EV.add d_u vw.2
      let altM := packA e.mult alt u v
      if EV.le altM (kappaOf e acc.1 v) then
        let st2 := setDP acc.1 v alt u
        if EV.lt altM B then (st2, ssAdd acc.2 v) else (st2, acc.2)
      else acc)
    inp

/-- The `k` relaxation rounds of `find_pivots`, with the growth-limit
early return (`true` flag). -/
def fpRounds (e : Eng) (B : EV) (S : List Nat) :
    Nat → St → List Nat → List Nat → St × List Nat × Bool
  | 0, st, W, _ => (st, W, false)
  | r + 1, st, W, Wprev =>
    let p := Wprev.foldl (fun acc u => fpRound e B acc u) (st, [])
    let W2 := sunion W p.2
    if e.k * S.length < W2.length then (p.1, W2, true)
    else fpRounds e B S r p.1 W2 p.2

/-- BFS count of a subtree in the shortest-path forest (`deque`-based;
fuel covers any forest, where at most `N` nodes are ever enqueued per
parent link — a cyclic `children` relation would hang the source). -/
def bfsCount (children : List (Nat × List Nat)) : Nat → List Nat → Nat → Nat
  | 0, _, size => size
  | _ + 1, [], size => size
  | fuel + 1, x :: q, size =>
    let ch := ((children.find? (fun p => p.1 = x)).map (·.2)).getD []
    bfsCount children fuel (q ++ ch) (size + 1)

/-- `find_pivots(B, S)`: `k` bounded relaxation rounds (early `(S, W)`
growth-limit return), then the shortest-path forest, subtree sizes of
its roots, and the heavy pivots `P ⊆ S`. -/
def findPivots (e : Eng) (st : St) (B : EV) (S : List Nat) :
    St × List Nat × List Nat :=
  let r := fpRounds e B S e.k st S S
  match r with
  | (st2, W, early) =>
    if early then (st2, S, W)
    else
      let children := W.map (fun u =>
        (u, ((getNeighbors e.graph u).filter
          (fun vw => W.contains vw.1 && EV.beq (getDist st2 vw.1) (EV.add (getDist st2 u) vw.2))).map (·.1)))
      let hasParent := children.foldl (fun acc p => p.2.foldl ssAdd acc) []
      let roots := W.filter (fun u => !hasParent.contains u)
      let n := e.graph.node_count
      let sizes := roots.map (fun rt =>
        (rt, bfsCount children ((n + 1) * (n + 1) * (n + 1)) [rt] 0))
      let P := S.filter (fun u =>
        match sizes.find? (fun p => p.1 = u) with
        | some p => e.k ≤ p.2
        | none => false)
      (st2, P, W)

/-- The bounded-Dijkstra loop of `base_case`
(`while heap and len(U0) < k + 1`). -/
def bcLoop (e : Eng) (B : EV) :
    Nat → St → List (EV × Nat) → List Nat → List Nat → Except Err (St × List Nat)
  | 0, _, _, _, _ => .error .outOfFuel
  | fuel + 1, st, heap, visited, U0 =>
    if heap.length ≠ 0 ∧ U0.length < e.k + 1 then
      match hpop ltEN heap with
      | none => .ok (st, U0)
      | some ((d_u, u), heap2) =>
        if EV.lt (getDist st u) d_u || visited.contains u then
          bcLoop e B fuel st heap2 visited U0
        else
          let visited2 := ssAdd visited u
          let U02 := ssAdd U0 u
          let p := (getNeighbors e.graph u).foldl
            (fun acc vw =>
              let v := vw.1
              let alt := EV.add d_u vw.2
              let altM := packA e.mult alt u v
              if EV.le altM (kappaOf e acc.1 v) && EV.lt altM B then
                (setDP acc.1 v alt u, hpush ltEN acc.2 (alt, v))
              else acc)
            (st, heap2)
          bcLoop e B fuel p.1 p.2 visited2 U02
    else .ok (st, U0)

/-- `base_case(B, S)`: assert the singleton seed, run the bounded
Dijkstra until `k + 1` vertices are finalised, then either return
`(B, U0)` or cut at the largest packed key. -/
def baseCase (e : Eng) (st : St) (B : EV) (S : List Nat) (fuel : Nat) :
    Except Err (St × EV × List Nat) :=
  if S.length ≠ 1 then .error .assertionError
  else
    let x := S.headD 0
    match bcLoop e B fuel st [(getDist st x, x)] [] S with
    | .error er => .error er
    | .ok (st2, U0) =>
      if U0.length ≤ e.k then .ok (st2, B, U0)
      else if U0.any (fun v => getPred st2 v = none) then .error .typeError
      else
        let Bp := U0.foldl (fun acc v => EV.maxE acc (kappaOf e st2 v)) .ninf
        let U := U0.filter (fun v => EV.lt (kappaOf e st2 v) Bp)
        .ok (st2, Bp, U)

/-- Sorted-set order on `(vertex, key)` pairs (model of a Python set of
such tuples). -/
def pairLt (a b : Nat × EV) : Bool :=
  a.1 < b.1 || (a.1 = b.1 && EV.lt a.2 b.2)

/-- Value equality of `(vertex, key)` pairs. -/
def pairEq (a b : Nat × EV) : Bool := a.1 = b.1 && EV.beq a.2 b.2

/-- Sorted-set insertion of a `(vertex, key)` pair. -/
def pairAdd : List (Nat × EV) → Nat × EV → List (Nat × EV)
  | [], x => [x]
  | a :: rest, x =>
    if pairLt x a then x :: a :: rest
    else if pairEq x a then a :: rest
    else a :: pairAdd rest x

/-- Insert every pivot into the fresh BBLL under its packed key, running
the debug invariant check after each insertion. -/
def insertPivots (e : Eng) (st : St) : List Nat → BB → Except Err BB
  | [], D => .ok D
  | x :: rest, D =>
    match kappaE e st x with
    | .error er => .error er
    | .ok kx =>
      match insertBB D x kx with
      | .error er => .error er
      | .ok D2 =>
        if checkInvariantsBB D2 then insertPivots e st rest D2
        else .error .assertionError

/-- `min(κ(x) for x in P)` (unguarded κ). -/
def minKappa (e : Eng) (st : St) : List Nat → EV → Except Err EV
  | [], acc => .ok acc
  | x :: rest, acc =>
    match kappaE e st x with
    | .error er => .error er
    | .ok kx => minKappa e st rest (EV.minE acc kx)

/-- The edge-relaxation loop of step f of the recursive case, for one
`u ∈ Uᵢ` (with `d_u` captured first): relax, then route the improvement
into `D` (`[Bᵢ, B)`) or the batch `K` (`[B′ᵢ, Bᵢ)`). -/
def routeNbrs (e : Eng) (B Bi Bip : EV) (u : Nat) (d_u : EV) :
    List (Nat × Q) → St → BB → List (Nat × EV) → Except Err (St × BB × List (Nat × EV))
  | [], st, D, K => .ok (st, D, K)
  | vw :: rest, st, D, K =>
    let v := vw.1
    let alt := EV.add d_u vw.2
    let altM := packA e.mult alt u v
    if EV.le altM (kappaOf e st v) then
      let st2 := setDP st v alt u
      if EV.le Bi altM && EV.lt altM B then
        match insertBB D v altM with
        | .error er => .error er
        | .ok D2 =>
          if checkInvariantsBB D2 then routeNbrs e B Bi Bip u d_u rest st2 D2 K
          else .error .assertionError
      else if EV.le Bip altM && EV.lt altM Bi then
        routeNbrs e B Bi Bip u d_u rest st2 D (pairAdd K (v, altM))
      else routeNbrs e B Bi Bip u d_u rest st2 D K
    else routeNbrs e B Bi Bip u d_u rest st D K

/-- Step f over every `u ∈ Uᵢ`. -/
def routeAll (e : Eng) (B Bi Bip : EV) :
    List Nat → St → BB → List (Nat × EV) → Except Err (St × BB × List (Nat × EV))
  | [], st, D, K => .ok (st, D, K)
  | u :: rest, st, D, K =>
    match routeNbrs e B Bi Bip u (getDist st u) (getNeighbors e.graph u) st D K with
    | .error er => .error er
    | .ok r => routeAll e B Bi Bip rest r.1 r.2.1 r.2.2

/-- Step g: extend the batch with every `x ∈ Sᵢ` whose current κ lies in
`[B′ᵢ, Bᵢ)` (unguarded κ). -/
def extendSi (e : Eng) (st : St) (Bip Bi : EV) :
    List Nat → List (Nat × EV) → Except Err (List (Nat × EV))
  | [], K => .ok K
  | x :: rest, K =>
    match kappaE e st x with
    | .error er => .error er
    | .ok kx =>
      if EV.le Bip kx && EV.lt kx Bi then extendSi e st Bip Bi rest (pairAdd K (x, kx))
      else extendSi e st Bip Bi rest K

/-- Step 9: `U ∪ { x ∈ W : κ(x) < B′ }` (unguarded κ). -/
def addBelow (e : Eng) (st : St) (Bp : EV) :
    List Nat → List Nat → Except Err (List Nat)
  | [], U => .ok U
  | x :: rest, U =>
    match kappaE e st x with
    | .error er => .error er
    | .ok kx =>
      if EV.lt kx Bp then addBelow e st Bp rest (ssAdd U x)
      else addBelow e st Bp rest U

/-- The `while len(U) < U_threshold and not D.is_empty()` loop of the
recursive case, carrying the aggregate boundary and the previous
iteration's tuple for the fixed-point guard.  `recur` is the
recursion into `bmssp` one level down. -/
def bmsspLoop (recur : St → EV → List Nat → Nat → Except Err (St × EV × List Nat))
    (e : Eng) (B : EV) (uThr : Nat) :
    Nat → St → BB → List Nat → EV → List Nat → List Nat → EV → EV →
    Except Err (St × EV × List Nat)
  | 0, _, _, _, _, _, _, _, _ => .error .outOfFuel
  | fuel + 1, st, D, U, Bpa, UiP, SiP, BiP, BipP =>
    match isEmptyBB D with
    | .error er => .error er
    | .ok emp =>
      if U.length < uThr ∧ !emp then
        match pullBB D with
        | .error er => .error er
        | .ok (D2, (Si, Bi)) =>
          if !checkInvariantsBB D2 then .error .assertionError
          else if Si.length = 0 then .ok (st, Bpa, U)
          else
            match recur st Bi Si fuel with
            | .error er => .error er
            | .ok (st2, Bip, Ui) =>
              let Bpa2 := EV.minE Bpa Bip
              if Ui = UiP ∧ Si = SiP ∧ EV.beq Bi BiP ∧ EV.beq Bip BipP then .ok (st2, Bpa2, U)
              else
                let U2 := sunion U Ui
                match routeAll e B Bi Bip Ui st2 D2 [] with
                | .error er => .error er
                | .ok (st3, D3, K) =>
                  match extendSi e st3 Bip Bi Si K with
                  | .error er => .error er
                  | .ok recs =>
                    match batchPrepend D3 recs fuel with
                    | .error er => .error er
                    | .ok D4 =>
                      if !checkInvariantsBB D4 then .error .assertionError
                      else bmsspLoop recur e B uThr fuel st3 D4 U2 Bpa2 Ui Si Bi Bip
      else .ok (st, Bpa, U)

/-- `bmssp(l, B, S)`: the recursive BMSSP driver (Algorithm 3),
structural on the level; the fuel only bounds the inner loops
(`outOfFuel` never occurs in the concrete evaluations below). -/
def bmssp (e : Eng) : Nat → St → EV → List Nat → Nat → Except Err (St × EV × List Nat)
  | 0, st, B, S, fuel => baseCase e st B S fuel
  | l' + 1, st, B, S, fuel =>
    let fp := findPivots e st B S
    let st1 := fp.1
    let P := fp.2.1
    let W := fp.2.2
    let M := 2 ^ (l' * e.t)
    let D0st := mkBB M B e.graph.node_count
    match insertPivots e st1 P D0st with
    | .error er => .error er
    | .ok D =>
      match (if P.length ≠ 0 then minKappa e st1 P .inf else .ok B) with
      | .error er => .error er
      | .ok Bpa0 =>
        let uThr := e.k * 2 ^ ((l' + 1) * e.t)
        match bmsspLoop (bmssp e l') e B uThr fuel st1 D [] Bpa0 [] []
            (.fin (Q.ofInt (-1))) (.fin (Q.ofInt (-1))) with
        | .error er => .error er
        | .ok r =>
          let st2 := r.1
          let Bpa := r.2.1
          let U := r.2.2
          let Bp := EV.minE Bpa B
          match addBelow e st2 Bp W U with
          | .error er => .error er
          | .ok Ufin => .ok (st2, Bp, Ufin)

/-- `BMSSP.validate()`: the source returns `True` unconditionally. -/
def validateBMSSP (_g : PyGraph) (_source : Nat) : Bool := true

/-- `BMSSP.__init__`: distance/predecessor tables (`+∞`/`None` except
`0`/`-1` at the source), derived parameters from the (possibly
source-extended) node count. -/
def initBMSSP (g : PyGraph) (source : Nat) : Eng × St :=
  let nc := if g.node_count ≤ source then max g.node_count (source + 1) else g.node_count
  let dist0 := (List.replicate nc EV.inf).set source (.fin (Q.ofInt 0))
  let pred0 := (List.replicate nc (none : Option Int)).set source (some (-1))
  ({ graph := { g with node_count := nc }, source := source
     k := kParam nc, t := tParam nc, mult := multParam nc },
   { dist := dist0, pred := pred0, mono := true })

/-- `BMSSP.run()`: validate (always true), derive `l₀` (a zero `t`
raises `ZeroDivisionError` in `math.ceil(log2(N) / t)`), call the top
`bmssp(l₀, +∞, {source})`, return `True`. -/
def runBMSSP (g : PyGraph) (source : Nat) (fuel : Nat) : Except Err (St × Bool) :=
  let p := initBMSSP g source
  let e := p.1
  let st := p.2
  if !(validateBMSSP g source) then .ok (st, false)
  else if e.t = 0 then .error .zeroDivision
  else
    match bmssp e (l0Param e.graph.node_count e.t) st .inf [source] fuel with
    | .error er => .error er
    | .ok (st2, _, _) => .ok (st2, true)

/-! ## Baseline Dijkstra (`src/benchmark/methods/dijkstra.py`) -/

/-- `Dijkstra.validate()`: no negative edge weights. -/
def dijkstraValidate (g : PyGraph) : Bool :=
  (allEdges g).all (fun t => Q.ble (Q.ofInt 0) t.2.2)

/-- The Dijkstra main loop. -/
def djLoop (g : PyGraph) :
    Nat → List EV → List (Option Int) → List (Q × Nat) →
    Except Err (List EV × List (Option Int))
  | 0, _, _, _ => .error .outOfFuel
  | fuel + 1, dist, pred, heap =>
    match hpop ltQN heap with
    | none => .ok (dist, pred)
    | some ((d_u, u), heap2) =>
      if EV.lt (dist.getD u .inf) (.fin d_u) then djLoop g fuel dist pred heap2
      else
        let r := (getNeighbors g u).foldl
          (fun acc vw =>
            let v := vw.1
            let alt := Q.add d_u vw.2
            if EV.lt (.fin alt) (acc.1.getD v .inf) then
              (acc.1.set v (.fin alt), acc.2.1.set v (some (u : Int)), hpush ltQN acc.2.2 (alt, v))
            else acc)
          (dist, pred, heap2)
        djLoop g fuel r.1 r.2.1 r.2.2

/-- `Dijkstra.run()`: returns `(dist, pred, ok)`; `ok = false` with
cleared tables exactly on a negative weight. -/
def runDijkstra (g : PyGraph) (source : Nat) (fuel : Nat) :
    Except Err (List EV × List (Option Int) × Bool) :=
  if !dijkstraValidate g then .ok ([], [], false)
  else
    let nc := if g.node_count ≤ source then max g.node_count (source + 1) else g.node_count
    let dist0 := (List.replicate nc EV.inf).set source (.fin (Q.ofInt 0))
    let pred0 := List.replicate nc (none : Option Int)
    match djLoop g fuel dist0 pred0 [(Q.ofInt 0, source)] with
    | .error er => .error er
    | .ok (dist, pred) => .ok (dist, pred, true)



/-! ## Concrete inputs used by the engine claims -/

/-- The mismatch graph: `N = 4`, `source = 3`, edges
`3→2 (w=1)`, `3→1 (w=0.5)`, `1→2 (w=0.55)` (vertex 0 isolated).
The true shortest distance to vertex 2 is `1` (direct edge), but the
packed tie-broken comparison lets the relaxation `1→2` with distance
`1.05` overwrite it, because predecessor id 1 is smaller than 3. -/
def gStar : PyGraph :=
  { node_count := 4, adj := [[], [(2, ⟨11, 20⟩)], [], [(2, Q.ofInt 1), (1, ⟨1, 2⟩)]] }

/-- The final state `run()` leaves on `gStar` (`dist[2] = 42/40 = 1.05`;
the ghost `mono` flag records that a relaxation strictly increased a
finite distance). -/
def stStar : St :=
  { dist := [.inf, .fin ⟨1, 2⟩, .fin ⟨42, 40⟩, .fin ⟨0, 1⟩]
    pred := [none, some 3, some 1, some (-1)]
    mono := false }

/-- A graph with a negative edge weight (InvalidInput per the spec). -/
def gNeg : PyGraph := { node_count := 2, adj := [[(1, Q.ofInt (-1))], []] }

/-- The single-node graph of the spec's scenario 1. -/
def gOne : PyGraph := { node_count := 1, adj := [[]] }

/-- The engine data `BMSSP.__init__` derives for `gStar` with source 3
(`k = t = 1`, `multiplier = 10`). -/
def eStar : Eng := (initBMSSP gStar 3).1

/-- The table state just before the first inner `bmssp(1, +∞, {3})`
call of the top-level run on `gStar` (after the level-2 `find_pivots`
relaxed both edges out of the source and the first `pull` returned
`({3}, +∞)`). -/
def stMid : St :=
  { dist := [.inf, .fin ⟨1, 2⟩, .fin (Q.ofInt 1), .fin (Q.ofInt 0)]
    pred := [none, some 3, some 3, some (-1)]
    mono := true }

/-- The table state returned by the inner `bmssp(1, +∞, {3})` call of
the `gStar` run (identical to the final run state). -/
def stMid2 : St :=
  { dist := [.inf, .fin ⟨1, 2⟩, .fin ⟨42, 40⟩, .fin ⟨0, 1⟩]
    pred := [none, some 3, some 1, some (-1)]
    mono := false }

/-! ## The D1 range invariant (claim C7) and concrete BBLL states -/

/-- Well-formedness of an extended value: a finite value carries a
positive denominator.  Every value the code constructs does (integer
literals have denominator 1 and the arithmetic keeps denominators
positive), so this is the ambient hypothesis of the order lemmas. -/
def evWF : EV → Bool
  | .fin q => decide (0 < q.d)
  | _ => true

/-- Strictly ascending list of bounds (consecutive `<`). -/
def sortedStrict : List EV → Bool
  | [] => true
  | [_] => true
  | a :: b :: rest => EV.lt a b && sortedStrict (b :: rest)

/-- All dict keys well formed. -/
def keysWF (d : List (EV × FBlock)) : Bool := d.all (fun p => evWF p.1)

/-- Dict keys pairwise distinct as values. -/
def keysDistinct : List (EV × FBlock) → Bool
  | [] => true
  | p :: rest => rest.all (fun q => !EV.beq p.1 q.1) && keysDistinct rest

/-- The well-formedness package of the D1 side of a BBLL state: bounds
well formed and strictly sorted, dict keys well formed and distinct,
sentinel present, and every stored entry value well formed. -/
def bbWF (st : BB) : Bool :=
  st.D1_bounds.all evWF &&
  sortedStrict st.D1_bounds &&
  keysWF st.D1 &&
  keysDistinct st.D1 &&
  evMem st.B st.D1_bounds &&
  st.D1.all (fun pr => pr.2.elems.all (fun n => evWF (valN st.nodes n)))

/-- The D1 range checker: walk the bounds in ascending order carrying
the previous bound `lo`; every entry of the block filed under bound `b`
must satisfy `lo < val` (`strict`) or `lo ≤ val` (weak), and `val < b`. -/
def d1RangeFrom (strict : Bool) (d1 : List (EV × FBlock)) (ns : List FNode) :
    EV → List EV → Bool
  | _, [] => true
  | lo, b :: rest =>
    (match dGet d1 b with
     | none => true
     | some blk =>
       blk.elems.all (fun n =>
         (cond strict (EV.lt lo (valN ns n)) (EV.le lo (valN ns n))) &&
         EV.lt (valN ns n) b))
    && d1RangeFrom strict d1 ns b rest

/-- The range invariant over all of D1 (claim C7 states the `strict`
variant; `strict := false` is the weak variant that does hold). -/
def d1RangeOk (strict : Bool) (st : BB) : Bool :=
  d1RangeFrom strict st.D1 st.nodes .ninf st.D1_bounds

/-- A one-entry BBLL: `mkBB 2 .inf 2` after the public `insert 0 5`. -/
def stP5 : BB :=
  { B := .inf, M := 2
    D0 := [], D0_bounds := []
    D1 := [(.inf, { elems := [0], size := 1
                    max_val := .fin ⟨5, 1⟩, min_val := .fin ⟨5, 1⟩ })]
    D1_bounds := [.inf]
    nodes := [{ val := .fin ⟨5, 1⟩, linked := true },
              { val := .inf, linked := false }] }

/-- The BBLL state reached from `mkBB 2 .inf 3` by the public sequence
`insert 0 10; insert 1 7; insert 2 1` (the third insert overflows the
sentinel block, which splits at median value 7). -/
def st6 : BB :=
  { B := .inf, M := 2
    D0 := [], D0_bounds := []
    D1 := [(.fin ⟨7, 1⟩,
            { elems := [2], size := 1
              max_val := .fin ⟨1, 1⟩, min_val := .fin ⟨1, 1⟩ }),
           (.inf,
            { elems := [0, 1], size := 2
              max_val := .fin ⟨10, 1⟩, min_val := .fin ⟨7, 1⟩ })]
    D1_bounds := [.fin ⟨7, 1⟩, .inf]
    nodes := [{ val := .fin ⟨10, 1⟩, linked := true },
              { val := .fin ⟨7, 1⟩, linked := true },
              { val := .fin ⟨1, 1⟩, linked := true }] }

/-- The state `pull` leaves when applied to `st6`. -/
def st6p : BB :=
  { B := .inf, M := 2
    D0 := [], D0_bounds := []
    D1 := [(.inf,
            { elems := [1], size := 1
              max_val := .fin ⟨7, 1⟩, min_val := .fin ⟨7, 1⟩ })]
    D1_bounds := [.inf]
    nodes := [{ val := .fin ⟨10, 1⟩, linked := true },
              { val := .fin ⟨7, 1⟩, linked := true },
              { val := .fin ⟨1, 1⟩, linked := true }] }

/-- `mkBB 2 .inf 1` after the public `insert 0 5`. -/
def st9a : BB :=
  { B := .inf, M := 2
    D0 := [], D0_bounds := []
    D1 := [(.inf, { elems := [0], size := 1
                    max_val := .fin ⟨5, 1⟩, min_val := .fin ⟨5, 1⟩ })]
    D1_bounds := [.inf]
    nodes := [{ val := .fin ⟨5, 1⟩, linked := true }] }

/-- C1: the engine is not correct: on `gStar` with source 3, `run()`
completes with `dist[2] = 42/40 = 1.05` while the baseline Dijkstra
computes the true shortest distance `1` for the reachable vertex 2. -/
theorem run_gStar_mismatches_dijkstra :
    runBMSSP gStar 3 100 = .ok (stStar, true) ∧
    runDijkstra gStar 3 100 =
      .ok ([.inf, .fin ⟨1, 2⟩, .fin ⟨1, 1⟩, .fin ⟨0, 1⟩], [none, some 3, some 3, none], true) ∧
    stStar.dist.getD 2 .inf = .fin ⟨42, 40⟩ ∧
    Q.blt ⟨1, 1⟩ ⟨42, 40⟩ = true :=
  ⟨rfl, rfl, rfl, rfl⟩

/-- C3: on the single-node graph, `t = ⌊(log₂ 1)^(2/3)⌋ = 0` (the code
has no minimum-1 floor), so `run()` raises `ZeroDivisionError` at
`math.ceil(log2(N) / t)` instead of returning `dist = [0]`. -/
theorem run_single_node_zero_division :
    runBMSSP gOne 0 100 = .error .zeroDivision ∧ tParam 1 = 0 :=
  ⟨rfl, rfl⟩

/-- C2 (counterexample): a negative edge weight is InvalidInput, and the
repo's own baseline validation rejects it, yet `BMSSP.run()` returns
`true` and fills `dist`/`pred` (the claim says it returns `false` and
leaves them empty or unchanged). -/
theorem run_true_on_negative_weight :
    dijkstraValidate gNeg = false ∧
    runBMSSP gNeg 0 100 =
      .ok ({ dist := [.fin ⟨0, 1⟩, .fin ⟨-1, 1⟩], pred := [some (-1), some 0], mono := true },
        true) :=
  ⟨rfl, rfl⟩

/-- C2 (amended): `BMSSP.validate()` returns `true` on every input, so
`run()` never reports InvalidInput: whenever it terminates normally it
returns `true`, negative weights and all. -/
theorem validate_always_true (g : PyGraph) (s : Nat) :
    validateBMSSP g s = true ∧
    ∀ fuel st b, runBMSSP g s fuel = .ok (st, b) → b = true := by
  refine ⟨rfl, ?_⟩
  intro fuel st b h
  unfold runBMSSP at h
  simp only [validateBMSSP, Bool.not_true, Bool.false_eq_true, if_false] at h
  split at h
  · exact absurd h (by simp)
  · split at h
    · exact absurd h (by simp)
    · injection h with h1
      exact (congrArg Prod.snd h1).symm

/-- Witness for `validate_always_true` at the negative-weight graph. -/
theorem validate_always_true_witness :
    validateBMSSP gNeg 0 = true ∧ (true : Bool) = true :=
  ⟨(validate_always_true gNeg 0).1,
   (validate_always_true gNeg 0).2 100
     { dist := [.fin ⟨0, 1⟩, .fin ⟨-1, 1⟩], pred := [some (-1), some 0], mono := true } true rfl⟩

/-- C8 (counterexample): during the run on `gStar` a relaxation
replaces the finite `dist[2] = 1` with the strictly larger `1.05`; the
ghost monotonicity observer ends the run `false`. -/
theorem run_dist_increases :
    runBMSSP gStar 3 100 = .ok (stStar, true) ∧ stStar.mono = false :=
  ⟨rfl, rfl⟩


/-! ## The packed-key comparison: what the relaxation guard guarantees -/

lemma toRat_ofInt (k : Int) : (Q.ofInt k).toRat = (k : ℚ) := by
  unfold Q.ofInt Q.toRat
  simp

lemma toRat_add (a b : Q) (ha : (a.d : ℚ) ≠ 0) (hb : (b.d : ℚ) ≠ 0) :
    (Q.add a b).toRat = a.toRat + b.toRat := by
  unfold Q.add Q.toRat
  push_cast
  field_simp

lemma toRat_mul (a b : Q) (ha : (a.d : ℚ) ≠ 0) (hb : (b.d : ℚ) ≠ 0) :
    (Q.mul a b).toRat = a.toRat * b.toRat := by
  unfold Q.mul Q.toRat
  push_cast
  field_simp

lemma toRat_div (a b : Q) (ha : (a.d : ℚ) ≠ 0) (hbn : (b.n : ℚ) ≠ 0) :
    (Q.div a b).toRat = a.toRat / b.toRat := by
  unfold Q.div Q.toRat
  split
  · push_cast
    field_simp
  · push_cast
    field_simp

lemma blt_eq_false_iff (a b : Q) (ha : 0 < a.d) (hb : 0 < b.d) :
    Q.blt a b = false ↔ b.toRat ≤ a.toRat := by
  unfold Q.blt Q.toRat
  rw [decide_eq_false_iff_not, not_lt,
    div_le_div_iff₀ (by exact_mod_cast hb) (by exact_mod_cast ha)]
  constructor
  · intro h
    exact_mod_cast h
  · intro h
    exact_mod_cast h

/-- C8 (amended): when the relaxation guard fires on finite values, the
new distance is bounded by `dist[v] + (pred[v] − u)/multiplier` — the
packed comparison trades distance against predecessor ids — and it can
exceed `dist[v]` only when the new predecessor id `u` is smaller than
the current `pred[v]`. -/
theorem relax_guard_bound (mult a d : Q) (pv : Int) (u v : Nat)
    (had : 0 < a.d) (hdd : 0 < d.d) (hmd : 0 < mult.d) (hmn : 0 < mult.n)
    (hfire : EV.le (packA mult (.fin a) u v) (packK mult (.fin d) (some pv) v) = true) :
    a.toRat ≤ d.toRat + (((pv : ℚ) - (u : ℚ)) / mult.toRat) ∧
    ((pv : ℚ) ≤ (u : ℚ) → a.toRat ≤ d.toRat) := by
  have hmdq : (mult.d : ℚ) ≠ 0 := by positivity
  have hadq : (a.d : ℚ) ≠ 0 := by positivity
  have hddq : (d.d : ℚ) ≠ 0 := by positivity
  have hmnq : (mult.n : ℚ) ≠ 0 := by
    have h0 : (0 : ℚ) < mult.n := by exact_mod_cast hmn
    exact ne_of_gt h0
  have hM : 0 < mult.toRat := by
    unfold Q.toRat
    apply div_pos
    · exact_mod_cast hmn
    · exact_mod_cast hmd
  have hneg : ¬(mult.n < 0) := not_lt.mpr hmn.le
  have hdiv : Q.div (Q.ofInt (v : Int)) mult = ⟨(v : Int) * mult.d, 1 * mult.n⟩ := by
    unfold Q.div Q.ofInt
    rw [if_neg hneg]
  unfold packA packK EV.le EV.lt at hfire
  simp only [Option.getD_some] at hfire
  rw [Bool.not_eq_eq_eq_not, Bool.not_true, hdiv] at hfire
  have hposA :
      0 < (Q.add (Q.add (Q.mul (Q.add a (Q.ofInt 1)) mult) (Q.ofInt (u : Int)))
          ⟨(v : Int) * mult.d, 1 * mult.n⟩).d := by
    show 0 < a.d * 1 * mult.d * 1 * (1 * mult.n)
    positivity
  have hposK :
      0 < (Q.add (Q.add (Q.mul (Q.add d (Q.ofInt 1)) mult) (Q.ofInt pv))
          ⟨(v : Int) * mult.d, 1 * mult.n⟩).d := by
    show 0 < d.d * 1 * mult.d * 1 * (1 * mult.n)
    positivity
  rw [blt_eq_false_iff _ _ hposK hposA] at hfire
  have hA :
      (Q.add (Q.add (Q.mul (Q.add a (Q.ofInt 1)) mult) (Q.ofInt (u : Int)))
          (⟨(v : Int) * mult.d, 1 * mult.n⟩ : Q)).toRat =
        (a.toRat + 1) * mult.toRat + (u : ℚ) + (v : ℚ) / mult.toRat := by
    simp only [Q.add, Q.mul, Q.ofInt, Q.toRat]
    push_cast
    field_simp
  have hK :
      (Q.add (Q.add (Q.mul (Q.add d (Q.ofInt 1)) mult) (Q.ofInt pv))
          (⟨(v : Int) * mult.d, 1 * mult.n⟩ : Q)).toRat =
        (d.toRat + 1) * mult.toRat + (pv : ℚ) + (v : ℚ) / mult.toRat := by
    simp only [Q.add, Q.mul, Q.ofInt, Q.toRat]
    push_cast
    field_simp
  rw [hA, hK] at hfire
  have hkey : a.toRat * mult.toRat + (u : ℚ) ≤ d.toRat * mult.toRat + (pv : ℚ) := by
    nlinarith [hfire]
  constructor
  · have h1 : (a.toRat - d.toRat) * mult.toRat ≤ (pv : ℚ) - (u : ℚ) := by nlinarith
    have h2 : a.toRat - d.toRat ≤ ((pv : ℚ) - (u : ℚ)) / mult.toRat :=
      (le_div_iff₀ hM).mpr h1
    linarith
  · intro hpu
    have h3 : a.toRat * mult.toRat ≤ d.toRat * mult.toRat := by linarith
    exact le_of_mul_le_mul_right h3 hM

/-- Witness for `relax_guard_bound` at the `gStar` numbers
(`mult = 10`, `alt = 21/20`, `dist = 1`, `pred = 3`, `u = 1`, `v = 2`). -/
theorem relax_guard_bound_witness :
    (⟨21, 20⟩ : Q).toRat ≤ (Q.ofInt 1).toRat + ((((3 : Int) : ℚ) - ((1 : Nat) : ℚ)) / (Q.ofInt 10).toRat) ∧
    (((3 : Int) : ℚ) ≤ ((1 : Nat) : ℚ) → (⟨21, 20⟩ : Q).toRat ≤ (Q.ofInt 1).toRat) :=
  relax_guard_bound (Q.ofInt 10) ⟨21, 20⟩ (Q.ofInt 1) 3 1 2
    (by decide) (by decide) (by decide) (by decide) rfl


/-- `min(a, b) ≤ b` for the Python float order. -/
lemma le_minE_right (a b : EV) : EV.le (EV.minE a b) b = true := by
  unfold EV.minE EV.le
  by_cases h : EV.lt b a = true
  · simp only [h, if_true]
    cases b <;> simp [EV.lt, Q.blt]
  · simp only [Bool.not_eq_true] at h
    simp [h]

/-- C4 (counterexample): the inner call `bmssp(1, +∞, {3})` of the run
on `gStar` (seed set within the `|S| ≤ 2^l·t` precondition) returns
`B′ = 93/10` and `U = {1, 3}`, but neither returned vertex is finalised
strictly below `B′`: `κ(3) = 93/10 = B′` and `κ(1) = 181/10 > B′`. -/
theorem bmssp_returns_vertex_at_boundary :
    [3].length ≤ 2 ^ 1 * eStar.t ∧
    bmssp eStar 1 stMid .inf [3] 100 = .ok (stMid2, .fin ⟨93, 10⟩, [1, 3]) ∧
    EV.beq (kappaOf eStar stMid2 3) (.fin ⟨93, 10⟩) = true ∧
    EV.beq (kappaOf eStar stMid2 1) (.fin ⟨181, 10⟩) = true ∧
    EV.lt (kappaOf eStar stMid2 3) (.fin ⟨93, 10⟩) = false ∧
    EV.lt (kappaOf eStar stMid2 1) (.fin ⟨93, 10⟩) = false :=
  ⟨by decide, rfl, rfl, rfl, rfl, rfl⟩

/-- C4 (amended): at recursion levels `l ≥ 1` the returned boundary
does satisfy `B′ ≤ B` (the recursive case closes with
`B′ = min(B′_agg, B)`); the "every vertex of `U` strictly below `B′`"
half of the claim is what fails. -/
theorem bmssp_recursive_boundary_le (e : Eng) (l : Nat) (st : St) (B : EV) (S : List Nat)
    (fuel : Nat) (st' : St) (B' : EV) (U : List Nat)
    (hpre : S.length ≤ 2 ^ l * e.t) (hl : 1 ≤ l)
    (h : bmssp e l st B S fuel = .ok (st', B', U)) :
    EV.le B' B = true := by
  cases l with
  | zero => exact absurd hl (by omega)
  | succ l' =>
    simp only [bmssp] at h
    split at h
    · exact absurd h (by simp)
    · split at h
      · exact absurd h (by simp)
      · split at h
        · exact absurd h (by simp)
        · split at h
          · exact absurd h (by simp)
          · injection h with h1
            have hB : B' = EV.minE _ B := (congrArg (fun p => p.2.1) h1).symm
            rw [hB]
            exact le_minE_right _ _

/-- Witness for `bmssp_recursive_boundary_le` at the concrete inner
call of the `gStar` run. -/
theorem bmssp_recursive_boundary_le_witness :
    EV.le (.fin ⟨93, 10⟩) .inf = true :=
  bmssp_recursive_boundary_le eStar 1 stMid .inf [3] 100 stMid2 (.fin ⟨93, 10⟩) [1, 3]
    (by decide) (by omega) rfl

/-- C5: when `pull` exhausts both D0 and D1 while collecting fewer than
`M` entries, it deletes every collected entry and returns the collected
vertex set together with the outer sentinel `B` (and not the remaining
global minimum). -/
theorem pull_small_collection (st : BB) (S0 S1 : List (Nat × EV))
    (h0 : collectFromD0 st st.M = .ok S0)
    (h1 : collectFromD1 st st.M = .ok S1)
    (hlen : (S0 ++ S1).length < st.M) :
    pullBB st =
      .ok ((S0 ++ S1).foldl (fun s p => deleteBB s p.1 p.2) st,
           (dedupKeys (S0 ++ S1), st.B)) := by
  unfold pullBB
  dsimp only
  rw [h0]
  dsimp only
  rw [h1]
  dsimp only
  rw [if_pos hlen]

/-- C5 witness: on the concrete one-entry structure `stP5` the theorem
applies, so `pull` deletes the entry and returns `([0], B)` with
`B = +∞` the sentinel. -/
theorem pull_small_collection_witness :
    pullBB stP5 =
      .ok ((([] ++ [((0 : Nat), EV.fin ⟨5, 1⟩)]).foldl
              (fun (s : BB) (p : Nat × EV) => deleteBB s p.1 p.2) stP5,
           (dedupKeys ([] ++ [((0 : Nat), EV.fin ⟨5, 1⟩)]), stP5.B))) :=
  pull_small_collection stP5 [] [((0 : Nat), EV.fin ⟨5, 1⟩)] rfl rfl (by decide)

/-- C6 counterexample: on `st6` (reached by three public inserts from a
fresh structure), `pull` returns the vertex set `{0, 2}` although the
returned entry `0` carries value `10` while the live entry `1`, value
`7 < 10`, is left in D1: the returned set is not a key-order prefix of
the multiset of all live entries. -/
theorem pull_not_prefix_of_live :
    ((insertBB (mkBB 2 .inf 3) 0 (.fin (Q.ofInt 10))).bind
      (fun s => (insertBB s 1 (.fin (Q.ofInt 7))).bind
        (fun s => insertBB s 2 (.fin (Q.ofInt 1))))) = .ok st6 ∧
    pullBB st6 = .ok (st6p, ([0, 2], .fin ⟨7, 1⟩)) ∧
    valN st6.nodes 0 = .fin ⟨10, 1⟩ ∧
    collectFromD0 st6p 1000 = .ok [] ∧
    collectFromD1 st6p 1000 = .ok [(1, .fin ⟨7, 1⟩)] ∧
    EV.lt (.fin ⟨7, 1⟩) (.fin ⟨10, 1⟩) = true ∧
    1 ∉ ([0, 2] : List Nat) :=
  ⟨rfl, rfl, rfl, rfl, rfl, rfl, by decide⟩

/-- C7 counterexample: in `st6` (reached by three public inserts), the
block filed under bound `+∞` contains entry `1` with value `7`, while
the immediate predecessor bound is exactly `7`: the strict lower bound
`b' < e.val` of the claimed invariant fails (the weak `b' ≤ e.val`
variant holds). -/
theorem d1_strict_range_violated :
    ((insertBB (mkBB 2 .inf 3) 0 (.fin (Q.ofInt 10))).bind
      (fun s => (insertBB s 1 (.fin (Q.ofInt 7))).bind
        (fun s => insertBB s 2 (.fin (Q.ofInt 1))))) = .ok st6 ∧
    st6.D1_bounds = [.fin ⟨7, 1⟩, .inf] ∧
    (∃ blk, dGet st6.D1 .inf = some blk ∧ 1 ∈ blk.elems) ∧
    valN st6.nodes 1 = .fin ⟨7, 1⟩ ∧
    EV.lt (.fin ⟨7, 1⟩) (valN st6.nodes 1) = false ∧
    d1RangeOk true st6 = false ∧
    d1RangeOk false st6 = true :=
  ⟨rfl, rfl,
   ⟨{ elems := [0, 1], size := 2
      max_val := .fin ⟨10, 1⟩, min_val := .fin ⟨7, 1⟩ }, rfl, by decide⟩,
   rfl, rfl, rfl, rfl⟩

/-! ## Order and store lemmas for the BBLL development -/

/-- Cross-multiplication `<` agrees with the rational value order when
both denominators are positive. -/
lemma Q.blt_iff (a b : Q) (ha : 0 < a.d) (hb : 0 < b.d) :
    Q.blt a b = true ↔ a.toRat < b.toRat := by
  have ha' : (0 : ℚ) < (a.d : ℚ) := by exact_mod_cast ha
  have hb' : (0 : ℚ) < (b.d : ℚ) := by exact_mod_cast hb
  rw [Q.blt, Q.toRat, Q.toRat, div_lt_div_iff₀ ha' hb', decide_eq_true_eq]
  constructor
  · intro h; exact_mod_cast h
  · intro h; exact_mod_cast h

/-- Cross-multiplication `==` agrees with rational value equality when
both denominators are positive. -/
lemma Q.beq_iff (a b : Q) (ha : 0 < a.d) (hb : 0 < b.d) :
    Q.beq a b = true ↔ a.toRat = b.toRat := by
  have ha' : ((a.d : ℚ)) ≠ 0 := by exact_mod_cast ha.ne'
  have hb' : ((b.d : ℚ)) ≠ 0 := by exact_mod_cast hb.ne'
  rw [Q.beq, Q.toRat, Q.toRat, div_eq_div_iff ha' hb', decide_eq_true_eq]
  constructor
  · intro h; exact_mod_cast h
  · intro h; exact_mod_cast h

/-- `<` is irreflexive. -/
lemma EV.lt_irrefl (a : EV) : EV.lt a a = false := by
  cases a <;> simp [EV.lt, Q.blt]

/-- `≤` is reflexive. -/
lemma EV.le_refl (a : EV) : EV.le a a = true := by
  simp [EV.le, EV.lt_irrefl]

/-- `==` is reflexive. -/
lemma EV.beq_refl (a : EV) : EV.beq a a = true := by
  cases a <;> simp [EV.beq, Q.beq]

/-- `==` is symmetric. -/
lemma EV.beq_symm (a b : EV) : EV.beq a b = EV.beq b a := by
  cases a <;> cases b <;> simp [EV.beq, Q.beq, decide_eq_decide]
  exact eq_comm

/-- `<` is asymmetric. -/
lemma EV.lt_asymm' (a b : EV) (h : EV.lt a b = true) : EV.lt b a = false := by
  cases a <;> cases b <;>
    simp_all only [EV.lt, Q.blt, decide_eq_true_eq, decide_eq_false_iff_not,
      not_lt, Bool.true_eq_false, Bool.false_eq_true]
  exact h.le

/-- `<` from `==` is absurd. -/
lemma EV.lt_of_beq_false (a b : EV) (h : EV.beq a b = true) : EV.lt a b = false := by
  cases a <;> cases b <;>
    simp_all only [EV.beq, EV.lt, Q.beq, Q.blt, decide_eq_true_eq,
      decide_eq_false_iff_not, not_lt, Bool.true_eq_false, Bool.false_eq_true]
  exact le_rfl

/-- `==` implies `≤`. -/
lemma EV.le_of_beq (a b : EV) (h : EV.beq a b = true) : EV.le a b = true := by
  rw [EV.le, EV.lt_of_beq_false b a (EV.beq_symm a b ▸ h)]; rfl

/-- `<` implies `≤`. -/
lemma EV.le_of_lt' (a b : EV) (h : EV.lt a b = true) : EV.le a b = true := by
  rw [EV.le, EV.lt_asymm' a b h]; rfl

/-- Cross-multiplied `≤` chains (denominators positive). -/
lemma Q.cross_le_trans (qa qb qc : Q) (ha : 0 < qa.d) (hb : 0 < qb.d)
    (hc : 0 < qc.d) (h1 : qa.n * qb.d ≤ qb.n * qa.d)
    (h2 : qb.n * qc.d ≤ qc.n * qb.d) : qa.n * qc.d ≤ qc.n * qa.d := by
  have k1 := mul_le_mul_of_nonneg_right h1 hc.le
  have k2 := mul_le_mul_of_nonneg_right h2 ha.le
  have k3 : qb.d * (qa.n * qc.d) ≤ qb.d * (qc.n * qa.d) := by nlinarith [k1, k2]
  exact le_of_mul_le_mul_left k3 hb

/-- Cross-multiplied `<` chains (denominators positive). -/
lemma Q.cross_lt_trans (qa qb qc : Q) (ha : 0 < qa.d) (hb : 0 < qb.d)
    (hc : 0 < qc.d) (h1 : qa.n * qb.d < qb.n * qa.d)
    (h2 : qb.n * qc.d < qc.n * qb.d) : qa.n * qc.d < qc.n * qa.d := by
  have k1 := mul_lt_mul_of_pos_right h1 hc
  have k2 := mul_lt_mul_of_pos_right h2 ha
  have k3 : qb.d * (qa.n * qc.d) < qb.d * (qc.n * qa.d) := by nlinarith [k1, k2]
  exact lt_of_mul_lt_mul_left k3 hb.le

/-- Cross-multiplied `≤ ; <` composition (denominators positive). -/
lemma Q.cross_le_lt_trans (qa qb qc : Q) (ha : 0 < qa.d) (hb : 0 < qb.d)
    (hc : 0 < qc.d) (h1 : qa.n * qb.d ≤ qb.n * qa.d)
    (h2 : qb.n * qc.d < qc.n * qb.d) : qa.n * qc.d < qc.n * qa.d := by
  have k1 := mul_le_mul_of_nonneg_right h1 hc.le
  have k2 := mul_lt_mul_of_pos_right h2 ha
  have k3 : qb.d * (qa.n * qc.d) < qb.d * (qc.n * qa.d) := by nlinarith [k1, k2]
  exact lt_of_mul_lt_mul_left k3 hb.le

/-- Cross-multiplied `< ; ≤` composition (denominators positive). -/
lemma Q.cross_lt_le_trans (qa qb qc : Q) (ha : 0 < qa.d) (hb : 0 < qb.d)
    (hc : 0 < qc.d) (h1 : qa.n * qb.d < qb.n * qa.d)
    (h2 : qb.n * qc.d ≤ qc.n * qb.d) : qa.n * qc.d < qc.n * qa.d := by
  have k1 := mul_lt_mul_of_pos_right h1 hc
  have k2 := mul_le_mul_of_nonneg_right h2 ha.le
  have k3 : qb.d * (qa.n * qc.d) < qb.d * (qc.n * qa.d) := by nlinarith [k1, k2]
  exact lt_of_mul_lt_mul_left k3 hb.le

/-- `<` is transitive on well-formed values. -/
lemma EV.lt_trans' (a b c : EV) (ha : evWF a = true) (hb : evWF b = true)
    (hc : evWF c = true) (h1 : EV.lt a b = true) (h2 : EV.lt b c = true) :
    EV.lt a c = true := by
  cases a <;> cases b <;> cases c <;>
    simp_all only [EV.lt, evWF, Q.blt, decide_eq_true_eq,
      Bool.true_eq_false, Bool.false_eq_true]
  rename_i qa qb qc
  exact Q.cross_lt_trans qa qb qc ha hb hc h1 h2

/-- `≤` is transitive on well-formed values. -/
lemma EV.le_trans' (a b c : EV) (ha : evWF a = true) (hb : evWF b = true)
    (hc : evWF c = true) (h1 : EV.le a b = true) (h2 : EV.le b c = true) :
    EV.le a c = true := by
  rw [EV.le, Bool.not_eq_true'] at h1 h2 ⊢
  cases a <;> cases b <;> cases c <;>
    simp_all only [EV.lt, evWF, Q.blt, decide_eq_true_eq, decide_eq_false_iff_not,
      not_lt, Bool.true_eq_false, Bool.false_eq_true]
  rename_i qa qb qc
  exact Q.cross_le_trans qa qb qc ha hb hc h1 h2

/-- `≤ ; <` composes to `<` on well-formed values. -/
lemma EV.lt_of_le_of_lt' (a b c : EV) (ha : evWF a = true) (hb : evWF b = true)
    (hc : evWF c = true) (h1 : EV.le a b = true) (h2 : EV.lt b c = true) :
    EV.lt a c = true := by
  rw [EV.le, Bool.not_eq_true'] at h1
  cases a <;> cases b <;> cases c <;>
    simp_all only [EV.lt, evWF, Q.blt, decide_eq_true_eq, decide_eq_false_iff_not,
      not_lt, Bool.true_eq_false, Bool.false_eq_true]
  rename_i qa qb qc
  exact Q.cross_le_lt_trans qa qb qc ha hb hc h1 h2

/-- `< ; ≤` composes to `<` on well-formed values. -/
lemma EV.lt_of_lt_of_le' (a b c : EV) (ha : evWF a = true) (hb : evWF b = true)
    (hc : evWF c = true) (h1 : EV.lt a b = true) (h2 : EV.le b c = true) :
    EV.lt a c = true := by
  rw [EV.le, Bool.not_eq_true'] at h2
  cases a <;> cases b <;> cases c <;>
    simp_all only [EV.lt, evWF, Q.blt, decide_eq_true_eq, decide_eq_false_iff_not,
      not_lt, Bool.true_eq_false, Bool.false_eq_true]
  rename_i qa qb qc
  exact Q.cross_lt_le_trans qa qb qc ha hb hc h1 h2

/-- `==` is transitive when the middle value is well formed. -/
lemma EV.beq_trans' (a b c : EV) (hb : evWF b = true)
    (h1 : EV.beq a b = true) (h2 : EV.beq b c = true) : EV.beq a c = true := by
  cases a <;> cases b <;> cases c <;>
    simp_all only [EV.beq, evWF, Q.beq, decide_eq_true_eq,
      Bool.true_eq_false, Bool.false_eq_true]
  rename_i qa qb qc
  have hbd : qb.d ≠ 0 := by omega
  have k : qa.n * qc.d * qb.d = qc.n * qa.d * qb.d := by
    linear_combination qc.d * h1 + qa.d * h2
  exact mul_right_cancel₀ hbd k

/-- Replacing the right side of `<` by a `==`-equal well-formed value. -/
lemma EV.lt_congr_right (a b b' : EV) (ha : evWF a = true) (hb : evWF b = true)
    (hb' : evWF b' = true) (h : EV.beq b b' = true) : EV.lt a b = EV.lt a b' := by
  cases a <;> cases b <;> cases b' <;>
    simp_all only [EV.beq, EV.lt, evWF, Q.beq, Q.blt, decide_eq_true_eq,
      Bool.true_eq_false, Bool.false_eq_true]
  rename_i qa qb qb'
  rw [decide_eq_decide]
  constructor
  · intro hlt
    exact Q.cross_lt_le_trans qa qb qb' ha hb hb' hlt h.le
  · intro hlt
    exact Q.cross_lt_le_trans qa qb' qb ha hb' hb hlt h.ge

/-- Replacing the left side of `<` by a `==`-equal well-formed value. -/
lemma EV.lt_congr_left (a a' b : EV) (ha : evWF a = true) (ha' : evWF a' = true)
    (hb : evWF b = true) (h : EV.beq a a' = true) : EV.lt a b = EV.lt a' b := by
  cases a <;> cases a' <;> cases b <;>
    simp_all only [EV.beq, EV.lt, evWF, Q.beq, Q.blt, decide_eq_true_eq,
      Bool.true_eq_false, Bool.false_eq_true]
  rename_i qa qa' qb
  rw [decide_eq_decide]
  constructor
  · intro hlt
    exact Q.cross_le_lt_trans qa' qa qb ha' ha hb h.ge hlt
  · intro hlt
    exact Q.cross_le_lt_trans qa qa' qb ha ha' hb h.le hlt

/-- Reading back the node just written. -/
lemma getN_setN_self : ∀ (ns : List FNode) (v : Nat) (x : FNode),
    v < ns.length → getN (setN ns v x) v = x
  | [], v, _, h => absurd h (by simp)
  | _ :: _, 0, _, _ => rfl
  | _ :: ns, v + 1, x, h => getN_setN_self ns v x (by simpa using h)

/-- Reading a node other than the one written. -/
lemma getN_setN_ne : ∀ (ns : List FNode) (v w : Nat) (x : FNode),
    v ≠ w → getN (setN ns v x) w = getN ns w
  | [], _, _, _, _ => rfl
  | _ :: _, 0, 0, _, h => absurd rfl h
  | _ :: _, 0, _ + 1, _, _ => rfl
  | _ :: _, _ + 1, 0, _, _ => rfl
  | _ :: ns, v + 1, w + 1, x, h => getN_setN_ne ns v w x (by omega)

/-- Value of a node other than the one written. -/
lemma valN_setN_ne (ns : List FNode) (v w : Nat) (x : FNode) (h : v ≠ w) :
    valN (setN ns v x) w = valN ns w := by
  rw [valN, getN_setN_ne ns v w x h, valN]

/-- Writing the same slot twice keeps the second write. -/
lemma setN_setN : ∀ (ns : List FNode) (v : Nat) (a b : FNode),
    setN (setN ns v a) v b = setN ns v b
  | [], _, _, _ => rfl
  | _ :: _, 0, _, _ => rfl
  | n :: ns, v + 1, a, b => congrArg (n :: ·) (setN_setN ns v a b)

/-- `foldMaxV` only reads the values of the listed nodes. -/
lemma foldMaxV_congr (ns ns' : List FNode) (l : List Nat)
    (h : ∀ i ∈ l, valN ns' i = valN ns i) : foldMaxV ns' l = foldMaxV ns l := by
  rw [foldMaxV, foldMaxV]
  exact go l _ h
where
  go (l : List Nat) (acc : EV) (h : ∀ i ∈ l, valN ns' i = valN ns i) :
      l.foldl (fun acc i => EV.maxE acc (valN ns' i)) acc =
      l.foldl (fun acc i => EV.maxE acc (valN ns i)) acc := by
    induction l generalizing acc with
    | nil => rfl
    | cons a l ih =>
      rw [List.foldl_cons, List.foldl_cons, h a (by simp)]
      exact ih _ (fun i hi => h i (by simp [hi]))

/-- `foldMinV` only reads the values of the listed nodes. -/
lemma foldMinV_congr (ns ns' : List FNode) (l : List Nat)
    (h : ∀ i ∈ l, valN ns' i = valN ns i) : foldMinV ns' l = foldMinV ns l := by
  rw [foldMinV, foldMinV]
  exact go l _ h
where
  go (l : List Nat) (acc : EV) (h : ∀ i ∈ l, valN ns' i = valN ns i) :
      l.foldl (fun acc i => EV.minE acc (valN ns' i)) acc =
      l.foldl (fun acc i => EV.minE acc (valN ns i)) acc := by
    induction l generalizing acc with
    | nil => rfl
    | cons a l ih =>
      rw [List.foldl_cons, List.foldl_cons, h a (by simp)]
      exact ih _ (fun i hi => h i (by simp [hi]))

/-- Dict lookup at a key sitting after unmatched entries. -/
lemma dGet_entry (pre : List (EV × FBlock)) (b : EV)
    (post : List (EV × FBlock)) (h : ∀ p ∈ pre, EV.beq p.1 b = false) :
    ∀ blk : FBlock, dGet (pre ++ (b, blk) :: post) b = some blk := by
  induction pre with
  | nil =>
    intro blk
    rw [List.nil_append, dGet, List.find?_cons_of_pos _ (by simpa using EV.beq_refl b)]
    rfl
  | cons p pre ih =>
    intro blk
    rw [List.cons_append, dGet, List.find?_cons_of_neg _ (by simp [h p (by simp)])]
    exact ih (fun q hq => h q (by simp [hq])) blk

/-- Dict write at a key sitting after unmatched entries. -/
lemma dSet_entry (pre : List (EV × FBlock)) (b : EV)
    (post : List (EV × FBlock)) (h : ∀ p ∈ pre, EV.beq p.1 b = false) :
    ∀ blk blk' : FBlock, dSet (pre ++ (b, blk) :: post) b blk' = pre ++ (b, blk') :: post := by
  induction pre with
  | nil =>
    intro blk blk'
    rw [List.nil_append, dSet, if_pos (by simpa using EV.beq_refl b), List.nil_append]
  | cons p pre ih =>
    intro blk blk'
    rw [List.cons_append, dSet, if_neg (by simp [h p (by simp)]), List.cons_append,
      ih (fun q hq => h q (by simp [hq])) blk blk']

/-- Erasing a fresh element appended at the tail. -/
lemma erase_append_singleton (l : List Nat) (v : Nat) (h : v ∉ l) :
    (l ++ [v]).erase v = l := by
  rw [List.erase_append_right _ h, List.erase_cons_head, List.append_nil]

/-- When the deleted value sits at or above every D0 bound (in
particular when D0 is empty), `delete` falls through to the D1 branch. -/
lemma deleteBB_d1_route (st : BB) (key : Nat) (val : EV)
    (h : ∀ mx, boundsMax st.D0_bounds = some mx → EV.lt val mx = false) :
    deleteBB st key val = deleteD1 st key val := by
  rw [deleteBB]
  cases hmx : boundsMax st.D0_bounds with
  | none => rfl
  | some mx =>
    dsimp only
    rw [if_neg (by simp [h mx hmx])]

/-- C9 counterexample: on a fresh one-node structure, the improving
`insert 0 5` followed by `delete 0 5` does not restore the pre-insert
state: the dictionaries and bound sets return, but node 0 keeps the
recorded key `5` and stays marked linked. -/
theorem insert_delete_not_roundtrip :
    insertBB (mkBB 2 .inf 1) 0 (.fin (Q.ofInt 5)) = .ok st9a ∧
    EV.lt (.fin (Q.ofInt 5)) (valN (mkBB 2 .inf 1).nodes 0) = true ∧
    deleteBB st9a 0 (.fin (Q.ofInt 5)) ≠ mkBB 2 .inf 1 ∧
    valN (deleteBB st9a 0 (.fin (Q.ofInt 5))).nodes 0 = .fin ⟨5, 1⟩ ∧
    (getN (deleteBB st9a 0 (.fin (Q.ofInt 5))).nodes 0).linked = true :=
  ⟨rfl, by decide, by decide, rfl, rfl⟩

/-- C9 (amended): an improving `insert(v, x)` followed by `delete(v, x)`
restores the block dictionaries and bound sets exactly, but not the node
store: node `v` keeps the recorded key `x` and stays marked linked.  The
hypotheses describe the pre-state: `v` in range and unlinked, the delete
routed past D0 (`x` at or above every D0 bound, in particular whenever
D0 is empty), `b` the insertion bound found for `x`, filed in D1 with
block `blk` (cached size and extrema correct, `v` not a member), no
overflow on insert, and no bound drop on the way back. -/
theorem insert_delete_roundtrip (st : BB) (v : Nat) (x w : EV)
    (pre post : List (EV × FBlock)) (b : EV) (blk : FBlock)
    (hv : v < st.nodes.length)
    (hnode : getN st.nodes v = { val := w, linked := false })
    (himp : EV.lt x w = true)
    (hD0 : ∀ mx, boundsMax st.D0_bounds = some mx → EV.lt x mx = false)
    (hsearch : boundsSearch st.D1_bounds x = some b)
    (hD1 : st.D1 = pre ++ (b, blk) :: post)
    (hpre : ∀ p ∈ pre, EV.beq p.1 b = false)
    (hvblk : v ∉ blk.elems)
    (hsz : blk.size + 1 ≤ st.M)
    (hcmax : blk.max_val = foldMaxV st.nodes blk.elems)
    (hcmin : blk.min_val = foldMinV st.nodes blk.elems)
    (hsize : blk.size = blk.elems.length)
    (hne : blk.elems ≠ [] ∨ EV.beq b st.B = true) :
    ∃ st', insertBB st v x = .ok st' ∧
      deleteBB st' v x =
        { st with nodes := setN st.nodes v { val := x, linked := true } } := by
  have hg2 : getN (setN st.nodes v { val := x, linked := false }) v
      = { val := x, linked := false } := getN_setN_self _ _ _ hv
  have hval2 : valN (setN st.nodes v { val := x, linked := false }) v = x := by
    rw [valN, hg2]
  have hg3 : getN (setN st.nodes v { val := x, linked := true }) v
      = { val := x, linked := true } := getN_setN_self _ _ _ hv
  have hval3 : valN (setN st.nodes v { val := x, linked := true }) v = x := by
    rw [valN, hg3]
  refine ⟨{ st with
      D1 := pre ++ (b, { elems := blk.elems ++ [v], size := blk.size + 1
                         max_val := if EV.lt blk.max_val x then x else blk.max_val
                         min_val := if EV.lt x blk.min_val then x else blk.min_val })
              :: post,
      nodes := setN st.nodes v { val := x, linked := true } }, ?_, ?_⟩
  · simp only [insertBB, hnode, himp, Bool.not_true, Bool.false_eq_true, if_false,
      hsearch, hD1, dGet_entry pre b post hpre, FBlock.ins, hval2, hg2,
      setN_setN, dSet_entry pre b post hpre, gt_iff_lt]
    rw [if_neg (by omega)]
  · have hie : (blk.elems ++ [v]).isEmpty = false := by simp
    rw [deleteBB_d1_route]
    rotate_left
    · exact fun mx hmx => hD0 mx hmx
    simp only [deleteD1, hsearch,
      dGet_entry pre b post hpre, FBlock.del, hg3, hval3, Bool.not_true,
      Bool.false_eq_true, if_false, hie]
    by_cases hbe : blk.elems = []
    · have hbeqB : EV.beq b st.B = true := hne.resolve_left (fun hn => hn hbe)
      have hblk : blk = ({ elems := [], size := 0
                           max_val := EV.ninf, min_val := EV.inf } : FBlock) := by
        obtain ⟨e, s, ma, mi⟩ := blk
        simp only at hbe hsize hcmax hcmin
        subst hbe
        simp only [List.length_nil] at hsize
        subst hsize
        rw [hcmax, hcmin]
        rfl
      rw [hbe]
      rw [List.nil_append, if_pos rfl]
      rw [if_neg (by simp [hbeqB, FBlock.empty])]
      rw [dSet_entry pre b post hpre]
      have hemp : FBlock.empty = blk := hblk.symm
      rw [hemp, ← hD1]
    · have hvne : ¬(blk.elems ++ [v] = [v]) := by
        intro hcon
        have := congrArg List.length hcon
        simp only [List.length_append, List.length_cons, List.length_nil] at this
        exact hbe (List.eq_nil_of_length_eq_zero (by omega))
      have hvals : ∀ i ∈ blk.elems,
          valN (setN st.nodes v { val := x, linked := true }) i = valN st.nodes i :=
        fun i hi => valN_setN_ne _ _ _ _ (fun he => hvblk (he ▸ hi))
      have hfmax : foldMaxV (setN st.nodes v { val := x, linked := true }) blk.elems
          = blk.max_val := by
        rw [foldMaxV_congr st.nodes _ blk.elems hvals]; exact hcmax.symm
      have hfmin : foldMinV (setN st.nodes v { val := x, linked := true }) blk.elems
          = blk.min_val := by
        rw [foldMinV_congr st.nodes _ blk.elems hvals]; exact hcmin.symm
      rw [if_neg hvne, erase_append_singleton blk.elems v hvblk]
      have hnm : (if EV.beq x (if EV.lt blk.max_val x then x else blk.max_val) = true
          then foldMaxV (setN st.nodes v { val := x, linked := true }) blk.elems
          else if EV.lt blk.max_val x then x else blk.max_val) = blk.max_val := by
        by_cases hmx : EV.lt blk.max_val x = true
        · rw [if_pos hmx, if_pos (EV.beq_refl x), hfmax]
        · rw [if_neg hmx]
          by_cases hbq : EV.beq x blk.max_val = true
          · rw [if_pos hbq, hfmax]
          · rw [if_neg hbq]
      have hnmin : (if EV.beq x (if EV.lt x blk.min_val then x else blk.min_val) = true
          then foldMinV (setN st.nodes v { val := x, linked := true }) blk.elems
          else if EV.lt x blk.min_val then x else blk.min_val) = blk.min_val := by
        by_cases hmx : EV.lt x blk.min_val = true
        · rw [if_pos hmx, if_pos (EV.beq_refl x), hfmin]
        · rw [if_neg hmx]
          by_cases hbq : EV.beq x blk.min_val = true
          · rw [if_pos hbq, hfmin]
          · rw [if_neg hbq]
      rw [hnm, hnmin]
      have hszr : blk.size + 1 - 1 = blk.size := by omega
      rw [hszr]
      have hblk2 : ({ elems := blk.elems, size := blk.size
                      max_val := blk.max_val, min_val := blk.min_val } : FBlock) = blk := rfl
      rw [hblk2]
      rw [if_neg (by
        intro hcon
        rw [List.isEmpty_iff] at hcon
        exact hbe hcon.1)]
      rw [dSet_entry pre b post hpre, ← hD1]

/-- Witness for `insert_delete_roundtrip` on a fresh two-node structure:
inserting key 5 for vertex 0 and deleting it again restores everything
except node 0, which keeps value 5 and stays marked linked. -/
theorem insert_delete_roundtrip_witness :
    ∃ st', insertBB (mkBB 2 .inf 2) 0 (.fin ⟨5, 1⟩) = .ok st' ∧
      deleteBB st' 0 (.fin ⟨5, 1⟩) =
        { mkBB 2 .inf 2 with
          nodes := setN (mkBB 2 .inf 2).nodes 0 { val := .fin ⟨5, 1⟩, linked := true } } :=
  insert_delete_roundtrip (mkBB 2 .inf 2) 0 (.fin ⟨5, 1⟩) .inf [] [] .inf FBlock.empty
    (by decide) rfl (by decide) (fun mx hmx => Option.noConfusion hmx) rfl rfl
    (by decide) (by decide) (by decide) rfl rfl rfl (Or.inr rfl)

/-! ## Sortedness, value membership and dict lemmas for the D1 invariant -/

/-- Nothing is below `-inf`. -/
lemma EV.le_ninf_left (x : EV) : EV.le .ninf x = true := by
  cases x <;> rfl

/-- `<` rules out `==`. -/
lemma EV.beq_of_lt_false (a b : EV) (h : EV.lt a b = true) : EV.beq a b = false := by
  cases a <;> cases b <;>
    simp_all only [EV.beq, EV.lt, Q.beq, Q.blt, decide_eq_true_eq,
      decide_eq_false_iff_not, Bool.true_eq_false, Bool.false_eq_true]
  exact ne_of_lt h

/-- A strictly sorted list of well-formed values is pairwise `<`. -/
lemma ss_iff_pairwise : ∀ (l : List EV), (∀ x ∈ l, evWF x = true) →
    (sortedStrict l = true ↔ l.Pairwise (fun a b => EV.lt a b = true))
  | [], _ => by simp [sortedStrict]
  | [a], _ => by simp [sortedStrict]
  | a :: b :: r, hwf => by
    have ih := ss_iff_pairwise (b :: r) (fun x hx => hwf x (by simp [hx]))
    rw [sortedStrict, Bool.and_eq_true, ih]
    constructor
    · rintro ⟨hab, hp⟩
      refine List.pairwise_cons.mpr ⟨?_, hp⟩
      intro x hx
      rcases List.mem_cons.mp hx with hx | hx
      · exact hx ▸ hab
      · have hall := (List.pairwise_cons.mp hp).1
        exact EV.lt_trans' a b x (hwf a (by simp)) (hwf b (by simp))
          (hwf x (by simp [hx])) hab (hall x hx)
    · intro hp
      obtain ⟨hall, hp'⟩ := List.pairwise_cons.mp hp
      exact ⟨hall b (by simp), hp'⟩

/-- `evErase` removes the named element when the prefix has no
value-equal entry. -/
lemma evErase_append (A : List EV) (x : EV) (C : List EV)
    (h : ∀ a ∈ A, EV.beq a x = false) : evErase (A ++ x :: C) x = A ++ C := by
  induction A with
  | nil => rw [List.nil_append, evErase, if_pos (EV.beq_refl x), List.nil_append]
  | cons a A ih =>
    rw [List.cons_append, evErase, if_neg (by simp [h a (by simp)]),
      List.cons_append, ih (fun q hq => h q (by simp [hq]))]

/-- A value stays `evMem` after erasing a non-equal value. -/
lemma evMem_evErase (l : List EV) (y x : EV) (hwl : ∀ a ∈ l, evWF a = true)
    (hm : evMem y l = true) (hne : EV.beq x y = false) :
    evMem y (evErase l x) = true := by
  induction l with
  | nil => simp [evMem] at hm
  | cons a l ih =>
    rw [evMem, List.any_cons, Bool.or_eq_true] at hm
    rw [evErase]
    by_cases hax : EV.beq a x = true
    · rcases hm with hm | hm
      · exact absurd (EV.beq_trans' x a y (hwl a (by simp))
          (EV.beq_symm a x ▸ hax) hm) (by simp [hne])
      · rw [if_pos hax]; exact hm
    · rw [if_neg hax, evMem, List.any_cons, Bool.or_eq_true]
      rcases hm with hm | hm
      · exact Or.inl hm
      · exact Or.inr (ih (fun q hq => hwl q (by simp [hq])) hm)

/-- Syntactic membership gives value membership. -/
lemma evMem_of_mem (l : List EV) (x : EV) (h : x ∈ l) : evMem x l = true := by
  rw [evMem, List.any_eq_true]
  exact ⟨x, h, EV.beq_refl x⟩

/-- Lookup misses when no key matches. -/
lemma dGet_none (d : List (EV × FBlock)) (k : EV)
    (h : ∀ p ∈ d, EV.beq p.1 k = false) : dGet d k = none := by
  rw [dGet, List.find?_eq_none.mpr (fun p hp => by simp [h p hp])]
  rfl

/-- Lookup only depends on the key's value. -/
lemma dGet_congr (d : List (EV × FBlock)) (k k' : EV) (hk : evWF k = true)
    (hk' : evWF k' = true) (h : EV.beq k k' = true) : dGet d k = dGet d k' := by
  induction d with
  | nil => rfl
  | cons p d ih =>
    rw [dGet, dGet]
    by_cases hp : EV.beq p.1 k = true
    · rw [List.find?_cons_of_pos _ (by simpa using hp),
        List.find?_cons_of_pos _ (by simpa using EV.beq_trans' p.1 k k' hk hp h)]
    · have hp' : EV.beq p.1 k' = false := by
        by_contra hcon
        rw [Bool.not_eq_false] at hcon
        exact (by simp [hp] :
          EV.beq p.1 k ≠ true) (EV.beq_trans' p.1 k' k hk' hcon (EV.beq_symm k k' ▸ h))
      rw [List.find?_cons_of_neg _ (by simp [hp]),
        List.find?_cons_of_neg _ (by simp [hp'])]
      exact ih

/-- Members of a dict after a write. -/
lemma mem_dSet : ∀ (d : List (EV × FBlock)) (k : EV) (v : FBlock)
    (q : EV × FBlock), q ∈ dSet d k v → q ∈ d ∨ q = (k, v)
  | [], k, v, q, hq => by
    rw [dSet] at hq
    exact Or.inr (by simpa using hq)
  | p :: d, k, v, q, hq => by
    rw [dSet] at hq
    by_cases hp : EV.beq p.1 k = true
    · rw [if_pos hp] at hq
      rcases List.mem_cons.mp hq with h | h
      · exact Or.inr h
      · exact Or.inl (by simp [h])

    · rw [if_neg hp] at hq
      rcases List.mem_cons.mp hq with h | h
      · exact Or.inl (by simp [h])
      · rcases mem_dSet d k v q h with h2 | h2
        · exact Or.inl (by simp [h2])
        · exact Or.inr h2

/-- Members of a dict after a deletion. -/
lemma mem_dDel : ∀ (d : List (EV × FBlock)) (k : EV) (q : EV × FBlock),
    q ∈ dDel d k → q ∈ d
  | [], _, _, hq => by simp [dDel] at hq
  | p :: d, k, q, hq => by
    rw [dDel] at hq
    by_cases hp : EV.beq p.1 k = true
    · rw [if_pos hp] at hq
      exact List.mem_cons.mpr (Or.inr hq)
    · rw [if_neg hp] at hq
      rcases List.mem_cons.mp hq with h | h
      · exact List.mem_cons.mpr (Or.inl h)
      · exact List.mem_cons.mpr (Or.inr (mem_dDel d k q h))

/-- Lookup at a matching head. -/
lemma dGet_cons_pos (p : EV × FBlock) (d : List (EV × FBlock)) (k : EV)
    (h : EV.beq p.1 k = true) : dGet (p :: d) k = some p.2 := by
  rw [dGet, List.find?_cons_of_pos _ (by simpa using h)]
  rfl

/-- Lookup skipping a non-matching head. -/
lemma dGet_cons_neg (p : EV × FBlock) (d : List (EV × FBlock)) (k : EV)
    (h : EV.beq p.1 k = false) : dGet (p :: d) k = dGet d k := by
  rw [dGet, List.find?_cons_of_neg _ (by simp [h]), dGet]

/-- Lookup after a write: the written key wins, other keys unchanged
(well-formed keys, so `==` chains compose). -/
lemma dGet_dSet : ∀ (d : List (EV × FBlock)) (k : EV) (v : FBlock) (k' : EV),
    evWF k = true → evWF k' = true → keysWF d = true →
    dGet (dSet d k v) k' = if EV.beq k' k = true then some v else dGet d k'
  | [], k, v, k', hk, hk', _ => by
    rw [dSet]
    by_cases hbe : EV.beq k' k = true
    · rw [if_pos hbe, dGet_cons_pos _ _ _ (EV.beq_symm k' k ▸ hbe)]
    · rw [if_neg hbe, dGet_cons_neg _ _ _ (by
        rw [EV.beq_symm k k']
        simpa using hbe)]
  | p :: d, k, v, k', hk, hk', hd => by
    have hpwf : evWF p.1 = true := by
      rw [keysWF, List.all_cons, Bool.and_eq_true] at hd; exact hd.1
    have hdw : keysWF d = true := by
      rw [keysWF, List.all_cons, Bool.and_eq_true] at hd; exact hd.2
    rw [dSet]
    by_cases hp : EV.beq p.1 k = true
    · rw [if_pos hp]
      by_cases hbe : EV.beq k' k = true
      · rw [if_pos hbe, dGet_cons_pos _ _ _ (EV.beq_symm k' k ▸ hbe)]
      · have hpk : EV.beq p.1 k' = false := by
          by_contra hcon
          rw [Bool.not_eq_false] at hcon
          exact (by simp [hbe] : ¬EV.beq k' k = true)
            (EV.beq_trans' k' p.1 k hpwf (EV.beq_symm p.1 k' ▸ hcon) hp)
        rw [if_neg hbe, dGet_cons_neg _ _ _ (by
            rw [EV.beq_symm k k']
            by_contra hcon
            rw [Bool.not_eq_false] at hcon
            exact (by simp [hbe] : ¬EV.beq k' k = true) hcon),
          dGet_cons_neg _ _ _ hpk]
    · rw [if_neg hp]
      by_cases hpk : EV.beq p.1 k' = true
      · have hbe : EV.beq k' k = false := by
          by_contra hcon
          rw [Bool.not_eq_false] at hcon
          exact (by simp [hp] : ¬EV.beq p.1 k = true)
            (EV.beq_trans' p.1 k' k hk' hpk hcon)
        rw [dGet_cons_pos _ _ _ hpk, if_neg (by simp [hbe]), dGet_cons_pos _ _ _ hpk]
      · rw [dGet_cons_neg _ _ _ (by simpa using hpk),
          dGet_cons_neg _ _ _ (by simpa using hpk)]
        exact dGet_dSet d k v k' hk hk' hdw

/-- Lookup after a deletion: the deleted key misses, other keys
unchanged (keys well formed and pairwise distinct). -/
lemma dGet_dDel : ∀ (d : List (EV × FBlock)) (k k' : EV),
    evWF k = true → evWF k' = true → keysWF d = true → keysDistinct d = true →
    dGet (dDel d k) k' = if EV.beq k' k = true then none else dGet d k'
  | [], k, k', _, _, _, _ => by
    rw [dDel]
    by_cases hbe : EV.beq k' k = true
    · rw [if_pos hbe]; rfl
    · rw [if_neg hbe]
  | p :: d, k, k', hk, hk', hd, hdist => by
    have hpwf : evWF p.1 = true := by
      rw [keysWF, List.all_cons, Bool.and_eq_true] at hd; exact hd.1
    have hdw : keysWF d = true := by
      rw [keysWF, List.all_cons, Bool.and_eq_true] at hd; exact hd.2
    rw [keysDistinct, Bool.and_eq_true] at hdist
    rw [dDel]
    by_cases hp : EV.beq p.1 k = true
    · rw [if_pos hp]
      by_cases hbe : EV.beq k' k = true
      · rw [if_pos hbe]
        refine dGet_none d k' ?_
        intro q hq
        by_contra hcon
        rw [Bool.not_eq_false] at hcon
        have h1 : EV.beq q.1 k = true :=
          EV.beq_trans' q.1 k' k hk' hcon hbe
        have h2 : EV.beq q.1 p.1 = true :=
          EV.beq_trans' q.1 k p.1 hk h1 (EV.beq_symm p.1 k ▸ hp)
        have := List.all_eq_true.mp hdist.1 q hq
        rw [EV.beq_symm p.1 q.1] at this
        simp [h2] at this
      · have hpk : EV.beq p.1 k' = false := by
          by_contra hcon
          rw [Bool.not_eq_false] at hcon
          exact (by simp [hbe] : ¬EV.beq k' k = true)
            (EV.beq_trans' k' p.1 k hpwf (EV.beq_symm p.1 k' ▸ hcon) hp)
        rw [if_neg hbe, dGet_cons_neg _ _ _ hpk]
    · rw [if_neg hp]
      by_cases hpk : EV.beq p.1 k' = true
      · have hbe : EV.beq k' k = false := by
          by_contra hcon
          rw [Bool.not_eq_false] at hcon
          exact (by simp [hp] : ¬EV.beq p.1 k = true)
            (EV.beq_trans' p.1 k' k hk' hpk hcon)
        rw [dGet_cons_pos _ _ _ hpk, if_neg (by simp [hbe]), dGet_cons_pos _ _ _ hpk]
      · rw [dGet_cons_neg _ _ _ (by simpa using hpk),
          dGet_cons_neg _ _ _ (by simpa using hpk)]
        exact dGet_dDel d k k' hk hk' hdw hdist.2

/-- Keys stay well formed after a write of a well-formed key. -/
lemma keysWF_dSet (d : List (EV × FBlock)) (k : EV) (v : FBlock)
    (hd : keysWF d = true) (hk : evWF k = true) : keysWF (dSet d k v) = true := by
  rw [keysWF, List.all_eq_true]
  intro q hq
  rcases mem_dSet d k v q hq with h | h
  · exact List.all_eq_true.mp hd q h
  · rw [h]; exact hk

/-- Keys stay well formed after a deletion. -/
lemma keysWF_dDel (d : List (EV × FBlock)) (k : EV)
    (hd : keysWF d = true) : keysWF (dDel d k) = true := by
  rw [keysWF, List.all_eq_true]
  intro q hq
  exact List.all_eq_true.mp hd q (mem_dDel d k q hq)

/-- Distinctness survives a deletion. -/
lemma keysDistinct_dDel : ∀ (d : List (EV × FBlock)) (k : EV),
    keysDistinct d = true → keysDistinct (dDel d k) = true
  | [], _, _ => rfl
  | p :: d, k, h => by
    rw [keysDistinct, Bool.and_eq_true] at h
    rw [dDel]
    by_cases hp : EV.beq p.1 k = true
    · rw [if_pos hp]; exact h.2
    · rw [if_neg hp, keysDistinct, Bool.and_eq_true]
      refine ⟨?_, keysDistinct_dDel d k h.2⟩
      rw [List.all_eq_true]
      exact fun q hq => List.all_eq_true.mp h.1 q (mem_dDel d k q hq)

/-- Distinctness survives a write of a well-formed key. -/
lemma keysDistinct_dSet : ∀ (d : List (EV × FBlock)) (k : EV) (v : FBlock),
    keysDistinct d = true → keysWF d = true → evWF k = true →
    keysDistinct (dSet d k v) = true
  | [], _, _, _, _, _ => rfl
  | p :: d, k, v, hdist, hd, hk => by
    have hpwf : evWF p.1 = true := by
      rw [keysWF, List.all_cons, Bool.and_eq_true] at hd; exact hd.1
    have hdw : keysWF d = true := by
      rw [keysWF, List.all_cons, Bool.and_eq_true] at hd; exact hd.2
    rw [keysDistinct, Bool.and_eq_true] at hdist
    rw [dSet]
    by_cases hp : EV.beq p.1 k = true
    · rw [if_pos hp, keysDistinct, Bool.and_eq_true]
      refine ⟨?_, hdist.2⟩
      rw [List.all_eq_true]
      intro q hq
      have hold := List.all_eq_true.mp hdist.1 q hq
      by_contra hcon
      simp only [Bool.not_eq_true, Bool.not_eq_false'] at hcon
      have : EV.beq p.1 q.1 = true :=
        EV.beq_trans' p.1 k q.1 hk hp hcon
      simp [this] at hold
    · rw [if_neg hp, keysDistinct, Bool.and_eq_true]
      refine ⟨?_, keysDistinct_dSet d k v hdist.2 hdw hk⟩
      rw [List.all_eq_true]
      intro q hq
      rcases mem_dSet d k v q hq with h | h
      · exact List.all_eq_true.mp hdist.1 q h
      · rw [h]
        simp [hp]

/-- Entries of a block after `Block.delete` were entries before. -/
lemma FBlock_del_mem (blk : FBlock) (ns : List FNode) (key : Nat) :
    ∀ n ∈ (FBlock.del blk ns key).elems, n ∈ blk.elems := by
  intro n hn
  rw [FBlock.del] at hn
  by_cases h1 : blk.elems.isEmpty = true
  · rw [if_pos h1] at hn; exact hn
  · rw [if_neg h1] at hn
    by_cases h2 : (!(getN ns key).linked) = true
    · rw [if_pos h2] at hn; exact hn
    · rw [if_neg h2] at hn
      by_cases h3 : blk.elems = [key]
      · rw [if_pos h3] at hn
        simp [FBlock.empty] at hn
      · rw [if_neg h3] at hn
        exact List.mem_of_mem_erase hn

/-- The weak range checker is stable under any dict/store change after
which every visible entry was already visible under the same bound with
the same value. -/
lemma rangeFrom_weaken (d d' : List (EV × FBlock)) (ns ns' : List FNode) :
    ∀ (L : List EV) (lo : EV),
    (∀ b ∈ L, ∀ blk', dGet d' b = some blk' → ∀ n ∈ blk'.elems,
      ∃ blk, dGet d b = some blk ∧ n ∈ blk.elems ∧ valN ns' n = valN ns n) →
    d1RangeFrom false d ns lo L = true → d1RangeFrom false d' ns' lo L = true
  | [], _, _, _ => rfl
  | b :: L, lo, h, hr => by
    rw [d1RangeFrom, Bool.and_eq_true] at hr
    rw [d1RangeFrom, Bool.and_eq_true]
    refine ⟨?_, rangeFrom_weaken d d' ns ns' L b
      (fun b' hb' => h b' (by simp [hb'])) hr.2⟩
    cases hde : dGet d' b with
    | none => rfl
    | some blk' =>
      rw [List.all_eq_true]
      intro n hn
      obtain ⟨blk, hget, hmem, hval⟩ := h b (by simp) blk' hde n hn
      have h1 := hr.1
      simp only [hget] at h1
      rw [List.all_eq_true] at h1
      have h2 := h1 n hmem
      rw [Bool.and_eq_true] at h2
      rw [Bool.and_eq_true]
      simp only [Bool.cond_false] at h2 ⊢
      rw [hval]
      exact h2

/-- Splitting a checker walk at an append. -/
lemma rangeFrom_append (s : Bool) (d : List (EV × FBlock)) (ns : List FNode) :
    ∀ (A B : List EV) (lo : EV),
    d1RangeFrom s d ns lo (A ++ B) =
      (d1RangeFrom s d ns lo A && d1RangeFrom s d ns (A.getLastD lo) B)
  | [], B, lo => by
    rw [List.nil_append, List.getLastD_nil]
    show _ = (true && _)
    rw [Bool.true_and]
  | a :: A, B, lo => by
    rw [List.cons_append, d1RangeFrom, d1RangeFrom, rangeFrom_append s d ns A B a,
      List.getLastD_cons, Bool.and_assoc]

/-- Weakening the carried lower bound of the checker. -/
lemma rangeFrom_mono_lo (d : List (EV × FBlock)) (ns : List FNode)
    (L : List EV) (lo lo' : EV) (hwlo : evWF lo = true) (hwlo' : evWF lo' = true)
    (hvwf : ∀ b ∈ L, ∀ blk, dGet d b = some blk →
      ∀ n ∈ blk.elems, evWF (valN ns n) = true)
    (hle : EV.le lo' lo = true)
    (h : d1RangeFrom false d ns lo L = true) :
    d1RangeFrom false d ns lo' L = true := by
  cases L with
  | nil => rfl
  | cons b L =>
    rw [d1RangeFrom, Bool.and_eq_true] at h
    rw [d1RangeFrom, Bool.and_eq_true]
    refine ⟨?_, h.2⟩
    cases hde : dGet d b with
    | none => rfl
    | some blk =>
      have h1 := h.1
      simp only [hde] at h1
      rw [List.all_eq_true] at h1
      rw [List.all_eq_true]
      intro n hn
      have h2 := h1 n hn
      rw [Bool.and_eq_true] at h2
      rw [Bool.and_eq_true]
      simp only [Bool.cond_false] at h2 ⊢
      refine ⟨?_, h2.2⟩
      exact EV.le_trans' lo' lo (valN ns n) hwlo' hwlo
        (hvwf b (by simp) blk hde n hn) hle h2.1

/-- `evErase` yields a sublist. -/
lemma evErase_sublist : ∀ (l : List EV) (x : EV), (evErase l x).Sublist l
  | [], _ => List.Sublist.refl []
  | a :: l, x => by
    rw [evErase]
    by_cases h : EV.beq a x = true
    · rw [if_pos h]
      exact List.sublist_cons_self a l
    · rw [if_neg h]
      exact List.Sublist.cons₂ a (evErase_sublist l x)

/-- A nonempty list contains its `getLastD`. -/
lemma getLastD_mem : ∀ (A : List EV) (d : EV), A ≠ [] → A.getLastD d ∈ A
  | [], _, h => absurd rfl h
  | [a], d, _ => by simp [List.getLastD]
  | a :: b :: A, d, _ => by
    rw [List.getLastD_cons]
    exact List.mem_cons.mpr (Or.inr (getLastD_mem (b :: A) a (by simp)))

/-- A successful lookup names an entry of the dict. -/
lemma dGet_mem (d : List (EV × FBlock)) (k : EV) (blk : FBlock)
    (h : dGet d k = some blk) : ∃ k0, (k0, blk) ∈ d := by
  rw [dGet] at h
  cases hf : d.find? (fun p => EV.beq p.1 k) with
  | none => rw [hf] at h; cases h
  | some q =>
    rw [hf] at h
    refine ⟨q.1, ?_⟩
    have hq := List.mem_of_find?_eq_some hf
    have : q.2 = blk := by
      simpa using h
    rw [← this]
    exact hq

/-- The bound `deleteD1` picks is one of the D1 bounds. -/
lemma deleteD1_bound_mem (st : BB) (val : EV) (bound : EV)
    (h : (match boundsSearch st.D1_bounds val with
          | some b => some b
          | none => boundsMax st.D1_bounds) = some bound) :
    bound ∈ st.D1_bounds := by
  cases hbs : boundsSearch st.D1_bounds val with
  | some b =>
    rw [hbs] at h
    injection h with h1
    rw [← h1]
    exact List.mem_of_find?_eq_some hbs
  | none =>
    rw [hbs] at h
    exact List.mem_of_getLast?_eq_some h

/-- `deleteD1` preserves the D1 well-formedness package and the weak
range invariant. -/
lemma deleteD1_preserves (st : BB) (key : Nat) (val : EV)
    (hwf : bbWF st = true) (hr : d1RangeOk false st = true) :
    bbWF (deleteD1 st key val) = true ∧
    d1RangeOk false (deleteD1 st key val) = true := by
  have hparts := hwf
  rw [bbWF, Bool.and_eq_true, Bool.and_eq_true, Bool.and_eq_true,
    Bool.and_eq_true, Bool.and_eq_true] at hparts
  obtain ⟨⟨⟨⟨⟨hbwf, hss⟩, hkwf⟩, hkd⟩, hBm⟩, hvwf⟩ := hparts
  have hwfmem : ∀ x ∈ st.D1_bounds, evWF x = true :=
    fun x hx => List.all_eq_true.mp hbwf x hx
  have hvalwf : ∀ b ∈ st.D1_bounds, ∀ blk, dGet st.D1 b = some blk →
      ∀ n ∈ blk.elems, evWF (valN st.nodes n) = true := by
    intro b _ blk hget n hn
    obtain ⟨k0, hk0⟩ := dGet_mem st.D1 b blk hget
    exact List.all_eq_true.mp (List.all_eq_true.mp hvwf (k0, blk) hk0) n hn
  simp only [deleteD1]
  cases hb : (match boundsSearch st.D1_bounds val with
      | some b => some b | none => boundsMax st.D1_bounds) with
  | none => exact ⟨hwf, hr⟩
  | some bound =>
    dsimp only
    have hbmem : bound ∈ st.D1_bounds := deleteD1_bound_mem st val bound hb
    have hbdwf : evWF bound = true := hwfmem bound hbmem
    cases hdg : dGet st.D1 bound with
    | none => exact ⟨hwf, hr⟩
    | some blk =>
      dsimp only
      by_cases hdrop : (FBlock.del blk st.nodes key).elems.isEmpty = true ∧
          (!EV.beq bound st.B) = true
      · rw [if_pos hdrop]
        have hbeqB : EV.beq bound st.B = false := by
          have := hdrop.2
          rwa [Bool.not_eq_true'] at this
        obtain ⟨A, C, hAC⟩ := List.append_of_mem hbmem
        have hpw : st.D1_bounds.Pairwise (fun a b => EV.lt a b = true) :=
          (ss_iff_pairwise st.D1_bounds hwfmem).mp hss
        rw [hAC] at hpw
        have hpw2 := List.pairwise_append.mp hpw
        have hA : ∀ a ∈ A, EV.lt a bound = true :=
          fun a ha => hpw2.2.2 a ha bound (by simp)
        have hC : ∀ c ∈ C, EV.lt bound c = true :=
          fun c hc => (List.pairwise_cons.mp hpw2.2.1).1 c hc
        have hAne : ∀ a ∈ A, EV.beq a bound = false :=
          fun a ha => EV.beq_of_lt_false a bound (hA a ha)
        have hCne : ∀ c ∈ C, EV.beq c bound = false := by
          intro c hc
          rw [EV.beq_symm]
          exact EV.beq_of_lt_false bound c (hC c hc)
        have herase : evErase st.D1_bounds bound = A ++ C := by
          rw [hAC]
          exact evErase_append A bound C hAne
        have hmemAC : ∀ x ∈ A ++ C, x ∈ st.D1_bounds := by
          intro x hx
          rw [hAC]
          rcases List.mem_append.mp hx with h | h
          · exact List.mem_append.mpr (Or.inl h)
          · exact List.mem_append.mpr (Or.inr (by simp [h]))
        have hlook : ∀ x ∈ A ++ C, dGet (dDel st.D1 bound) x = dGet st.D1 x := by
          intro x hx
          rw [dGet_dDel st.D1 bound x hbdwf (hwfmem x (hmemAC x hx)) hkwf hkd]
          rcases List.mem_append.mp hx with h | h
          · rw [if_neg (by simp [hAne x h])]
          · rw [if_neg (by simp [hCne x h])]
        constructor
        · -- the well-formedness package after the drop
          rw [bbWF]
          simp only [Bool.and_eq_true]
          refine ⟨⟨⟨⟨⟨?_, ?_⟩, ?_⟩, ?_⟩, ?_⟩, ?_⟩
          · rw [List.all_eq_true]
            intro x hx
            exact hwfmem x ((evErase_sublist st.D1_bounds bound).subset hx)
          · exact (ss_iff_pairwise (evErase st.D1_bounds bound) (fun x hx =>
              hwfmem x ((evErase_sublist st.D1_bounds bound).subset hx))).mpr
              (((ss_iff_pairwise _ hwfmem).mp hss).sublist
                (evErase_sublist st.D1_bounds bound))
          · exact keysWF_dDel st.D1 bound hkwf
          · exact keysDistinct_dDel st.D1 bound hkd
          · exact evMem_evErase st.D1_bounds st.B bound hwfmem hBm hbeqB
          · rw [List.all_eq_true]
            intro q hq
            exact List.all_eq_true.mp hvwf q (mem_dDel st.D1 bound q hq)
        · -- the range invariant after the drop
          rw [d1RangeOk]
          dsimp only
          rw [boundsDel, herase]
          rw [d1RangeOk, hAC] at hr
          rw [rangeFrom_append] at hr ⊢
          rw [Bool.and_eq_true] at hr ⊢
          refine ⟨?_, ?_⟩
          · refine rangeFrom_weaken st.D1 _ st.nodes st.nodes A .ninf ?_ hr.1
            intro x hx blk' hget'
            rw [hlook x (List.mem_append.mpr (Or.inl hx))] at hget'
            exact fun n hn => ⟨blk', hget', hn, rfl⟩
          · have hr2 := hr.2
            rw [d1RangeFrom, Bool.and_eq_true] at hr2
            have hC' : d1RangeFrom false st.D1 st.nodes (A.getLastD EV.ninf) C = true := by
              refine rangeFrom_mono_lo st.D1 st.nodes C bound (A.getLastD EV.ninf)
                hbdwf ?_ ?_ ?_ hr2.2
              · cases hAe : A with
                | nil => rfl
                | cons a A' =>
                  exact hwfmem _ (by
                    rw [hAC, hAe]
                    exact List.mem_append.mpr (Or.inl (getLastD_mem (a :: A') .ninf (by simp))))
              · intro b2 hb2 blk2 hget2 n hn
                exact hvalwf b2 (hmemAC b2 (List.mem_append.mpr (Or.inr hb2))) blk2 hget2 n hn
              · cases hAe : A with
                | nil =>
                  rw [List.getLastD_nil]
                  exact EV.le_ninf_left bound
                | cons a A' =>
                  have hmm : (a :: A').getLastD EV.ninf ∈ A := by
                    rw [hAe]
                    exact getLastD_mem (a :: A') .ninf (by simp)
                  exact EV.le_of_lt' _ _ (hA _ hmm)
            refine rangeFrom_weaken st.D1 _ st.nodes st.nodes C (A.getLastD EV.ninf) ?_ hC'
            intro x hx blk' hget'
            rw [hlook x (List.mem_append.mpr (Or.inr hx))] at hget'
            exact fun n hn => ⟨blk', hget', hn, rfl⟩
      · rw [if_neg hdrop]
        have hlook : ∀ x ∈ st.D1_bounds,
            dGet (dSet st.D1 bound (FBlock.del blk st.nodes key)) x =
            if EV.beq x bound = true then some (FBlock.del blk st.nodes key)
            else dGet st.D1 x := by
          intro x hx
          exact dGet_dSet st.D1 bound _ x hbdwf (hwfmem x hx) hkwf
        constructor
        · rw [bbWF]
          simp only [Bool.and_eq_true]
          refine ⟨⟨⟨⟨⟨hbwf, hss⟩, ?_⟩, ?_⟩, hBm⟩, ?_⟩
          · exact keysWF_dSet st.D1 bound _ hkwf hbdwf
          · exact keysDistinct_dSet st.D1 bound _ hkd hkwf hbdwf
          · rw [List.all_eq_true]
            intro q hq
            rcases mem_dSet st.D1 bound _ q hq with h | h
            · exact List.all_eq_true.mp hvwf q h
            · rw [h]
              rw [List.all_eq_true]
              intro n hn
              have hn2 := FBlock_del_mem blk st.nodes key n hn
              obtain ⟨k0, hk0⟩ := dGet_mem st.D1 bound blk hdg
              exact List.all_eq_true.mp
                (List.all_eq_true.mp hvwf (k0, blk) hk0) n hn2
        · rw [d1RangeOk] at hr ⊢
          refine rangeFrom_weaken st.D1 _ st.nodes st.nodes st.D1_bounds .ninf ?_ hr
          intro x hx blk' hget'
          rw [hlook x hx] at hget'
          by_cases hxb : EV.beq x bound = true
          · rw [if_pos hxb] at hget'
            injection hget' with hget'
            intro n hn
            rw [← hget'] at hn
            have hn2 := FBlock_del_mem blk st.nodes key n hn
            refine ⟨blk, ?_, hn2, rfl⟩
            rw [dGet_congr st.D1 x bound (hwfmem x hx) hbdwf hxb]
            exact hdg
          · rw [if_neg hxb] at hget'
            exact fun n hn => ⟨blk', hget', hn, rfl⟩

/-- `delete` preserves the D1 well-formedness package and the weak
range invariant (the D0 branch never touches D1). -/
lemma deleteBB_preserves (st : BB) (key : Nat) (val : EV)
    (hwf : bbWF st = true) (hr : d1RangeOk false st = true) :
    bbWF (deleteBB st key val) = true ∧
    d1RangeOk false (deleteBB st key val) = true := by
  rw [deleteBB]
  cases hmx : boundsMax st.D0_bounds with
  | none => exact deleteD1_preserves st key val hwf hr
  | some mx =>
    dsimp only
    by_cases hlt : EV.lt val mx = true
    · rw [if_pos hlt]
      cases hdg : dGet st.D0 (match boundsSearch st.D0_bounds val with
          | some b => b | none => mx) with
      | none => exact ⟨hwf, hr⟩
      | some blk =>
        dsimp only
        by_cases he : (FBlock.del blk st.nodes key).elems.isEmpty = true
        · rw [if_pos he]
          exact ⟨hwf, hr⟩
        · rw [if_neg he]
          exact ⟨hwf, hr⟩
    · rw [if_neg hlt]
      exact deleteD1_preserves st key val hwf hr

/-- Folded deletes (as in `pull`) preserve the package and invariant. -/
lemma foldDel_preserves (l : List (Nat × EV)) :
    ∀ (st : BB), bbWF st = true → d1RangeOk false st = true →
    bbWF (l.foldl (fun s p => deleteBB s p.1 p.2) st) = true ∧
    d1RangeOk false (l.foldl (fun s p => deleteBB s p.1 p.2) st) = true := by
  induction l with
  | nil => exact fun st hwf hr => ⟨hwf, hr⟩
  | cons p l ih =>
    intro st hwf hr
    rw [List.foldl_cons]
    obtain ⟨h1, h2⟩ := deleteBB_preserves st p.1 p.2 hwf hr
    exact ih _ h1 h2

/-- `pull` preserves the D1 package and the weak range invariant: its
state effect is a fold of deletes. -/
lemma pullBB_preserves (st st' : BB) (r : List Nat × EV)
    (hwf : bbWF st = true) (hr : d1RangeOk false st = true)
    (h : pullBB st = .ok (st', r)) :
    bbWF st' = true ∧ d1RangeOk false st' = true := by
  rw [pullBB] at h
  dsimp only at h
  split at h
  · exact absurd h (by simp)
  · split at h
    · exact absurd h (by simp)
    · split at h
      · injection h with h1
        have hst := congrArg Prod.fst h1
        dsimp only at hst
        rw [← hst]
        exact foldDel_preserves _ st hwf hr
      · split at h
        · exact absurd h (by simp)
        · injection h with h1
          have hst := congrArg Prod.fst h1
          dsimp only at hst
          rw [← hst]
          exact foldDel_preserves _ st hwf hr

/-- The value-recording fold of `batch_prepend` leaves other nodes
untouched. -/
lemma recordVals_frame (L : List (Nat × EV)) :
    ∀ (ns : List FNode) (i : Nat), i ∉ L.map Prod.fst →
    getN (L.foldl (fun ns p => setN ns p.1 { getN ns p.1 with val := p.2 }) ns) i
      = getN ns i := by
  induction L with
  | nil => exact fun ns i _ => rfl
  | cons p L ih =>
    intro ns i hi
    rw [List.foldl_cons]
    rw [ih _ i (fun hmem => hi (by simp [hmem]))]
    exact getN_setN_ne ns p.1 i _ (fun he => hi (by simp [← he]))

/-- `insAll` leaves unlisted nodes untouched. -/
lemma insAll_frame (l : List Nat) :
    ∀ (b : FBlock) (ns : List FNode) (i : Nat), i ∉ l →
    getN (insAll b ns l).2 i = getN ns i := by
  induction l with
  | nil => exact fun b ns i _ => rfl
  | cons a l ih =>
    intro b ns i hi
    have h1 := ih (FBlock.ins b ns a).1 (FBlock.ins b ns a).2 i
      (fun hmem => hi (by simp [hmem]))
    have h2 : getN (FBlock.ins b ns a).2 i = getN ns i :=
      getN_setN_ne ns a i _ (fun he => hi (by simp [← he]))
    exact h1.trans h2

/-- Members of a value-sorted id list come from the input. -/
lemma sortedInsByVal_mem (ns : List FNode) :
    ∀ (l : List Nat) (x y : Nat), y ∈ sortedInsByVal ns l x → y ∈ l ∨ y = x := by
  intro l
  induction l with
  | nil =>
    intro x y hy
    rw [sortedInsByVal] at hy
    simp at hy
    exact Or.inr hy
  | cons a l ih =>
    intro x y hy
    rw [sortedInsByVal] at hy
    by_cases hlt : EV.lt (valN ns x) (valN ns a) = true
    · rw [if_pos hlt] at hy
      rcases List.mem_cons.mp hy with h | h
      · exact Or.inr h
      · exact Or.inl h
    · rw [if_neg hlt] at hy
      rcases List.mem_cons.mp hy with h | h
      · exact Or.inl (by simp [h])
      · rcases ih x y h with h2 | h2
        · exact Or.inl (by simp [h2])
        · exact Or.inr h2

/-- Members of the sort come from the input. -/
lemma sortByVal_mem (ns : List FNode) (ids : List Nat) :
    ∀ y ∈ sortByVal ns ids, y ∈ ids := by
  rw [sortByVal]
  suffices h : ∀ (acc : List Nat), ∀ y ∈ ids.foldl (sortedInsByVal ns) acc,
      y ∈ acc ∨ y ∈ ids by
    intro y hy
    rcases h [] y hy with h2 | h2
    · cases h2
    · exact h2
  induction ids with
  | nil => exact fun acc y hy => Or.inl hy
  | cons a ids ih =>
    intro acc y hy
    rw [List.foldl_cons] at hy
    rcases ih (sortedInsByVal ns acc a) y hy with h2 | h2
    · rcases sortedInsByVal_mem ns acc a y h2 with h3 | h3
      · exact Or.inl h3
      · exact Or.inr (by simp [h3])
    · exact Or.inr (by simp [h2])

/-- `recursive_partition` leaves unlisted nodes untouched. -/
lemma recPartition_frame : ∀ (fuel M : Nat) (ns : List FNode) (ids : List Nat)
    (res : List FBlock × List FNode),
    recPartition M fuel ns ids = some res →
    ∀ i, i ∉ ids → getN res.2 i = getN ns i
  | 0, _, _, _, _, h => by cases h
  | fuel + 1, M, ns, ids, res, h => by
    intro i hi
    rw [recPartition] at h
    by_cases hlen : ids.length ≤ M
    · rw [if_pos hlen] at h
      injection h with h1
      rw [← h1]
      exact insAll_frame _ _ _ i (fun hmem => hi (sortByVal_mem ns ids i hmem))
    · rw [if_neg hlen] at h
      dsimp only at h
      cases hl : recPartition M fuel ns
          (ids.filter (fun x => EV.lt (valN ns x) (medianEV (ids.map (valN ns))))) with
      | none => rw [hl] at h; cases h
      | some pl =>
        rw [hl] at h
        dsimp only at h
        cases hr : recPartition M fuel pl.2
            (ids.filter (fun x => !EV.lt (valN ns x) (medianEV (ids.map (valN ns))))) with
        | none => rw [hr] at h; cases h
        | some pr =>
          rw [hr] at h
          injection h with h1
          rw [← h1]
          have hfr := recPartition_frame fuel M pl.2 _ pr hr i
            (fun hmem => hi (List.mem_of_mem_filter hmem))
          have hfl := recPartition_frame fuel M ns _ pl hl i
            (fun hmem => hi (List.mem_of_mem_filter hmem))
          rw [hfr, hfl]

/-- The D0 prepend loop never touches D1, the bounds of D1, the node
store, or the sentinel. -/
lemma prependBlocks_frame (l : List (FBlock × EV)) :
    ∀ (s : BB),
    (l.foldl (fun s p =>
      { s with D0 := dSet s.D0 p.2 p.1, D0_bounds := boundsIns s.D0_bounds p.2 }) s).D1
        = s.D1 ∧
    (l.foldl (fun s p =>
      { s with D0 := dSet s.D0 p.2 p.1, D0_bounds := boundsIns s.D0_bounds p.2 }) s).D1_bounds
        = s.D1_bounds ∧
    (l.foldl (fun s p =>
      { s with D0 := dSet s.D0 p.2 p.1, D0_bounds := boundsIns s.D0_bounds p.2 }) s).nodes
        = s.nodes := by
  induction l with
  | nil => exact fun s => ⟨rfl, rfl, rfl⟩
  | cons p l ih =>
    intro s
    rw [List.foldl_cons]
    exact ih _

/-- `batch_prepend` preserves the weak D1 range invariant when none of
the supplied vertices is a D1 member: it only touches D0 and the values
of the supplied vertices. -/
lemma batchPrepend_preserves_range (st : BB) (L : List (Nat × EV)) (fuel : Nat)
    (st' : BB)
    (hdisj : ∀ pr ∈ st.D1, ∀ p ∈ L, p.1 ∉ pr.2.elems)
    (hr : d1RangeOk false st = true)
    (h : batchPrepend st L fuel = .ok st') :
    d1RangeOk false st' = true := by
  rw [batchPrepend] at h
  by_cases hz : L.length = 0
  · rw [if_pos hz] at h
    injection h with h1
    rw [← h1]
    exact hr
  · rw [if_neg hz] at h
    dsimp only at h
    cases hp : recPartition st.M fuel
        (L.foldl (fun ns p => setN ns p.1 { getN ns p.1 with val := p.2 }) st.nodes)
        (L.map Prod.fst) with
    | none => rw [hp] at h; cases h
    | some pr =>
      rw [hp] at h
      dsimp only at h
      split at h
      · cases h
      · injection h with h1
        rw [← h1]
        rw [d1RangeOk]
        obtain ⟨hd1, hdb, hns⟩ := prependBlocks_frame _ _
        rw [prependBlocks, hd1, hdb, hns]
        dsimp only
        rw [d1RangeOk] at hr
        refine rangeFrom_weaken st.D1 st.D1 st.nodes _ st.D1_bounds .ninf ?_ hr
        intro b _ blk' hget'
        intro n hn
        refine ⟨blk', hget', hn, ?_⟩
        obtain ⟨k0, hk0⟩ := dGet_mem st.D1 b blk' hget'
        have hnL : n ∉ L.map Prod.fst := by
          intro hmem
          obtain ⟨p, hpL, hpn⟩ := List.mem_map.mp hmem
          exact hdisj (k0, blk') hk0 p hpL (hpn ▸ hn)
        rw [valN, valN]
        rw [recPartition_frame fuel st.M _ _ pr hp n hnL]
        rw [recordVals_frame L st.nodes n hnL]

/-- Decomposing a successful `find?`. -/
lemma find_split {α : Type} (p : α → Bool) :
    ∀ (l : List α) (b : α), l.find? p = some b →
    ∃ A C, l = A ++ b :: C ∧ (∀ a ∈ A, p a = false) ∧ p b = true
  | [], b, h => by cases h
  | x :: l, b, h => by
    by_cases hp : p x = true
    · rw [List.find?_cons_of_pos _ hp] at h
      injection h with h1
      exact ⟨[], l, by rw [h1, List.nil_append], fun a ha => absurd ha (by simp), h1 ▸ hp⟩
    · rw [List.find?_cons_of_neg _ (by simpa using hp)] at h
      obtain ⟨A, C, hAC, hA, hb⟩ := find_split p l b h
      refine ⟨x :: A, C, by rw [hAC, List.cons_append], ?_, hb⟩
      intro a ha
      rcases List.mem_cons.mp ha with h2 | h2
      · rw [h2]; simpa using hp
      · exact hA a h2

/-- `boundsIns` walks past entries not above the new bound. -/
lemma boundsIns_append (m : EV) :
    ∀ (A C : List EV), (∀ a ∈ A, EV.lt m a = false) →
    boundsIns (A ++ C) m = A ++ boundsIns C m
  | [], C, _ => by rw [List.nil_append, List.nil_append]
  | a :: A, C, h => by
    rw [List.cons_append, boundsIns, if_neg (by simp [h a (by simp)]),
      List.cons_append, boundsIns_append m A C (fun q hq => h q (by simp [hq]))]

/-- `boundsIns` below every entry of the suffix: the new bound leads. -/
lemma boundsIns_lt_head (m : EV) : ∀ (C : List EV), (∀ c ∈ C, EV.lt m c = true) →
    boundsIns C m = m :: C
  | [], _ => rfl
  | c :: C, h => by
    rw [boundsIns, if_pos (h c (by simp))]

/-- `insAll` appends exactly its id list to the block entries. -/
lemma insAll_elems : ∀ (l : List Nat) (b : FBlock) (ns : List FNode),
    (insAll b ns l).1.elems = b.elems ++ l
  | [], b, ns => by rw [insAll, List.foldl_nil, List.append_nil]
  | a :: l, b, ns => by
    have h1 := insAll_elems l (FBlock.ins b ns a).1 (FBlock.ins b ns a).2
    have h2 : (insAll b ns (a :: l)).1 = (insAll (FBlock.ins b ns a).1
        (FBlock.ins b ns a).2 l).1 := rfl
    rw [h2, h1]
    show (b.elems ++ [a]) ++ l = b.elems ++ a :: l
    rw [List.append_assoc, List.singleton_append]

/-- Linking a node does not change any value. -/
lemma valN_setN_linked : ∀ (ns : List FNode) (n i : Nat),
    valN (setN ns n { getN ns n with linked := true }) i = valN ns i
  | [], _, _ => rfl
  | _ :: _, 0, 0 => rfl
  | _ :: _, 0, _ + 1 => rfl
  | _ :: _, _ + 1, 0 => rfl
  | _ :: ns, n + 1, i + 1 => valN_setN_linked ns n i

/-- `insAll` changes no value. -/
lemma insAll_val : ∀ (l : List Nat) (b : FBlock) (ns : List FNode) (i : Nat),
    valN (insAll b ns l).2 i = valN ns i
  | [], _, _, _ => rfl
  | a :: l, b, ns, i => by
    have h1 := insAll_val l (FBlock.ins b ns a).1 (FBlock.ins b ns a).2 i
    have h2 : (insAll b ns (a :: l)).2 = (insAll (FBlock.ins b ns a).1
        (FBlock.ins b ns a).2 l).2 := rfl
    rw [h2, h1]
    exact valN_setN_linked ns a i

/-- Python `<`, `==`, `>` are a trichotomy on extended values. -/
lemma EV.trichot (x pv : EV) :
    (EV.lt x pv = true ∧ EV.beq x pv = false ∧ EV.lt pv x = false) ∨
    (EV.lt x pv = false ∧ EV.beq x pv = true ∧ EV.lt pv x = false) ∨
    (EV.lt x pv = false ∧ EV.beq x pv = false ∧ EV.lt pv x = true) := by
  cases x <;> cases pv <;>
    first
      | exact Or.inl ⟨rfl, rfl, rfl⟩
      | exact Or.inr (Or.inl ⟨rfl, rfl, rfl⟩)
      | exact Or.inr (Or.inr ⟨rfl, rfl, rfl⟩)
      | skip
  rename_i qx qpv
  simp only [EV.lt, EV.beq, Q.blt, Q.beq, decide_eq_true_eq, decide_eq_false_iff_not]
  rcases lt_trichotomy (qx.n * qpv.d) (qpv.n * qx.d) with h | h | h
  · exact Or.inl ⟨h, ne_of_lt h, not_lt.mpr h.le⟩
  · exact Or.inr (Or.inl ⟨not_lt.mpr h.ge, h, not_lt.mpr h.le⟩)
  · exact Or.inr (Or.inr ⟨not_lt.mpr h.le, (ne_of_lt h).symm, h⟩)

/-- The three quickselect filters partition the list. -/
lemma filter_partition_length (arr : List EV) (pv : EV) :
    arr.length = (arr.filter (fun x => EV.lt x pv)).length +
      (arr.filter (fun x => EV.beq x pv)).length +
      (arr.filter (fun x => EV.lt pv x)).length := by
  induction arr with
  | nil => rfl
  | cons x arr ih =>
    rcases EV.trichot x pv with ⟨h1, h2, h3⟩ | ⟨h1, h2, h3⟩ | ⟨h1, h2, h3⟩ <;>
      simp [List.filter_cons, h1, h2, h3] <;>
      omega

/-- Filtering around a failing element strictly shrinks the list. -/
lemma length_filter_lt (p : EV → Bool) : ∀ (l : List EV) (a : EV), a ∈ l →
    p a = false → (l.filter p).length < l.length
  | [], a, h, _ => absurd h (by simp)
  | x :: l, a, h, hp => by
    rw [List.filter_cons]
    by_cases hx : p x = true
    · rw [if_pos (by simp [hx]), List.length_cons, List.length_cons]
      have ha : a ∈ l := by
        rcases List.mem_cons.mp h with h2 | h2
        · rw [h2] at hp; rw [hp] at hx; cases hx
        · exact h2
      exact Nat.succ_lt_succ (length_filter_lt p l a ha hp)
    · rw [if_neg (by simp [hx]), List.length_cons]
      exact Nat.lt_succ_of_le (List.length_filter_le p l)

/-- The deterministic quickselect returns an element of its input. -/
lemma qselE_mem : ∀ (fuel : Nat) (arr : List EV) (k : Nat),
    arr.length ≤ fuel → k < arr.length → qselE fuel arr k ∈ arr
  | 0, arr, k, hf, hk => by omega
  | fuel + 1, [], k, _, hk => by simp at hk
  | fuel + 1, [a], _, _, _ => by
    rw [qselE]
    exact List.mem_singleton.mpr rfl
  | fuel + 1, a :: b :: rest, k, hf, hk => by
    rw [qselE]
    have hlows : ((a :: b :: rest).filter (fun x => EV.lt x a)).length
        < (a :: b :: rest).length :=
      length_filter_lt _ _ a (by simp) (EV.lt_irrefl a)
    have hhighs : ((a :: b :: rest).filter (fun x => EV.lt a x)).length
        < (a :: b :: rest).length :=
      length_filter_lt _ _ a (by simp) (EV.lt_irrefl a)
    by_cases h1 : k < ((a :: b :: rest).filter (fun x => EV.lt x a)).length
    · rw [if_pos h1]
      have hm := qselE_mem fuel ((a :: b :: rest).filter (fun x => EV.lt x a)) k
        (by simp only [List.length_cons] at hf hlows ⊢; omega) h1
      exact List.mem_of_mem_filter hm
    · rw [if_neg h1]
      by_cases h2 : k < ((a :: b :: rest).filter (fun x => EV.lt x a)).length +
          ((a :: b :: rest).filter (fun x => EV.beq x a)).length
      · rw [if_pos h2]
        exact List.mem_cons_self a _
      · rw [if_neg h2]
        have hpart := filter_partition_length (a :: b :: rest) a
        have hm := qselE_mem fuel ((a :: b :: rest).filter (fun x => EV.lt a x))
          (k - ((a :: b :: rest).filter (fun x => EV.lt x a)).length -
            ((a :: b :: rest).filter (fun x => EV.beq x a)).length)
          (by simp only [List.length_cons] at hf hhighs ⊢; omega)
          (by omega)
        exact List.mem_of_mem_filter hm

/-- The mean of two finite raw rationals, written out. -/
lemma avg_fin_q (qa qb : Q) : Q.div (Q.add qa qb) (Q.ofInt 2) =
    ⟨(qa.n * qb.d + qb.n * qa.d) * 1, qa.d * qb.d * 2⟩ := by
  rw [Q.ofInt, Q.div]
  norm_num [Q.add]

/-- The mean of two well-formed values is well formed. -/
lemma EV.avg_wf (a b : EV) (ha : evWF a = true) (hb : evWF b = true) :
    evWF (EV.avg a b) = true := by
  cases a <;> cases b <;>
    simp_all only [EV.avg, evWF, decide_eq_true_eq]
  rename_i qa qb
  rw [avg_fin_q]
  show 0 < qa.d * qb.d * 2
  positivity

/-- The mean of two values below `c` stays below `c`. -/
lemma EV.avg_lt_true (a b c : EV) (ha : evWF a = true) (hb : evWF b = true)
    (hc : evWF c = true) (h1 : EV.lt a c = true) (h2 : EV.lt b c = true) :
    EV.lt (EV.avg a b) c = true := by
  cases a <;> cases b <;> cases c <;>
    simp_all only [EV.avg, EV.lt, evWF, decide_eq_true_eq,
      Bool.true_eq_false, Bool.false_eq_true]
  rename_i qa qb qc
  rw [Q.blt, decide_eq_true_eq] at h1 h2
  rw [avg_fin_q, Q.blt, decide_eq_true_eq]
  dsimp only
  nlinarith [mul_lt_mul_of_pos_right h1 hb, mul_lt_mul_of_pos_right h2 ha]

/-- The mean of two values not below `c` is not below `c`. -/
lemma EV.avg_lt_false (a b c : EV) (ha : evWF a = true) (hb : evWF b = true)
    (hc : evWF c = true) (h1 : EV.lt a c = false) (h2 : EV.lt b c = false) :
    EV.lt (EV.avg a b) c = false := by
  cases a <;> cases b <;> cases c <;>
    simp_all only [EV.avg, EV.lt, evWF, decide_eq_true_eq,
      Bool.true_eq_false, Bool.false_eq_true]
  rename_i qa qb qc
  rw [Q.blt, decide_eq_false_iff_not, not_lt] at h1 h2
  rw [avg_fin_q, Q.blt, decide_eq_false_iff_not, not_lt]
  dsimp only
  nlinarith [mul_le_mul_of_nonneg_right h1 hb.le, mul_le_mul_of_nonneg_right h2 ha.le]

/-- The median of a nonempty list of values below `c` is below `c`. -/
lemma medianEV_lt_true (vals : List EV) (c : EV)
    (hwf : ∀ v ∈ vals, evWF v = true) (hc : evWF c = true) (hne : vals ≠ [])
    (hall : ∀ v ∈ vals, EV.lt v c = true) :
    EV.lt (medianEV vals) c = true := by
  rw [medianEV]
  have hlen : 1 ≤ vals.length := by
    cases vals with
    | nil => exact absurd rfl hne
    | cons a l => simp
  by_cases hodd : vals.length % 2 = 1
  · rw [if_pos hodd]
    exact hall _ (qselE_mem vals.length vals (vals.length / 2) le_rfl (by omega))
  · rw [if_neg hodd]
    have h2 : 2 ≤ vals.length := by omega
    exact EV.avg_lt_true _ _ c
      (hwf _ (qselE_mem vals.length vals (vals.length / 2 - 1) le_rfl (by omega)))
      (hwf _ (qselE_mem vals.length vals (vals.length / 2) le_rfl (by omega)))
      hc
      (hall _ (qselE_mem vals.length vals (vals.length / 2 - 1) le_rfl (by omega)))
      (hall _ (qselE_mem vals.length vals (vals.length / 2) le_rfl (by omega)))

/-- The median of a nonempty list of values not below `c` is not below
`c`. -/
lemma medianEV_lt_false (vals : List EV) (c : EV)
    (hwf : ∀ v ∈ vals, evWF v = true) (hc : evWF c = true) (hne : vals ≠ [])
    (hall : ∀ v ∈ vals, EV.lt v c = false) :
    EV.lt (medianEV vals) c = false := by
  rw [medianEV]
  have hlen : 1 ≤ vals.length := by
    cases vals with
    | nil => exact absurd rfl hne
    | cons a l => simp
  by_cases hodd : vals.length % 2 = 1
  · rw [if_pos hodd]
    exact hall _ (qselE_mem vals.length vals (vals.length / 2) le_rfl (by omega))
  · rw [if_neg hodd]
    have h2 : 2 ≤ vals.length := by omega
    exact EV.avg_lt_false _ _ c
      (hwf _ (qselE_mem vals.length vals (vals.length / 2 - 1) le_rfl (by omega)))
      (hwf _ (qselE_mem vals.length vals (vals.length / 2) le_rfl (by omega)))
      hc
      (hall _ (qselE_mem vals.length vals (vals.length / 2 - 1) le_rfl (by omega)))
      (hall _ (qselE_mem vals.length vals (vals.length / 2) le_rfl (by omega)))

/-- The median of a nonempty list of well-formed values is well formed. -/
lemma medianEV_wf (vals : List EV) (hwf : ∀ v ∈ vals, evWF v = true)
    (hne : vals ≠ []) : evWF (medianEV vals) = true := by
  rw [medianEV]
  have hlen : 1 ≤ vals.length := by
    cases vals with
    | nil => exact absurd rfl hne
    | cons a l => simp
  by_cases hodd : vals.length % 2 = 1
  · rw [if_pos hodd]
    exact hwf _ (qselE_mem vals.length vals (vals.length / 2) le_rfl (by omega))
  · rw [if_neg hodd]
    have h2 : 2 ≤ vals.length := by omega
    exact EV.avg_wf _ _
      (hwf _ (qselE_mem vals.length vals (vals.length / 2 - 1) le_rfl (by omega)))
      (hwf _ (qselE_mem vals.length vals (vals.length / 2) le_rfl (by omega)))

/-- `deleteD1` keeps the sentinel, the cap and the node store, and only
shrinks the D1 membership. -/
lemma deleteD1_frame (st : BB) (key : Nat) (val : EV) :
    (deleteD1 st key val).B = st.B ∧
    (deleteD1 st key val).nodes = st.nodes ∧
    (deleteD1 st key val).D1_bounds.Sublist st.D1_bounds ∧
    ∀ pr ∈ (deleteD1 st key val).D1, ∀ n ∈ pr.2.elems,
      ∃ pr0 ∈ st.D1, n ∈ pr0.2.elems := by
  simp only [deleteD1]
  cases hb : (match boundsSearch st.D1_bounds val with
      | some b => some b | none => boundsMax st.D1_bounds) with
  | none => exact ⟨rfl, rfl, List.Sublist.refl _, fun pr hpr n hn => ⟨pr, hpr, hn⟩⟩
  | some bound =>
    dsimp only
    cases hdg : dGet st.D1 bound with
    | none => exact ⟨rfl, rfl, List.Sublist.refl _, fun pr hpr n hn => ⟨pr, hpr, hn⟩⟩
    | some blk =>
      dsimp only
      by_cases hdrop : (FBlock.del blk st.nodes key).elems.isEmpty = true ∧
          (!EV.beq bound st.B) = true
      · rw [if_pos hdrop]
        exact ⟨rfl, rfl, evErase_sublist _ _,
          fun pr hpr n hn => ⟨pr, mem_dDel _ _ _ hpr, hn⟩⟩
      · rw [if_neg hdrop]
        refine ⟨rfl, rfl, List.Sublist.refl _, ?_⟩
        intro pr hpr n hn
        rcases mem_dSet _ _ _ pr hpr with h2 | h2
        · exact ⟨pr, h2, hn⟩
        · obtain ⟨k0, hk0⟩ := dGet_mem st.D1 bound blk hdg
          refine ⟨(k0, blk), hk0, ?_⟩
          rw [h2] at hn
          exact FBlock_del_mem blk st.nodes key n hn

/-- `delete` keeps the sentinel, the cap and the node store, and only
shrinks the D1 membership. -/
lemma deleteBB_frame (st : BB) (key : Nat) (val : EV) :
    (deleteBB st key val).B = st.B ∧
    (deleteBB st key val).nodes = st.nodes ∧
    (deleteBB st key val).D1_bounds.Sublist st.D1_bounds ∧
    ∀ pr ∈ (deleteBB st key val).D1, ∀ n ∈ pr.2.elems,
      ∃ pr0 ∈ st.D1, n ∈ pr0.2.elems := by
  rw [deleteBB]
  cases hmx : boundsMax st.D0_bounds with
  | none => exact deleteD1_frame st key val
  | some mx =>
    dsimp only
    by_cases hlt : EV.lt val mx = true
    · rw [if_pos hlt]
      cases hdg : dGet st.D0 (match boundsSearch st.D0_bounds val with
          | some b => b | none => mx) with
      | none => exact ⟨rfl, rfl, List.Sublist.refl _, fun pr hpr n hn => ⟨pr, hpr, hn⟩⟩
      | some blk =>
        dsimp only
        by_cases he : (FBlock.del blk st.nodes key).elems.isEmpty = true
        · rw [if_pos he]
          exact ⟨rfl, rfl, List.Sublist.refl _, fun pr hpr n hn => ⟨pr, hpr, hn⟩⟩
        · rw [if_neg he]
          exact ⟨rfl, rfl, List.Sublist.refl _, fun pr hpr n hn => ⟨pr, hpr, hn⟩⟩
    · rw [if_neg hlt]
      exact deleteD1_frame st key val

/-- Elements below the last of a `<`-sorted list. -/
lemma le_getLastD_of_pairwise : ∀ (L : List EV),
    L.Pairwise (fun a b => EV.lt a b = true) → (∀ a ∈ L, evWF a = true) →
    ∀ a ∈ L, ∀ d, EV.le a (L.getLastD d) = true
  | [], _, _, a, ha, _ => absurd ha (by simp)
  | [a0], _, _, a, ha, d => by
    have : a = a0 := by simpa using ha
    rw [this]
    exact EV.le_refl a0
  | a0 :: a1 :: L, hpw, hwf, a, ha, d => by
    rw [List.getLastD_cons]
    obtain ⟨hall, hpw'⟩ := List.pairwise_cons.mp hpw
    rcases List.mem_cons.mp ha with h2 | h2
    · have hmem : (a1 :: L).getLastD a0 ∈ a1 :: L := getLastD_mem (a1 :: L) a0 (by simp)
      rw [h2]
      exact EV.le_of_lt' _ _ (hall _ hmem)
    · exact le_getLastD_of_pairwise (a1 :: L) hpw'
        (fun q hq => hwf q (by simp [hq])) a h2 a0

/-- `split` preserves the weak D1 range invariant.  The hypotheses
describe the split block `p1` filed under `bstar` in the decomposed
bound walk `Lw ++ bstar :: Rw`: every entry value lies in
`[last Lw, bstar)`, and the walk checks out on both sides. -/
lemma splitBB_preserves_range (st3 : BB) (p1 : FBlock) (bstar : EV)
    (Lw Rw : List EV)
    (hbounds : st3.D1_bounds = Lw ++ bstar :: Rw)
    (hwfb : ∀ a ∈ st3.D1_bounds, evWF a = true)
    (hpw : st3.D1_bounds.Pairwise (fun a b => EV.lt a b = true))
    (hkw : keysWF st3.D1 = true)
    (hkd : keysDistinct st3.D1 = true)
    (hvwf : ∀ n ∈ p1.elems, evWF (valN st3.nodes n) = true)
    (hlo : ∀ n ∈ p1.elems, EV.lt (valN st3.nodes n) (Lw.getLastD .ninf) = false)
    (hup : ∀ n ∈ p1.elems, EV.lt (valN st3.nodes n) bstar = true)
    (hne : p1.elems ≠ [])
    (hLrange : d1RangeFrom false st3.D1 st3.nodes .ninf Lw = true)
    (hRrange : d1RangeFrom false st3.D1 st3.nodes bstar Rw = true) :
    d1RangeOk false (splitBB st3 p1 bstar) = true := by
  have hbmem : bstar ∈ st3.D1_bounds := by rw [hbounds]; simp
  have hbwf : evWF bstar = true := hwfb bstar hbmem
  have hpw' := hpw
  rw [hbounds] at hpw'
  have hdec := List.pairwise_append.mp hpw'
  have hLlt : ∀ a ∈ Lw, EV.lt a bstar = true := fun a ha => hdec.2.2 a ha bstar (by simp)
  have hRgt : ∀ r ∈ Rw, EV.lt bstar r = true :=
    fun r hr => (List.pairwise_cons.mp hdec.2.1).1 r hr
  have hLwwf : ∀ a ∈ Lw, evWF a = true := fun a ha => hwfb a (by rw [hbounds]; simp [ha])
  have hRwwf : ∀ r ∈ Rw, evWF r = true := fun r hr => hwfb r (by rw [hbounds]; simp [hr])
  have hLne : ∀ a ∈ Lw, EV.beq a bstar = false :=
    fun a ha => EV.beq_of_lt_false _ _ (hLlt a ha)
  have hRne : ∀ r ∈ Rw, EV.beq r bstar = false := by
    intro r hr
    rw [EV.beq_symm]
    exact EV.beq_of_lt_false _ _ (hRgt r hr)
  have hlowf : evWF (Lw.getLastD .ninf) = true := by
    cases hLe : Lw with
    | nil => rfl
    | cons a L' =>
      exact hLwwf _ (by rw [hLe]; exact getLastD_mem (a :: L') .ninf (by simp))
  have hLle : ∀ a ∈ Lw, EV.le a (Lw.getLastD .ninf) = true :=
    fun a ha => le_getLastD_of_pairwise Lw hdec.1 hLwwf a ha .ninf
  rw [splitBB, if_neg (by simp [List.isEmpty_iff, hne])]
  dsimp only
  set m := FBlock.findMedian p1 st3.nodes with hmdef
  set leftIds := p1.elems.filter (fun n => EV.lt (valN st3.nodes n) m) with hLdef
  set rightIds := p1.elems.filter (fun n => !EV.lt (valN st3.nodes n) m) with hRdef
  set lp := insAll FBlock.empty st3.nodes leftIds with hlpdef
  set rp := insAll FBlock.empty lp.2 rightIds with hrpdef
  have hmapwf : ∀ vv ∈ p1.elems.map (valN st3.nodes), evWF vv = true := by
    intro vv hvv
    obtain ⟨n, hn, hvn⟩ := List.mem_map.mp hvv
    rw [← hvn]
    exact hvwf n hn
  have hmapne : p1.elems.map (valN st3.nodes) ≠ [] := by
    simp [hne]
  have hmwf : evWF m = true := by
    rw [hmdef, FBlock.findMedian]
    exact medianEV_wf _ hmapwf hmapne
  have hmub : EV.lt m bstar = true := by
    rw [hmdef, FBlock.findMedian]
    refine medianEV_lt_true _ bstar hmapwf hbwf hmapne ?_
    intro vv hvv
    obtain ⟨n, hn, hvn⟩ := List.mem_map.mp hvv
    rw [← hvn]
    exact hup n hn
  have hmlb : EV.lt m (Lw.getLastD .ninf) = false := by
    rw [hmdef, FBlock.findMedian]
    refine medianEV_lt_false _ _ hmapwf hlowf hmapne ?_
    intro vv hvv
    obtain ⟨n, hn, hvn⟩ := List.mem_map.mp hvv
    rw [← hvn]
    exact hlo n hn
  have hlpel : lp.1.elems = leftIds := by
    rw [hlpdef, insAll_elems]
    rfl
  have hrpel : rp.1.elems = rightIds := by
    rw [hrpdef, insAll_elems]
    rfl
  have hlpv : ∀ i, valN lp.2 i = valN st3.nodes i := by
    intro i
    rw [hlpdef]
    exact insAll_val leftIds FBlock.empty st3.nodes i
  have hrpv : ∀ i, valN rp.2 i = valN st3.nodes i := by
    intro i
    rw [hrpdef]
    exact (insAll_val rightIds FBlock.empty lp.2 i).trans (hlpv i)
  have hkw1 : keysWF (dDel st3.D1 bstar) = true := keysWF_dDel _ _ hkw
  have hkd1 := keysDistinct_dDel st3.D1 bstar hkd
  have hkw2 : keysWF (dSet (dDel st3.D1 bstar) m lp.1) = true :=
    keysWF_dSet _ _ _ hkw1 hmwf
  have hlook : ∀ w, evWF w = true →
      dGet (dSet (dSet (dDel st3.D1 bstar) m lp.1) bstar rp.1) w =
        if EV.beq w bstar = true then some rp.1
        else if EV.beq w m = true then some lp.1
        else dGet st3.D1 w := by
    intro w hw
    rw [dGet_dSet _ bstar rp.1 w hbwf hw hkw2]
    by_cases h1 : EV.beq w bstar = true
    · rw [if_pos h1, if_pos h1]
    · rw [if_neg h1, if_neg h1, dGet_dSet _ m lp.1 w hmwf hw hkw1]
      by_cases h2 : EV.beq w m = true
      · rw [if_pos h2, if_pos h2]
      · rw [if_neg h2, if_neg h2, dGet_dDel st3.D1 bstar w hbwf hw hkw hkd,
          if_neg (by simp [h1])]
  have hLmfalse : ∀ a ∈ Lw, EV.lt m a = false := by
    intro a ha
    by_contra hcon
    rw [Bool.not_eq_false] at hcon
    have hx := EV.lt_of_lt_of_le' m a (Lw.getLastD .ninf) hmwf (hLwwf a ha)
      hlowf hcon (hLle a ha)
    rw [hx] at hmlb
    cases hmlb
  have hbfalse : ∀ a ∈ Lw, EV.lt bstar a = false :=
    fun a ha => EV.lt_asymm' _ _ (hLlt a ha)
  have hmR : ∀ r ∈ Rw, EV.lt m r = true := fun r hr =>
    EV.lt_trans' m bstar r hmwf hbwf (hRwwf r hr) hmub (hRgt r hr)
  have hmbne : EV.beq m bstar = false := EV.beq_of_lt_false _ _ hmub
  have hbndseq : (if (!EV.beq bstar st3.B) = true then
        boundsIns (boundsIns (if (!EV.beq bstar st3.B) = true
            then boundsDel st3.D1_bounds bstar else st3.D1_bounds) m) bstar
      else boundsIns (if (!EV.beq bstar st3.B) = true
            then boundsDel st3.D1_bounds bstar else st3.D1_bounds) m)
      = Lw ++ m :: bstar :: Rw := by
    by_cases hB : EV.beq bstar st3.B = true
    · rw [if_neg (by simp [hB]), if_neg (by simp [hB]), hbounds,
        boundsIns_append m Lw (bstar :: Rw) hLmfalse,
        boundsIns_lt_head m (bstar :: Rw) ?_]
      intro c hc
      rcases List.mem_cons.mp hc with h2 | h2
      · rw [h2]; exact hmub
      · exact hmR c h2
    · rw [if_pos (by simp [hB]), if_pos (by simp [hB]), hbounds, boundsDel,
        evErase_append Lw bstar Rw hLne,
        boundsIns_append m Lw Rw hLmfalse,
        boundsIns_lt_head m Rw hmR,
        boundsIns_append bstar Lw (m :: Rw) hbfalse,
        boundsIns, if_neg (by simp [EV.lt_asymm' m bstar hmub]),
        boundsIns_lt_head bstar Rw hRgt]
  rw [d1RangeOk]
  dsimp only
  rw [hbndseq, rangeFrom_append, Bool.and_eq_true]
  constructor
  · -- the prefix `Lw`
    refine rangeFrom_weaken st3.D1 _ st3.nodes rp.2 Lw .ninf ?_ hLrange
    intro w hw blk' hget' n hn
    rw [hlook w (hLwwf w hw), if_neg (by simp [hLne w hw])] at hget'
    by_cases h2 : EV.beq w m = true
    · rw [if_pos h2] at hget'
      injection hget' with hget'
      exfalso
      rw [← hget', hlpel, hLdef] at hn
      have hn1 := List.mem_filter.mp hn
      have hval_w : EV.lt (valN st3.nodes n) m = EV.lt (valN st3.nodes n) w :=
        EV.lt_congr_right _ m w (hvwf n hn1.1) hmwf (hLwwf w hw)
          (EV.beq_symm w m ▸ h2)
      have hlew : EV.le w (valN st3.nodes n) = true := by
        refine EV.le_trans' w (Lw.getLastD .ninf) (valN st3.nodes n)
          (hLwwf w hw) hlowf (hvwf n hn1.1) (hLle w hw) ?_
        rw [EV.le, hlo n hn1.1]
        rfl
      rw [EV.le, Bool.not_eq_true'] at hlew
      rw [hval_w, hlew] at hn1
      exact absurd hn1.2 (by simp)
    · rw [if_neg h2] at hget'
      exact ⟨blk', hget', hn, hrpv n⟩
  · rw [d1RangeFrom, Bool.and_eq_true]
    constructor
    · -- the check at the new bound `m`
      have hlm : dGet (dSet (dSet (dDel st3.D1 bstar) m lp.1) bstar rp.1) m
          = some lp.1 := by
        rw [hlook m hmwf, if_neg (by simp [hmbne]), if_pos (EV.beq_refl m)]
      simp only [hlm]
      rw [List.all_eq_true]
      intro n hn
      rw [hlpel, hLdef] at hn
      have hn1 := List.mem_filter.mp hn
      rw [Bool.and_eq_true]
      simp only [Bool.cond_false]
      rw [hrpv n]
      refine ⟨?_, hn1.2⟩
      rw [EV.le, hlo n hn1.1]
      rfl
    · rw [d1RangeFrom, Bool.and_eq_true]
      constructor
      · -- the check at the old bound `bstar`
        have hlb : dGet (dSet (dSet (dDel st3.D1 bstar) m lp.1) bstar rp.1) bstar
            = some rp.1 := by
          rw [hlook bstar hbwf, if_pos (EV.beq_refl bstar)]
        simp only [hlb]
        rw [List.all_eq_true]
        intro n hn
        rw [hrpel, hRdef] at hn
        have hn1 := List.mem_filter.mp hn
        rw [Bool.and_eq_true]
        simp only [Bool.cond_false]
        rw [hrpv n]
        refine ⟨?_, hup n hn1.1⟩
        rw [EV.le]
        exact hn1.2
      · -- the suffix `Rw`
        refine rangeFrom_weaken st3.D1 _ st3.nodes rp.2 Rw bstar ?_ hRrange
        intro w hw blk' hget' n hn
        have hwm : EV.beq w m = false := by
          rw [EV.beq_symm]
          exact EV.beq_of_lt_false _ _ (hmR w hw)
        rw [hlook w (hRwwf w hw), if_neg (by simp [hRne w hw]),
          if_neg (by simp [hwm])] at hget'
        exact ⟨blk', hget', hn, hrpv n⟩

/-- `find?` returns the head of the suffix when everything before it
fails the test. -/
lemma find_first {α : Type} (p : α → Bool) : ∀ (A : List α) (b : α) (C : List α),
    (∀ a ∈ A, p a = false) → p b = true →
    (A ++ b :: C).find? p = some b
  | [], b, C, _, hb => by rw [List.nil_append, List.find?_cons_of_pos _ hb]
  | a :: A, b, C, hA, hb => by
    rw [List.cons_append, List.find?_cons_of_neg _ (by simp [hA a (by simp)]),
      find_first p A b C (fun y hy => hA y (by simp [hy])) hb]

/-- Every entry reachable from the weak range walk sits at or above the
carried lower bound and strictly below its own bound. -/
lemma rangeFrom_entry_lo (d : List (EV × FBlock)) (ns : List FNode) :
    ∀ (L : List EV) (lo : EV),
    List.Pairwise (fun a c => EV.lt a c = true) L →
    (∀ a ∈ L, evWF a = true) → evWF lo = true →
    (∀ b2 ∈ L, ∀ blk2, dGet d b2 = some blk2 → ∀ n ∈ blk2.elems,
      evWF (valN ns n) = true) →
    (∀ a ∈ L, EV.le lo a = true) →
    d1RangeFrom false d ns lo L = true →
    ∀ b ∈ L, ∀ blk, dGet d b = some blk → ∀ n ∈ blk.elems,
    EV.le lo (valN ns n) = true ∧ EV.lt (valN ns n) b = true
  | [], _, _, _, _, _, _, _ => fun b hb => absurd hb (by simp)
  | b0 :: L, lo, hpw, hwfL, hwflo, hvals, hlo, hwalk => by
    rw [d1RangeFrom, Bool.and_eq_true] at hwalk
    intro b hb blk hget n hn
    rcases List.mem_cons.mp hb with hb0 | hbL
    · subst hb0
      have h1 := hwalk.1
      simp only [hget] at h1
      rw [List.all_eq_true] at h1
      have h2 := h1 n hn
      rw [Bool.and_eq_true] at h2
      have h3 := h2.1
      simp only [Bool.cond_false] at h3
      exact ⟨h3, h2.2⟩
    · have hpw' := List.pairwise_cons.mp hpw
      have ih := rangeFrom_entry_lo d ns L b0 hpw'.2
        (fun a ha => hwfL a (by simp [ha])) (hwfL b0 (by simp))
        (fun b2 hb2 blk2 hget2 => hvals b2 (by simp [hb2]) blk2 hget2)
        (fun a ha => EV.le_of_lt' _ _ (hpw'.1 a ha))
        hwalk.2 b hbL blk hget n hn
      exact ⟨EV.le_trans' lo b0 (valN ns n) hwflo (hwfL b0 (by simp))
        (hvals b (by simp [hbL]) blk hget n hn) (hlo b0 (by simp)) ih.1, ih.2⟩

/-- Under the weak range invariant a vertex stored in a reachable D1
block determines its bound: the bound search at the vertex's value finds
exactly that bound, and no other reachable block holds the vertex. -/
lemma rangeOk_unique_host (st : BB) (v : Nat)
    (hwf : bbWF st = true) (hr : d1RangeOk false st = true)
    (b : EV) (hb : b ∈ st.D1_bounds) (blkv : FBlock)
    (hget : dGet st.D1 b = some blkv) (hvm : v ∈ blkv.elems) :
    boundsSearch st.D1_bounds (valN st.nodes v) = some b ∧
    ∀ b2 ∈ st.D1_bounds, ∀ blk2, dGet st.D1 b2 = some blk2 →
      v ∈ blk2.elems → b2 = b := by
  have hparts := hwf
  rw [bbWF, Bool.and_eq_true, Bool.and_eq_true, Bool.and_eq_true,
    Bool.and_eq_true, Bool.and_eq_true] at hparts
  obtain ⟨⟨⟨⟨⟨hbwf, hss⟩, _⟩, _⟩, _⟩, hvwf⟩ := hparts
  have hwfmem : ∀ y ∈ st.D1_bounds, evWF y = true :=
    fun y hy => List.all_eq_true.mp hbwf y hy
  have hvalwf : ∀ b2 blk2, dGet st.D1 b2 = some blk2 →
      ∀ n ∈ blk2.elems, evWF (valN st.nodes n) = true := by
    intro b2 blk2 hget2 n hn
    obtain ⟨k0, hk0⟩ := dGet_mem st.D1 b2 blk2 hget2
    exact List.all_eq_true.mp (List.all_eq_true.mp hvwf (k0, blk2) hk0) n hn
  have hpw : st.D1_bounds.Pairwise (fun a c => EV.lt a c = true) :=
    (ss_iff_pairwise _ hwfmem).mp hss
  obtain ⟨P, R, hPR⟩ := List.append_of_mem hb
  have hpwPR : (P ++ b :: R).Pairwise (fun a c => EV.lt a c = true) := hPR ▸ hpw
  have hdec := List.pairwise_append.mp hpwPR
  have hrr := hr
  rw [d1RangeOk, hPR, rangeFrom_append, Bool.and_eq_true] at hrr
  have hrP := hrr.1
  have hrRest := hrr.2
  rw [d1RangeFrom, Bool.and_eq_true] at hrRest
  have hbck := hrRest.1
  simp only [hget] at hbck
  rw [List.all_eq_true] at hbck
  have hvfacts := hbck v hvm
  rw [Bool.and_eq_true] at hvfacts
  have hvlo : EV.le (P.getLastD EV.ninf) (valN st.nodes v) = true := by
    have h3 := hvfacts.1
    simp only [Bool.cond_false] at h3
    exact h3
  have hvup : EV.lt (valN st.nodes v) b = true := hvfacts.2
  have hwfb : evWF b = true := hwfmem b hb
  have hwfval : evWF (valN st.nodes v) = true := hvalwf b blkv hget v hvm
  have hPwf : ∀ a ∈ P, evWF a = true :=
    fun a ha => hwfmem a (by rw [hPR]; simp [ha])
  have hRwf : ∀ a ∈ R, evWF a = true :=
    fun a ha => hwfmem a (by rw [hPR]; simp [ha])
  have hwfPlast : evWF (P.getLastD EV.ninf) = true := by
    cases hPe : P with
    | nil => rfl
    | cons a P' =>
      exact hPwf _ (by rw [hPe]; exact getLastD_mem (a :: P') .ninf (by simp))
  have hPpw : P.Pairwise (fun a c => EV.lt a c = true) := hdec.1
  have hRpw : R.Pairwise (fun a c => EV.lt a c = true) :=
    (List.pairwise_cons.mp hdec.2.1).2
  have hPfail : ∀ a ∈ P, EV.lt (valN st.nodes v) a = false := by
    intro a ha
    have h1 : EV.le a (P.getLastD EV.ninf) = true :=
      le_getLastD_of_pairwise P hPpw hPwf a ha EV.ninf
    have h2 : EV.le a (valN st.nodes v) = true :=
      EV.le_trans' a _ _ (hPwf a ha) hwfPlast hwfval h1 hvlo
    rw [EV.le, Bool.not_eq_true'] at h2
    exact h2
  have hsearch : boundsSearch st.D1_bounds (valN st.nodes v) = some b := by
    rw [boundsSearch, hPR]
    exact find_first _ P b R (fun a ha => hPfail a ha) hvup
  refine ⟨hsearch, ?_⟩
  intro b2 hb2 blk2 hget2 hvm2
  rw [hPR] at hb2
  rcases List.mem_append.mp hb2 with hbP | hbbR
  · exfalso
    have hfacts := rangeFrom_entry_lo st.D1 st.nodes P EV.ninf hPpw hPwf rfl
      (fun b3 _ blk3 hget3 => hvalwf b3 blk3 hget3)
      (fun a _ => EV.le_ninf_left a) hrP b2 hbP blk2 hget2 v hvm2
    rw [hPfail b2 hbP] at hfacts
    exact absurd hfacts.2 (by simp)
  · rcases List.mem_cons.mp hbbR with hbb | hbR
    · exact hbb
    · exfalso
      have hfacts := rangeFrom_entry_lo st.D1 st.nodes R b hRpw hRwf hwfb
        (fun b3 _ blk3 hget3 => hvalwf b3 blk3 hget3)
        (fun a ha => EV.le_of_lt' _ _ ((List.pairwise_cons.mp hdec.2.1).1 a ha))
        hrRest.2 b2 hbR blk2 hget2 v hvm2
      have hlf : EV.le b (valN st.nodes v) = false := by
        rw [EV.le, hvup]
        rfl
      rw [hlf] at hfacts
      exact absurd hfacts.1 (by simp)

/-- After the D1 delete of a linked vertex at its own value, the vertex
is gone from every reachable D1 block (its host is found by the bound
search; any other reachable host would contradict the range walk). -/
lemma deleteD1_clears (st : BB) (v : Nat)
    (hwf : bbWF st = true) (hr : d1RangeOk false st = true)
    (hlink : (getN st.nodes v).linked = true)
    (hcnt : ∀ pr ∈ st.D1, v ∈ pr.2.elems → pr.2.elems.count v = 1) :
    ∀ b ∈ (deleteD1 st v (valN st.nodes v)).D1_bounds,
    ∀ blk, dGet (deleteD1 st v (valN st.nodes v)).D1 b = some blk →
    v ∉ blk.elems := by
  have hparts := hwf
  rw [bbWF, Bool.and_eq_true, Bool.and_eq_true, Bool.and_eq_true,
    Bool.and_eq_true, Bool.and_eq_true] at hparts
  obtain ⟨⟨⟨⟨⟨hbwf, _⟩, hkwf⟩, hkd⟩, _⟩, _⟩ := hparts
  have hwfmem : ∀ y ∈ st.D1_bounds, evWF y = true :=
    fun y hy => List.all_eq_true.mp hbwf y hy
  by_cases hin : ∃ b ∈ st.D1_bounds, ∃ blk, dGet st.D1 b = some blk ∧ v ∈ blk.elems
  · obtain ⟨bv, hbv, blkv, hgetv, hvm⟩ := hin
    obtain ⟨hsearch, huniq⟩ := rangeOk_unique_host st v hwf hr bv hbv blkv hgetv hvm
    have hbvwf : evWF bv = true := hwfmem bv hbv
    have hdelnm : v ∉ (FBlock.del blkv st.nodes v).elems := by
      rw [FBlock.del]
      have hne : blkv.elems.isEmpty = false := by
        cases hei : blkv.elems.isEmpty
        · rfl
        · rw [List.isEmpty_iff] at hei
          rw [hei] at hvm
          exact absurd hvm (by simp)
      rw [if_neg (by simp [hne]), if_neg (by simp [hlink])]
      by_cases hone : blkv.elems = [v]
      · rw [if_pos hone]
        simp [FBlock.empty]
      · rw [if_neg hone]
        dsimp only
        obtain ⟨k0, hk0⟩ := dGet_mem st.D1 bv blkv hgetv
        have hc := hcnt (k0, blkv) hk0 hvm
        intro hcon
        have h1 := List.count_erase_self v blkv.elems
        have h0 : (blkv.elems.erase v).count v = 0 := by rw [h1, hc]
        exact absurd hcon (List.count_eq_zero.mp h0)
    simp only [deleteD1, hsearch]
    try dsimp only
    simp only [hgetv]
    try dsimp only
    by_cases hdrop : (FBlock.del blkv st.nodes v).elems.isEmpty = true ∧
        (!EV.beq bv st.B) = true
    · rw [if_pos hdrop]
      intro b hb blk hget2
      dsimp only at hb hget2
      have hbmem : b ∈ st.D1_bounds := (evErase_sublist _ bv).subset hb
      rw [dGet_dDel st.D1 bv b hbvwf (hwfmem b hbmem) hkwf hkd] at hget2
      by_cases hbe : EV.beq b bv = true
      · rw [if_pos hbe] at hget2
        cases hget2
      · rw [if_neg hbe] at hget2
        intro hvmem
        exact hbe (by rw [huniq b hbmem blk hget2 hvmem]; exact EV.beq_refl bv)
    · rw [if_neg hdrop]
      intro b hb blk hget2
      dsimp only at hb hget2
      rw [dGet_dSet st.D1 bv _ b hbvwf (hwfmem b hb) hkwf] at hget2
      by_cases hbe : EV.beq b bv = true
      · rw [if_pos hbe] at hget2
        injection hget2 with h2
        rw [← h2]
        exact hdelnm
      · rw [if_neg hbe] at hget2
        intro hvmem
        exact hbe (by rw [huniq b hb blk hget2 hvmem]; exact EV.beq_refl bv)
  · simp only [deleteD1]
    cases hbq : (match boundsSearch st.D1_bounds (valN st.nodes v) with
        | some b => some b | none => boundsMax st.D1_bounds) with
    | none =>
      intro b hb blk hget2 hvmem
      exact hin ⟨b, hb, blk, hget2, hvmem⟩
    | some bound =>
      dsimp only
      have hbdmem : bound ∈ st.D1_bounds := deleteD1_bound_mem st _ bound hbq
      have hbdwf : evWF bound = true := hwfmem bound hbdmem
      cases hdg : dGet st.D1 bound with
      | none =>
        intro b hb blk hget2 hvmem
        exact hin ⟨b, hb, blk, hget2, hvmem⟩
      | some blk0 =>
        dsimp only
        by_cases hdrop : (FBlock.del blk0 st.nodes v).elems.isEmpty = true ∧
            (!EV.beq bound st.B) = true
        · rw [if_pos hdrop]
          intro b hb blk hget2 hvmem
          dsimp only at hb hget2
          have hbmem : b ∈ st.D1_bounds := (evErase_sublist _ bound).subset hb
          rw [dGet_dDel st.D1 bound b hbdwf (hwfmem b hbmem) hkwf hkd] at hget2
          by_cases hbe : EV.beq b bound = true
          · rw [if_pos hbe] at hget2
            cases hget2
          · rw [if_neg hbe] at hget2
            exact hin ⟨b, hbmem, blk, hget2, hvmem⟩
        · rw [if_neg hdrop]
          intro b hb blk hget2 hvmem
          dsimp only at hb hget2
          rw [dGet_dSet st.D1 bound _ b hbdwf (hwfmem b hb) hkwf] at hget2
          by_cases hbe : EV.beq b bound = true
          · rw [if_pos hbe] at hget2
            injection hget2 with h2
            rw [← h2] at hvmem
            exact hin ⟨bound, hbdmem, blk0, hdg, FBlock_del_mem blk0 st.nodes v v hvmem⟩
          · rw [if_neg hbe] at hget2
            exact hin ⟨b, hb, blk, hget2, hvmem⟩

/-- After the public delete of a vertex at its own value, the vertex is
gone from every reachable D1 block, provided each block holds it at most
once and, when it sits in a reachable D1 block, its value is at or above
every D0 bound (so the value routing reaches D1). -/
lemma deleteBB_clears (st : BB) (v : Nat)
    (hwf : bbWF st = true) (hr : d1RangeOk false st = true)
    (hlink : (getN st.nodes v).linked = true)
    (hcnt : ∀ pr ∈ st.D1, v ∈ pr.2.elems → pr.2.elems.count v = 1)
    (hroute : ∀ mx, boundsMax st.D0_bounds = some mx →
      (∃ b ∈ st.D1_bounds, ∃ blk, dGet st.D1 b = some blk ∧ v ∈ blk.elems) →
      EV.lt (valN st.nodes v) mx = false) :
    ∀ b ∈ (deleteBB st v (valN st.nodes v)).D1_bounds,
    ∀ blk, dGet (deleteBB st v (valN st.nodes v)).D1 b = some blk →
    v ∉ blk.elems := by
  rw [deleteBB]
  cases hmx : boundsMax st.D0_bounds with
  | none => exact deleteD1_clears st v hwf hr hlink hcnt
  | some mx =>
    dsimp only
    by_cases hlt : EV.lt (valN st.nodes v) mx = true
    · rw [if_pos hlt]
      have hnin : ¬∃ b ∈ st.D1_bounds, ∃ blk,
          dGet st.D1 b = some blk ∧ v ∈ blk.elems := by
        intro hin
        rw [hroute mx hmx hin] at hlt
        cases hlt
      cases hdg : dGet st.D0 (match boundsSearch st.D0_bounds (valN st.nodes v) with
          | some b => b | none => mx) with
      | none =>
        intro b hb blk hget2 hvmem
        exact hnin ⟨b, hb, blk, hget2, hvmem⟩
      | some blk0 =>
        dsimp only
        by_cases he : (FBlock.del blk0 st.nodes v).elems.isEmpty = true
        · rw [if_pos he]
          intro b hb blk hget2 hvmem
          dsimp only at hb hget2
          exact hnin ⟨b, hb, blk, hget2, hvmem⟩
        · rw [if_neg he]
          intro b hb blk hget2 hvmem
          dsimp only at hb hget2
          exact hnin ⟨b, hb, blk, hget2, hvmem⟩
    · rw [if_neg hlt]
      exact deleteD1_clears st v hwf hr hlink hcnt

/-- `insert` preserves the weak D1 range invariant: the new value lands
in the first bound above it (lower-bounded by the previous bound from
the `find` semantics), and an overflow split keeps all entries weakly
between the new median bound and its neighbours. -/
lemma insertBB_preserves_range (st : BB) (v : Nat) (x : EV) (st' : BB)
    (hv : v < st.nodes.length)
    (hxB : EV.lt x st.B = true) (hxwf : evWF x = true) (hBwf : evWF st.B = true)
    (hocc : ∀ pr ∈ st.D1, v ∈ pr.2.elems →
      (getN st.nodes v).linked = true ∧ pr.2.elems.count v = 1 ∧
      ∀ mx, boundsMax st.D0_bounds = some mx →
        EV.lt (valN st.nodes v) mx = false)
    (hwf : bbWF st = true) (hr : d1RangeOk false st = true)
    (h : insertBB st v x = .ok st') :
    d1RangeOk false st' = true := by
  simp only [insertBB] at h
  by_cases himp : (!EV.lt x (getN st.nodes v).val) = true
  · rw [if_pos himp] at h
    injection h with h1
    rw [← h1]
    exact hr
  rw [if_neg himp] at h
  set st1 := if (getN st.nodes v).linked = true
      then deleteBB st v (getN st.nodes v).val else st with hst1def
  have hst1wf : bbWF st1 = true := by
    rw [hst1def]; split
    · exact (deleteBB_preserves st v _ hwf hr).1
    · exact hwf
  have hst1r : d1RangeOk false st1 = true := by
    rw [hst1def]; split
    · exact (deleteBB_preserves st v _ hwf hr).2
    · exact hr
  have hst1n : st1.nodes = st.nodes := by
    rw [hst1def]; split
    · exact (deleteBB_frame st v _).2.1
    · rfl
  have hst1B : st1.B = st.B := by
    rw [hst1def]; split
    · exact (deleteBB_frame st v _).1
    · rfl
  have hdisj1 : ∀ b ∈ st1.D1_bounds, ∀ blk, dGet st1.D1 b = some blk →
      v ∉ blk.elems := by
    rw [hst1def]
    split
    · next hlk =>
      exact deleteBB_clears st v hwf hr hlk
        (fun pr hpr hv2 => (hocc pr hpr hv2).2.1)
        (fun mx hmx hin => by
          obtain ⟨b2, hb2, blk2, hg2, hv2⟩ := hin
          obtain ⟨k0, hk0⟩ := dGet_mem st.D1 b2 blk2 hg2
          exact (hocc (k0, blk2) hk0 hv2).2.2 mx hmx)
    · next hlk =>
      intro b hb blk hget hvmem
      obtain ⟨k0, hk0⟩ := dGet_mem st.D1 b blk hget
      exact hlk ((hocc (k0, blk) hk0 hvmem).1)
  try dsimp only at h
  set ns2 := setN st1.nodes v { getN st1.nodes v with val := x } with hns2def
  have hval2v : valN ns2 v = x := by
    rw [hns2def, valN, getN_setN_self _ _ _ (by rw [hst1n]; exact hv)]
  have hval2congr : ∀ i, i ≠ v → valN ns2 i = valN st1.nodes i := by
    intro i hi
    rw [hns2def]
    exact valN_setN_ne st1.nodes v i _ (fun he => hi he.symm)
  have hparts := hst1wf
  rw [bbWF, Bool.and_eq_true, Bool.and_eq_true, Bool.and_eq_true,
    Bool.and_eq_true, Bool.and_eq_true] at hparts
  obtain ⟨⟨⟨⟨⟨hbwf1, hss1⟩, hkwf1⟩, hkd1⟩, hBm1⟩, hvwf1⟩ := hparts
  have hwfmem1 : ∀ a ∈ st1.D1_bounds, evWF a = true :=
    fun a ha => List.all_eq_true.mp hbwf1 a ha
  obtain ⟨b0, hb0mem, hb0beq⟩ := List.any_eq_true.mp hBm1
  have hxb0 : EV.lt x b0 = true := by
    have hcongr := EV.lt_congr_right x st1.B b0 hxwf (hst1B.symm ▸ hBwf)
      (hwfmem1 b0 hb0mem) (EV.beq_symm b0 st1.B ▸ hb0beq)
    rw [← hcongr, hst1B]
    exact hxB
  cases hbs : boundsSearch st1.D1_bounds x with
  | none =>
    exfalso
    rw [boundsSearch, List.find?_eq_none] at hbs
    exact absurd hxb0 (by simpa using hbs b0 hb0mem)
  | some bstar =>
    rw [hbs] at h
    try dsimp only at h
    rw [boundsSearch] at hbs
    obtain ⟨Lw, Rw, hLR, hLfail0, hbtrue0⟩ := find_split _ st1.D1_bounds bstar hbs
    have hbtrue : EV.lt x bstar = true := hbtrue0
    have hLfail : ∀ a ∈ Lw, EV.lt x a = false := hLfail0
    have hbstarmem : bstar ∈ st1.D1_bounds := by rw [hLR]; simp
    have hbwfstar : evWF bstar = true := hwfmem1 bstar hbstarmem
    have hpw1 : st1.D1_bounds.Pairwise (fun a b => EV.lt a b = true) :=
      (ss_iff_pairwise _ hwfmem1).mp hss1
    have hpw1' := hpw1
    rw [hLR] at hpw1'
    have hdec := List.pairwise_append.mp hpw1'
    have hLwwf : ∀ a ∈ Lw, evWF a = true :=
      fun a ha => hwfmem1 a (by rw [hLR]; simp [ha])
    have hRwwf : ∀ r ∈ Rw, evWF r = true :=
      fun r hr2 => hwfmem1 r (by rw [hLR]; simp [hr2])
    have hLlt : ∀ a ∈ Lw, EV.lt a bstar = true :=
      fun a ha => hdec.2.2 a ha bstar (by simp)
    have hRgt : ∀ r ∈ Rw, EV.lt bstar r = true :=
      fun r hr2 => (List.pairwise_cons.mp hdec.2.1).1 r hr2
    have hLne : ∀ a ∈ Lw, EV.beq a bstar = false :=
      fun a ha => EV.beq_of_lt_false _ _ (hLlt a ha)
    have hRne : ∀ r ∈ Rw, EV.beq r bstar = false := by
      intro r hr2
      rw [EV.beq_symm]
      exact EV.beq_of_lt_false _ _ (hRgt r hr2)
    have hlowf : evWF (Lw.getLastD .ninf) = true := by
      cases hLe : Lw with
      | nil => rfl
      | cons a L' =>
        exact hLwwf _ (by rw [hLe]; exact getLastD_mem (a :: L') .ninf (by simp))
    have hlolex : EV.le (Lw.getLastD .ninf) x = true := by
      cases hLe : Lw with
      | nil => exact EV.le_ninf_left x
      | cons a L' =>
        rw [EV.le, hLfail _ (by rw [hLe]; exact getLastD_mem (a :: L') .ninf (by simp))]
        rfl
    have hltxlo : EV.lt x (Lw.getLastD .ninf) = false := by
      have := hlolex
      rw [EV.le, Bool.not_eq_true'] at this
      exact this
    rw [d1RangeOk] at hst1r
    have hr2 : d1RangeFrom false st1.D1 ns2 .ninf st1.D1_bounds = true := by
      refine rangeFrom_weaken st1.D1 st1.D1 st1.nodes ns2 st1.D1_bounds .ninf ?_ hst1r
      intro b hb blk' hget' n hn
      refine ⟨blk', hget', hn, ?_⟩
      exact hval2congr n (fun he => hdisj1 b hb blk' hget' (he ▸ hn))
    cases hdg : dGet st1.D1 bstar with
    | none => rw [hdg] at h; cases h
    | some blk =>
      rw [hdg] at h
      try dsimp only at h
      have hblkmem : ∀ n ∈ blk.elems, n ≠ v := by
        intro n hn he
        exact hdisj1 bstar hbstarmem blk hdg (he ▸ hn)
      have hvwfblk : ∀ n ∈ blk.elems, evWF (valN ns2 n) = true := by
        intro n hn
        rw [hval2congr n (hblkmem n hn)]
        obtain ⟨k0, hk0⟩ := dGet_mem st1.D1 bstar blk hdg
        exact List.all_eq_true.mp (List.all_eq_true.mp hvwf1 (k0, blk) hk0) n hn
      rw [hLR, rangeFrom_append, Bool.and_eq_true] at hr2
      have hLpart := hr2.1
      have hrest := hr2.2
      rw [d1RangeFrom, Bool.and_eq_true] at hrest
      have hbck := hrest.1
      simp only [hdg] at hbck
      rw [List.all_eq_true] at hbck
      have hRpart := hrest.2
      have hblklo : ∀ n ∈ blk.elems, EV.lt (valN ns2 n) (Lw.getLastD .ninf) = false := by
        intro n hn
        have h2 := hbck n hn
        rw [Bool.and_eq_true] at h2
        have h3 := h2.1
        simp only [Bool.cond_false] at h3
        rw [EV.le, Bool.not_eq_true'] at h3
        exact h3
      have hblkup : ∀ n ∈ blk.elems, EV.lt (valN ns2 n) bstar = true := by
        intro n hn
        have h2 := hbck n hn
        rw [Bool.and_eq_true] at h2
        exact h2.2
      have hvalN3 : ∀ i, valN (FBlock.ins blk ns2 v).2 i = valN ns2 i := by
        intro i
        exact valN_setN_linked ns2 v i
      have hp1el : (FBlock.ins blk ns2 v).1.elems = blk.elems ++ [v] := rfl
      have hvwfp1 : ∀ n ∈ (FBlock.ins blk ns2 v).1.elems,
          evWF (valN (FBlock.ins blk ns2 v).2 n) = true := by
        intro n hn
        rw [hvalN3 n]
        rw [hp1el] at hn
        rcases List.mem_append.mp hn with h2 | h2
        · exact hvwfblk n h2
        · rw [show n = v by simpa using h2, hval2v]
          exact hxwf
      have hlop1 : ∀ n ∈ (FBlock.ins blk ns2 v).1.elems,
          EV.lt (valN (FBlock.ins blk ns2 v).2 n) (Lw.getLastD .ninf) = false := by
        intro n hn
        rw [hvalN3 n]
        rw [hp1el] at hn
        rcases List.mem_append.mp hn with h2 | h2
        · exact hblklo n h2
        · rw [show n = v by simpa using h2, hval2v]
          exact hltxlo
      have hupp1 : ∀ n ∈ (FBlock.ins blk ns2 v).1.elems,
          EV.lt (valN (FBlock.ins blk ns2 v).2 n) bstar = true := by
        intro n hn
        rw [hvalN3 n]
        rw [hp1el] at hn
        rcases List.mem_append.mp hn with h2 | h2
        · exact hblkup n h2
        · rw [show n = v by simpa using h2, hval2v]
          exact hbtrue
      have hlookIns : ∀ w, evWF w = true →
          dGet (dSet st1.D1 bstar (FBlock.ins blk ns2 v).1) w =
            if EV.beq w bstar = true then some (FBlock.ins blk ns2 v).1
            else dGet st1.D1 w :=
        fun w hw => dGet_dSet st1.D1 bstar _ w hbwfstar hw hkwf1
      have hLrange3 : d1RangeFrom false (dSet st1.D1 bstar (FBlock.ins blk ns2 v).1)
          (FBlock.ins blk ns2 v).2 .ninf Lw = true := by
        refine rangeFrom_weaken st1.D1 _ ns2 _ Lw .ninf ?_ hLpart
        intro w hw blk' hget' n hn
        rw [hlookIns w (hLwwf w hw), if_neg (by simp [hLne w hw])] at hget'
        exact ⟨blk', hget', hn, hvalN3 n⟩
      have hRrange3 : d1RangeFrom false (dSet st1.D1 bstar (FBlock.ins blk ns2 v).1)
          (FBlock.ins blk ns2 v).2 bstar Rw = true := by
        refine rangeFrom_weaken st1.D1 _ ns2 _ Rw bstar ?_ hRpart
        intro w hw blk' hget' n hn
        rw [hlookIns w (hRwwf w hw), if_neg (by simp [hRne w hw])] at hget'
        exact ⟨blk', hget', hn, hvalN3 n⟩
      split at h
      · -- overflow: the block splits
        injection h with h1
        rw [← h1]
        refine splitBB_preserves_range _ (FBlock.ins blk ns2 v).1 bstar Lw Rw
          hLR hwfmem1 hpw1 ?_ ?_ hvwfp1 hlop1 hupp1 (by simp [hp1el])
          hLrange3 hRrange3
        · exact keysWF_dSet st1.D1 bstar _ hkwf1 hbwfstar
        · exact keysDistinct_dSet st1.D1 bstar _ hkd1 hkwf1 hbwfstar
      · -- no split
        injection h with h1
        rw [← h1]
        rw [d1RangeOk]
        dsimp only
        rw [hLR, rangeFrom_append, Bool.and_eq_true]
        refine ⟨hLrange3, ?_⟩
        rw [d1RangeFrom, Bool.and_eq_true]
        refine ⟨?_, hRrange3⟩
        have hlb : dGet (dSet st1.D1 bstar (FBlock.ins blk ns2 v).1) bstar
            = some (FBlock.ins blk ns2 v).1 := by
          rw [hlookIns bstar hbwfstar, if_pos (EV.beq_refl bstar)]
        simp only [hlb]
        rw [List.all_eq_true]
        intro n hn
        rw [Bool.and_eq_true]
        simp only [Bool.cond_false]
        refine ⟨?_, hupp1 n hn⟩
        rw [EV.le, hlop1 n hn]
        rfl

/-- C7 (amended): after each public BBLL operation on a well-formed
state satisfying the weak range invariant, every D1 entry `e` in the
block for bound `b` with walk predecessor `b'` satisfies
`b' ≤ e.val < b` (weak lower bound: `split` files entries equal to the
median at the median's own bound).  The insert conjunct covers fresh
inserts and improving re-inserts of a currently linked vertex, assuming
the key is below the sentinel, each D1 block stores the vertex at most
once, and when the vertex sits in a D1 block its value is at or above
every D0 bound (so the unlinking delete's value routing reaches D1);
the batch-prepend conjunct assumes the supplied vertices are not D1
members. -/
theorem d1_weak_range_after_ops (st : BB)
    (hwf : bbWF st = true) (hr : d1RangeOk false st = true) :
    (∀ key val, d1RangeOk false (deleteBB st key val) = true) ∧
    (∀ v x st', v < st.nodes.length → EV.lt x st.B = true → evWF x = true →
      evWF st.B = true →
      (∀ pr ∈ st.D1, v ∈ pr.2.elems →
        (getN st.nodes v).linked = true ∧ pr.2.elems.count v = 1 ∧
        ∀ mx, boundsMax st.D0_bounds = some mx →
          EV.lt (valN st.nodes v) mx = false) →
      insertBB st v x = .ok st' → d1RangeOk false st' = true) ∧
    (∀ L fuel st', (∀ pr ∈ st.D1, ∀ p ∈ L, p.1 ∉ pr.2.elems) →
      batchPrepend st L fuel = .ok st' → d1RangeOk false st' = true) ∧
    (∀ st' r, pullBB st = .ok (st', r) → d1RangeOk false st' = true) :=
  ⟨fun key val => (deleteBB_preserves st key val hwf hr).2,
   fun v x st' hv hxB hxwf hBwf hocc hins =>
     insertBB_preserves_range st v x st' hv hxB hxwf hBwf hocc hwf hr hins,
   fun L fuel st' hdisj hbp => batchPrepend_preserves_range st L fuel st' hdisj hr hbp,
   fun st' r hp => (pullBB_preserves st st' r hwf hr hp).2⟩

/-- Witness for `d1_weak_range_after_ops` on the concrete states `st6`
and `stP5`: a delete, the pull, and an improving re-insert of the
linked vertex 0 all keep the weak range invariant. -/
theorem d1_weak_range_after_ops_witness :
    d1RangeOk false (deleteBB st6 1 (.fin ⟨7, 1⟩)) = true ∧
    d1RangeOk false st6p = true ∧
    d1RangeOk false
      { B := .inf, M := 2, D0 := [], D0_bounds := []
        D1 := [(.inf, { elems := [0], size := 1
                        max_val := .fin ⟨3, 1⟩, min_val := .fin ⟨3, 1⟩ })]
        D1_bounds := [.inf]
        nodes := [{ val := .fin ⟨3, 1⟩, linked := true },
                  { val := .inf, linked := false }] } = true :=
  ⟨(d1_weak_range_after_ops st6 (by decide) (by decide)).1 1 (.fin ⟨7, 1⟩),
   (d1_weak_range_after_ops st6 (by decide) (by decide)).2.2.2 st6p
     ([0, 2], .fin ⟨7, 1⟩) rfl,
   (d1_weak_range_after_ops stP5 (by decide) (by decide)).2.1 0 (.fin ⟨3, 1⟩) _
     (by decide) (by decide) (by decide) (by decide)
     (by
       intro pr hpr hv2
       rw [show stP5.D1 = [(EV.inf, { elems := [0]
                                      size := 1
                                      max_val := EV.fin ⟨5, 1⟩
                                      min_val := EV.fin ⟨5, 1⟩ })] from rfl] at hpr
       rw [List.mem_singleton] at hpr
       subst hpr
       exact ⟨rfl, by decide, fun mx hmx => Option.noConfusion hmx⟩)
     rfl⟩

/-- `headD` of a nonempty list is a member. -/
lemma headD_mem {α : Type} (l : List α) (d : α) (h : l ≠ []) : l.headD d ∈ l := by
  cases l with
  | nil => exact absurd rfl h
  | cons a l => exact List.mem_cons_self a l

/-- The inserted key is in the sorted set. -/
lemma mem_ssAdd_self : ∀ (s : List Nat) (x : Nat), x ∈ ssAdd s x
  | [], x => by rw [ssAdd]; exact List.mem_singleton.mpr rfl
  | a :: s, x => by
    rw [ssAdd]
    by_cases h1 : x < a
    · rw [if_pos h1]; simp
    · rw [if_neg h1]
      by_cases h2 : x = a
      · rw [if_pos h2]; simp [h2]
      · rw [if_neg h2]
        exact List.mem_cons.mpr (Or.inr (mem_ssAdd_self s x))

/-- Old members stay in the sorted set. -/
lemma mem_ssAdd_of_mem : ∀ (s : List Nat) (x a : Nat), a ∈ s → a ∈ ssAdd s x
  | [], _, _, ha => absurd ha (by simp)
  | b :: s, x, a, ha => by
    rw [ssAdd]
    by_cases h1 : x < b
    · rw [if_pos h1]; exact List.mem_cons.mpr (Or.inr ha)
    · rw [if_neg h1]
      by_cases h2 : x = b
      · rw [if_pos h2]; exact ha
      · rw [if_neg h2]
        rcases List.mem_cons.mp ha with h3 | h3
        · exact List.mem_cons.mpr (Or.inl h3)
        · exact List.mem_cons.mpr (Or.inr (mem_ssAdd_of_mem s x a h3))

/-- Members of the sorted set come from the old set or the insertion. -/
lemma mem_of_mem_ssAdd : ∀ (s : List Nat) (x a : Nat), a ∈ ssAdd s x → a ∈ s ∨ a = x
  | [], x, a, ha => by
    rw [ssAdd] at ha
    exact Or.inr (by simpa using ha)
  | b :: s, x, a, ha => by
    rw [ssAdd] at ha
    by_cases h1 : x < b
    · rw [if_pos h1] at ha
      rcases List.mem_cons.mp ha with h3 | h3
      · exact Or.inr h3
      · exact Or.inl h3
    · rw [if_neg h1] at ha
      by_cases h2 : x = b
      · rw [if_pos h2] at ha
        exact Or.inl ha
      · rw [if_neg h2] at ha
        rcases List.mem_cons.mp ha with h3 | h3
        · exact Or.inl (by simp [h3])
        · rcases mem_of_mem_ssAdd s x a h3 with h4 | h4
          · exact Or.inl (by simp [h4])
          · exact Or.inr h4

/-- `ssAdd` grows the set by at most one. -/
lemma ssAdd_length_le : ∀ (s : List Nat) (x : Nat), (ssAdd s x).length ≤ s.length + 1
  | [], _ => by rw [ssAdd]; simp
  | b :: s, x => by
    rw [ssAdd]
    by_cases h1 : x < b
    · rw [if_pos h1]; simp
    · rw [if_neg h1]
      by_cases h2 : x = b
      · rw [if_pos h2]; simp
      · rw [if_neg h2]
        rw [List.length_cons, List.length_cons]
        exact Nat.succ_le_succ (ssAdd_length_le s x)

/-- Every key of the pair list appears in its key set. -/
lemma mem_dedupKeys_of_mem (l : List (Nat × EV)) (p : Nat × EV) (hp : p ∈ l) :
    p.1 ∈ dedupKeys l := by
  rw [dedupKeys]
  have h : ∀ (l' : List (Nat × EV)) (acc : List Nat), (p.1 ∈ acc ∨ p ∈ l') →
      p.1 ∈ l'.foldl (fun s q => ssAdd s q.1) acc := by
    intro l'
    induction l' with
    | nil =>
      intro acc hacc
      rcases hacc with h | h
      · exact h
      · exact absurd h (by simp)
    | cons q l' ih =>
      intro acc hacc
      rw [List.foldl_cons]
      rcases hacc with h | h
      · exact ih _ (Or.inl (mem_ssAdd_of_mem acc q.1 p.1 h))
      · rcases List.mem_cons.mp h with h2 | h2
        · exact ih _ (Or.inl (by rw [h2]; exact mem_ssAdd_self acc q.1))
        · exact ih _ (Or.inr h2)
  exact h l [] (Or.inr hp)

/-- Every member of the key set is a key of the pair list. -/
lemma mem_of_mem_dedupKeys (l : List (Nat × EV)) (a : Nat)
    (ha : a ∈ dedupKeys l) : ∃ p ∈ l, p.1 = a := by
  rw [dedupKeys] at ha
  have h : ∀ (l' : List (Nat × EV)) (acc : List Nat),
      a ∈ l'.foldl (fun s q => ssAdd s q.1) acc →
      a ∈ acc ∨ ∃ p ∈ l', p.1 = a := by
    intro l'
    induction l' with
    | nil => exact fun acc h2 => Or.inl h2
    | cons q l' ih =>
      intro acc h2
      rw [List.foldl_cons] at h2
      rcases ih _ h2 with h3 | h3
      · rcases mem_of_mem_ssAdd acc q.1 a h3 with h4 | h4
        · exact Or.inl h4
        · exact Or.inr ⟨q, by simp, h4.symm⟩
      · obtain ⟨p, hp, hpa⟩ := h3
        exact Or.inr ⟨p, by simp [hp], hpa⟩
  rcases h l [] ha with h2 | h2
  · exact absurd h2 (by simp)
  · exact h2

/-- The key set is no longer than the pair list. -/
lemma dedupKeys_length_le (l : List (Nat × EV)) :
    (dedupKeys l).length ≤ l.length := by
  rw [dedupKeys]
  have h : ∀ (l' : List (Nat × EV)) (acc : List Nat),
      (l'.foldl (fun s q => ssAdd s q.1) acc).length ≤ acc.length + l'.length := by
    intro l'
    induction l' with
    | nil => intro acc; simp
    | cons q l' ih =>
      intro acc
      rw [List.foldl_cons]
      have h1 := ih (ssAdd acc q.1)
      have h2 := ssAdd_length_le acc q.1
      rw [List.length_cons]
      omega
  simpa using h l []

/-- Filtering around a failing element strictly shrinks the list
(arbitrary element type). -/
lemma length_filter_lt' {α : Type} (p : α → Bool) : ∀ (l : List α) (a : α), a ∈ l →
    p a = false → (l.filter p).length < l.length
  | [], a, h, _ => absurd h (by simp)
  | x :: l, a, h, hp => by
    rw [List.filter_cons]
    by_cases hx : p x = true
    · rw [if_pos (by simp [hx]), List.length_cons, List.length_cons]
      have ha : a ∈ l := by
        rcases List.mem_cons.mp h with h2 | h2
        · rw [h2] at hp; rw [hp] at hx; cases hx
        · exact h2
      exact Nat.succ_lt_succ (length_filter_lt' p l a ha hp)
    · rw [if_neg (by simp [hx]), List.length_cons]
      exact Nat.lt_succ_of_le (List.length_filter_le p l)

/-- The three quickselect filters partition a pair list. -/
lemma filter_partition_length_p (arr : List (Nat × EV)) (pv : EV) :
    arr.length = (arr.filter (fun p => EV.lt p.2 pv)).length +
      (arr.filter (fun p => EV.beq p.2 pv)).length +
      (arr.filter (fun p => EV.lt pv p.2)).length := by
  induction arr with
  | nil => rfl
  | cons x arr ih =>
    rcases EV.trichot x.2 pv with ⟨h1, h2, h3⟩ | ⟨h1, h2, h3⟩ | ⟨h1, h2, h3⟩ <;>
      simp [List.filter_cons, h1, h2, h3] <;>
      omega

/-- Any filter count splits along the three-way partition. -/
lemma filter_three_way (arr : List (Nat × EV)) (pv : EV) (P : Nat × EV → Bool) :
    (arr.filter P).length =
      ((arr.filter (fun p => EV.lt p.2 pv)).filter P).length +
      ((arr.filter (fun p => EV.beq p.2 pv)).filter P).length +
      ((arr.filter (fun p => EV.lt pv p.2)).filter P).length := by
  induction arr with
  | nil => rfl
  | cons x arr ih =>
    rcases EV.trichot x.2 pv with ⟨h1, h2, h3⟩ | ⟨h1, h2, h3⟩ | ⟨h1, h2, h3⟩ <;>
      rcases Bool.eq_false_or_eq_true (P x) with hP | hP <;>
      simp only [List.filter_cons, h1, h2, h3, hP, eq_self_iff_true, if_true,
        Bool.false_eq_true, if_false, List.length_cons] <;>
      omega

/-- A filter with a nowhere-true predicate is empty. -/
lemma filter_nil_of_all {α : Type} (p : α → Bool) : ∀ (l : List α),
    (∀ a ∈ l, p a = false) → l.filter p = []
  | [], _ => rfl
  | x :: l, h => by
    rw [List.filter_cons, if_neg (by simp [h x (by simp)])]
    exact filter_nil_of_all p l (fun a ha => h a (by simp [ha]))

/-- The pair quickselect returns a collected entry whose value has at
most `k` collected entries strictly below it (the order-statistic
property `pull` relies on). -/
lemma qselP_spec : ∀ (fuel : Nat) (arr : List (Nat × EV)) (k : Nat),
    arr.length ≤ fuel → k < arr.length → (∀ p ∈ arr, evWF p.2 = true) →
    qselP fuel arr k ∈ arr ∧
    (arr.filter (fun p => EV.lt p.2 (qselP fuel arr k).2)).length ≤ k
  | 0, arr, k, hf, hk, _ => by omega
  | fuel + 1, [], k, _, hk, _ => by simp at hk
  | fuel + 1, [a], k, _, hk, _ => by
    rw [qselP]
    have hk0 : k = 0 := by simpa using hk
    refine ⟨List.mem_singleton.mpr rfl, ?_⟩
    rw [hk0]
    simp [List.filter_cons, EV.lt_irrefl]
  | fuel + 1, a :: b :: rest, k, hf, hk, hwf => by
    rw [qselP]
    have hwa : evWF a.2 = true := hwf a (by simp)
    have hlows : ((a :: b :: rest).filter (fun x => EV.lt x.2 a.2)).length
        < (a :: b :: rest).length :=
      length_filter_lt' _ _ a (by simp) (EV.lt_irrefl a.2)
    have hhighs : ((a :: b :: rest).filter (fun x => EV.lt a.2 x.2)).length
        < (a :: b :: rest).length :=
      length_filter_lt' _ _ a (by simp) (EV.lt_irrefl a.2)
    have hpart := filter_partition_length_p (a :: b :: rest) a.2
    by_cases h1 : k < ((a :: b :: rest).filter (fun x => EV.lt x.2 a.2)).length
    · rw [if_pos h1]
      obtain ⟨hm, hc⟩ := qselP_spec fuel
        ((a :: b :: rest).filter (fun x => EV.lt x.2 a.2)) k
        (by simp only [List.length_cons] at hf hlows ⊢; omega) h1
        (fun p hp => hwf p (List.mem_of_mem_filter hp))
      have hmarr := List.mem_of_mem_filter hm
      have hreslt : EV.lt (qselP fuel
          ((a :: b :: rest).filter (fun x => EV.lt x.2 a.2)) k).2 a.2 = true :=
        (List.mem_filter.mp hm).2
      have hwres : evWF (qselP fuel
          ((a :: b :: rest).filter (fun x => EV.lt x.2 a.2)) k).2 = true :=
        hwf _ hmarr
      refine ⟨hmarr, ?_⟩
      rw [filter_three_way (a :: b :: rest) a.2]
      have hpiv : ((a :: b :: rest).filter (fun p => EV.beq p.2 a.2)).filter
          (fun p => EV.lt p.2 (qselP fuel
            ((a :: b :: rest).filter (fun x => EV.lt x.2 a.2)) k).2) = [] := by
        refine filter_nil_of_all _ _ ?_
        intro q hq
        have hq1 := List.mem_filter.mp hq
        have hcongr := EV.lt_congr_left q.2 a.2 _
          (hwf q (List.mem_of_mem_filter hq)) hwa hwres hq1.2
        rw [hcongr]
        exact EV.lt_asymm' _ _ hreslt
      have hhi : ((a :: b :: rest).filter (fun p => EV.lt a.2 p.2)).filter
          (fun p => EV.lt p.2 (qselP fuel
            ((a :: b :: rest).filter (fun x => EV.lt x.2 a.2)) k).2) = [] := by
        refine filter_nil_of_all _ _ ?_
        intro q hq
        have hq1 := List.mem_filter.mp hq
        by_contra hcon
        rw [Bool.not_eq_false] at hcon
        have htr := EV.lt_trans' a.2 q.2 _ hwa
          (hwf q (List.mem_of_mem_filter hq)) hwres hq1.2 hcon
        rw [EV.lt_asymm' _ _ hreslt] at htr
        cases htr
      rw [hpiv, hhi]
      simpa using hc
    · rw [if_neg h1]
      by_cases h2 : k < ((a :: b :: rest).filter (fun x => EV.lt x.2 a.2)).length +
          ((a :: b :: rest).filter (fun x => EV.beq x.2 a.2)).length
      · rw [if_pos h2]
        have hpivne : (a :: b :: rest).filter (fun x => EV.beq x.2 a.2) ≠ [] :=
          List.ne_nil_of_mem (List.mem_filter.mpr ⟨by simp, EV.beq_refl a.2⟩)
        have hmem := headD_mem _ ((0 : Nat), EV.inf) hpivne
        have hmarr := List.mem_of_mem_filter hmem
        have hthr : EV.beq (((a :: b :: rest).filter
            (fun x => EV.beq x.2 a.2)).headD (0, EV.inf)).2 a.2 = true :=
          (List.mem_filter.mp hmem).2
        have hwthr : evWF (((a :: b :: rest).filter
            (fun x => EV.beq x.2 a.2)).headD (0, EV.inf)).2 = true := hwf _ hmarr
        refine ⟨hmarr, ?_⟩
        rw [filter_three_way (a :: b :: rest) a.2]
        have hpiv : ((a :: b :: rest).filter (fun p => EV.beq p.2 a.2)).filter
            (fun p => EV.lt p.2 (((a :: b :: rest).filter
              (fun x => EV.beq x.2 a.2)).headD (0, EV.inf)).2) = [] := by
          refine filter_nil_of_all _ _ ?_
          intro q hq
          have hq1 := List.mem_filter.mp hq
          have hwq : evWF q.2 = true := hwf q (List.mem_of_mem_filter hq)
          have hcongr := EV.lt_congr_right q.2 _ a.2 hwq hwthr hwa hthr
          rw [hcongr]
          exact EV.lt_of_beq_false _ _ hq1.2
        have hhi : ((a :: b :: rest).filter (fun p => EV.lt a.2 p.2)).filter
            (fun p => EV.lt p.2 (((a :: b :: rest).filter
              (fun x => EV.beq x.2 a.2)).headD (0, EV.inf)).2) = [] := by
          refine filter_nil_of_all _ _ ?_
          intro q hq
          have hq1 := List.mem_filter.mp hq
          have hwq : evWF q.2 = true := hwf q (List.mem_of_mem_filter hq)
          have hcongr := EV.lt_congr_right q.2 _ a.2 hwq hwthr hwa hthr
          rw [hcongr]
          exact EV.lt_asymm' _ _ hq1.2
        rw [hpiv, hhi]
        have hle := List.length_filter_le (fun p => EV.lt p.2 (((a :: b :: rest).filter
          (fun x => EV.beq x.2 a.2)).headD (0, EV.inf)).2)
          ((a :: b :: rest).filter (fun p => EV.lt p.2 a.2))
        simp only [List.length_nil]
        omega
      · rw [if_neg h2]
        obtain ⟨hm, hc⟩ := qselP_spec fuel
          ((a :: b :: rest).filter (fun x => EV.lt a.2 x.2))
          (k - ((a :: b :: rest).filter (fun x => EV.lt x.2 a.2)).length -
            ((a :: b :: rest).filter (fun x => EV.beq x.2 a.2)).length)
          (by simp only [List.length_cons] at hf hhighs ⊢; omega)
          (by omega)
          (fun p hp => hwf p (List.mem_of_mem_filter hp))
        refine ⟨List.mem_of_mem_filter hm, ?_⟩
        rw [filter_three_way (a :: b :: rest) a.2]
        have hl1 := List.length_filter_le (fun p => EV.lt p.2 (qselP fuel
            ((a :: b :: rest).filter (fun x => EV.lt a.2 x.2))
            (k - ((a :: b :: rest).filter (fun x => EV.lt x.2 a.2)).length -
              ((a :: b :: rest).filter (fun x => EV.beq x.2 a.2)).length)).2)
          ((a :: b :: rest).filter (fun p => EV.lt p.2 a.2))
        have hl2 := List.length_filter_le (fun p => EV.lt p.2 (qselP fuel
            ((a :: b :: rest).filter (fun x => EV.lt a.2 x.2))
            (k - ((a :: b :: rest).filter (fun x => EV.lt x.2 a.2)).length -
              ((a :: b :: rest).filter (fun x => EV.beq x.2 a.2)).length)).2)
          ((a :: b :: rest).filter (fun p => EV.beq p.2 a.2))
        omega

/-- C6 (amended): `pull` returns at most `M` keys, and the returned key
set is a prefix in value order of the multiset of COLLECTED entries (the
at-most-`M` entries gathered from D0's blocks and then D1's blocks in
bound order) — not of all live entries: every collected entry whose key
is returned has value ≤ every collected entry whose key is not. -/
theorem pull_prefix_of_collected (st st' : BB) (S0 S1 : List (Nat × EV))
    (S : List Nat) (x : EV)
    (h0 : collectFromD0 st st.M = .ok S0)
    (h1 : collectFromD1 st st.M = .ok S1)
    (hM0 : 0 < st.M)
    (hwfv : ∀ p ∈ S0 ++ S1, evWF p.2 = true)
    (hnd : ((S0 ++ S1).map Prod.fst).Nodup)
    (hp : pullBB st = .ok (st', (S, x))) :
    S.length ≤ st.M ∧
    ∀ p ∈ S0 ++ S1, p.1 ∈ S → ∀ q ∈ S0 ++ S1, q.1 ∉ S →
      EV.le p.2 q.2 = true := by
  rw [pullBB] at hp
  dsimp only at hp
  rw [h0] at hp
  dsimp only at hp
  rw [h1] at hp
  dsimp only at hp
  by_cases hlen : (S0 ++ S1).length < st.M
  · rw [if_pos hlen] at hp
    injection hp with h1'
    have hS := congrArg (fun t => t.2.1) h1'
    dsimp only at hS
    subst hS
    refine ⟨le_trans (dedupKeys_length_le _) (le_of_lt hlen), ?_⟩
    intro p _ _ q hqmem hqS
    exact absurd (mem_dedupKeys_of_mem _ q hqmem) hqS
  · rw [if_neg hlen] at hp
    obtain ⟨hqm, hqc⟩ := qselP_spec (S0 ++ S1).length (S0 ++ S1) (st.M - 1)
      (le_refl _) (by omega) hwfv
    have hwthr : evWF (qselP (S0 ++ S1).length (S0 ++ S1) (st.M - 1)).2 = true :=
      hwfv _ hqm
    have hsp0 : ((S0 ++ S1).filter (fun y => EV.lt y.2
        (qselP (S0 ++ S1).length (S0 ++ S1) (st.M - 1)).2)).length < st.M := by
      omega
    rw [if_pos hsp0] at hp
    split at hp
    · exact absurd hp (by simp)
    · injection hp with h1'
      have hS := congrArg (fun t => t.2.1) h1'
      dsimp only at hS
      subst hS
      constructor
      · refine le_trans (dedupKeys_length_le _) ?_
        rw [List.length_append, List.length_take]
        omega
      · intro p hpmem hpS q hqmem hqS
        have hwp := hwfv p hpmem
        have hwq := hwfv q hqmem
        obtain ⟨p', hp'sp, hp'1⟩ := mem_of_mem_dedupKeys _ p.1 hpS
        have hp'all : p' ∈ S0 ++ S1 := by
          rcases List.mem_append.mp hp'sp with h | h
          · exact List.mem_of_mem_filter h
          · exact List.mem_of_mem_filter (List.take_subset _ _ h)
        have hpp' : p' = p := List.inj_on_of_nodup_map hnd hp'all hpmem hp'1
        rw [hpp'] at hp'sp
        have hple : EV.le p.2
            (qselP (S0 ++ S1).length (S0 ++ S1) (st.M - 1)).2 = true := by
          rcases List.mem_append.mp hp'sp with h | h
          · exact EV.le_of_lt' _ _ (List.mem_filter.mp h).2
          · exact EV.le_of_beq _ _
              (List.mem_filter.mp (List.take_subset _ _ h)).2
        have hqlt : EV.lt q.2
            (qselP (S0 ++ S1).length (S0 ++ S1) (st.M - 1)).2 = false := by
          by_contra hcon
          rw [Bool.not_eq_false] at hcon
          exact absurd (mem_dedupKeys_of_mem _ q
            (List.mem_append_left _ (List.mem_filter.mpr ⟨hqmem, hcon⟩))) hqS
        have hqle : EV.le
            (qselP (S0 ++ S1).length (S0 ++ S1) (st.M - 1)).2 q.2 = true := by
          rw [EV.le, hqlt]; rfl
        exact EV.le_trans' _ _ _ hwp hwthr hwq hple hqle

/-- Concrete check of C6's amended claim: pulling from `st6` (where the
collected entries are `(2, 1)` then `(0, 10)`) returns the two keys
`[0, 2]`, within the cap `M = 2`. -/
theorem pull_prefix_of_collected_witness : ([0, 2] : List Nat).length ≤ st6.M :=
  (pull_prefix_of_collected st6 st6p []
    [(2, .fin ⟨1, 1⟩), (0, .fin ⟨10, 1⟩)] [0, 2] (.fin ⟨7, 1⟩)
    rfl rfl (by decide) (by decide) (by decide) rfl).1

end BV
